import Mathlib

/-!
Verification of the cache-replacement policy suite (LRU, Belady/OPT, ARC,
LARC, N-Hit) against its specification.  The policy engines are shallowly
embedded: Python `OrderedDict`s become Lean lists of keys whose head is the
oldest (least-recently-inserted) entry, Python sets and dicts become lists
and association lists, the `heapq` min-heap becomes a multiset (list) from
which the minimum element is removed on pop, and real-valued quantities
become rationals.  Keys are integers, as in the source.
-/

set_option allowUnsafeReducibility true

attribute [local semireducible] Rat.mul Rat.div Rat.add Rat.sub Rat.inv

/-- Request operation kind; the trace loaders only admit Read and Write. -/
inductive Op where
  | read : Op
  | write : Op
deriving DecidableEq, Repr

/-! ## LRU (src/policies/LRU.py) -/

namespace LRU

/-- State of `LRUCache`: a capacity and an ordered mapping, oldest first. -/
structure State where
  max_capacity : ℕ
  cache_store : List Int
deriving Repr, DecidableEq

/-- `LRUCache.__init__`. -/
def init (max_capacity : ℕ) : State :=
  { max_capacity := max_capacity, cache_store := [] }

/-- `LRUCache.access_or_update_cache`: move-to-end on presence (True),
otherwise evict the least-recent entry when at capacity and append (False). -/
def access_or_update_cache (st : State) (item : Int) : Bool × State :=
  if st.cache_store.contains item then
    (true, { st with cache_store := st.cache_store.erase item ++ [item] })
  else
    let pruned :=
      if st.max_capacity ≤ st.cache_store.length then st.cache_store.drop 1
      else st.cache_store
    (false, { st with cache_store := pruned ++ [item] })

/-- One step of `simulate_lru_policy`: counters are
(read_req, read_miss, write_req, write_miss). -/
def simStep (acc : (ℕ × ℕ × ℕ × ℕ) × State) (req : Int × Op) :
    (ℕ × ℕ × ℕ × ℕ) × State :=
  let (c, st) := acc
  let (hit, st2) := access_or_update_cache st req.1
  match req.2 with
  | Op.read => ((c.1 + 1, (if hit then c.2.1 else c.2.1 + 1), c.2.2.1, c.2.2.2), st2)
  | Op.write => ((c.1, c.2.1, c.2.2.1 + 1, (if hit then c.2.2.2 else c.2.2.2 + 1)), st2)

/-- `LRUCache.simulate_lru_policy` folded over a dataset of (offset, op). -/
def simulate_lru_policy (cap : ℕ) (dataset : List (Int × Op)) :
    (ℕ × ℕ × ℕ × ℕ) × State :=
  dataset.foldl simStep ((0, 0, 0, 0), init cap)

/-- Per-request hit/miss outcomes of the LRU run. -/
def outcomes (cap : ℕ) (dataset : List (Int × Op)) : List Bool :=
  (dataset.foldl
    (fun (acc : List Bool × State) req =>
      let (hit, st2) := access_or_update_cache acc.2 req.1
      (acc.1 ++ [hit], st2))
    ([], init cap)).1

/-- Total hits of the LRU run. -/
def totalHits (cap : ℕ) (dataset : List (Int × Op)) : ℕ :=
  let c := (simulate_lru_policy cap dataset).1
  (c.1 - c.2.1) + (c.2.2.1 - c.2.2.2)

end LRU

/-! ## ARC (src/policies/ARC.py) -/

namespace ARC

/-- State of `ARCCache`: four recency lists (head oldest) and the target p. -/
structure State where
  cache_size : ℕ
  T1 : List Int
  T2 : List Int
  B1 : List Int
  B2 : List Int
  p : ℕ
deriving Repr, DecidableEq

/-- `ARCCache.__init__`. -/
def init (cache_size : ℕ) : State :=
  { cache_size := cache_size, T1 := [], T2 := [], B1 := [], B2 := [], p := 0 }

/-- The balancing loop: while |T1|+|T2| > capacity, demote the oldest entry
of T1 to B1 when |T1| > p, else the oldest entry of T2 to B2.  Fuel-driven;
each productive iteration shrinks |T1|+|T2| by one, so fuel |T1|+|T2|
reproduces the Python `while` loop. -/
def balance : ℕ → State → State
  | 0, st => st
  | fuel + 1, st =>
    if st.T1.length + st.T2.length ≤ st.cache_size then st
    else if st.p < st.T1.length then
      match st.T1 with
      | [] => st
      | old :: rest => balance fuel { st with T1 := rest, B1 := st.B1 ++ [old] }
    else
      match st.T2 with
      | [] => st
      | old :: rest => balance fuel { st with T2 := rest, B2 := st.B2 ++ [old] }

/-- The ghost-trimming loop: while the four lists hold more than 2·capacity
keys, drop the oldest of B1 when |B1| > p, else the oldest of B2. -/
def ghost : ℕ → State → State
  | 0, st => st
  | fuel + 1, st =>
    if st.T1.length + st.T2.length + st.B1.length + st.B2.length ≤ 2 * st.cache_size
    then st
    else if st.p < st.B1.length then
      match st.B1 with
      | [] => st
      | _ :: rest => ghost fuel { st with B1 := rest }
    else
      match st.B2 with
      | [] => st
      | _ :: rest => ghost fuel { st with B2 := rest }

/-- `ARCCache.process_request`.  Hits return immediately; the three miss
cases update p / the lists and then run the balancing and ghost loops.
Subtraction on p is truncated, matching Python's `max(0, p - …)`. -/
def process_request (st : State) (page : Int) : Bool × State :=
  if st.T1.contains page || st.T2.contains page then
    if st.T1.contains page then
      (true, { st with T1 := st.T1.erase page, T2 := st.T2 ++ [page] })
    else
      (true, { st with T2 := st.T2.erase page ++ [page] })
  else
    let st1 :=
      if st.B1.contains page then
        { st with
          p := min st.cache_size (st.p + max 1 (st.B2.length / max 1 st.B1.length)),
          B1 := st.B1.erase page,
          T2 := st.T2 ++ [page] }
      else if st.B2.contains page then
        { st with
          p := st.p - max 1 (st.B1.length / max 1 st.B2.length),
          B2 := st.B2.erase page,
          T2 := st.T2 ++ [page] }
      else
        { st with T1 := st.T1 ++ [page] }
    let st2 := balance (st1.T1.length + st1.T2.length) st1
    let st3 := ghost (st2.B1.length + st2.B2.length) st2
    (false, st3)

/-- One step of `ARCCache.simulate`: counters are
(read_req, read_hit, read_miss, write_req, write_hit, write_miss). -/
def simStep (acc : (ℕ × ℕ × ℕ × ℕ × ℕ × ℕ) × State) (req : Int × Op) :
    (ℕ × ℕ × ℕ × ℕ × ℕ × ℕ) × State :=
  let (c, st) := acc
  let (hit, st2) := process_request st req.1
  match req.2 with
  | Op.read =>
      ((c.1 + 1, (if hit then c.2.1 + 1 else c.2.1),
        (if hit then c.2.2.1 else c.2.2.1 + 1), c.2.2.2), st2)
  | Op.write =>
      ((c.1, c.2.1, c.2.2.1, c.2.2.2.1 + 1,
        (if hit then c.2.2.2.2.1 + 1 else c.2.2.2.2.1),
        (if hit then c.2.2.2.2.2 else c.2.2.2.2.2 + 1)), st2)

/-- `ARCCache.simulate` folded over a dataset of (page, op). -/
def simulate (cap : ℕ) (dataset : List (Int × Op)) :
    (ℕ × ℕ × ℕ × ℕ × ℕ × ℕ) × State :=
  dataset.foldl simStep ((0, 0, 0, 0, 0, 0), init cap)

/-- Per-request hit/miss outcomes of the ARC run. -/
def outcomes (cap : ℕ) (dataset : List (Int × Op)) : List Bool :=
  (dataset.foldl
    (fun (acc : List Bool × State) req =>
      let (hit, st2) := process_request acc.2 req.1
      (acc.1 ++ [hit], st2))
    ([], init cap)).1

/-- Total hits of the ARC run. -/
def totalHits (cap : ℕ) (dataset : List (Int × Op)) : ℕ :=
  let c := (simulate cap dataset).1
  c.2.1 + c.2.2.2.2.1

end ARC

/-! ## LARC (src/policies/LARC.py) -/

namespace LARC

/-- State of `LARCCache`: primary cache, admission filter, adaptive limit. -/
structure State where
  cache_size : ℕ
  cache : List Int
  recent_cache : List Int
  recent_cache_limit : ℚ
deriving Repr, DecidableEq

/-- `LARCCache.__init__`: the limit starts at 0.1·capacity. -/
def init (cache_size : ℕ) : State :=
  { cache_size := cache_size, cache := [], recent_cache := [],
    recent_cache_limit := (1 / 10 : ℚ) * cache_size }

/-- `LARCCache.process_request`.  Case 1: primary hit, shrink the limit.
Case 2: admission-filter hit, grow the limit and promote.  Case 3: insert
into the filter and drop one oldest entry if over the limit. -/
def process_request (st : State) (page : Int) : Bool × State :=
  if st.cache.contains page then
    (true, { st with
      cache := st.cache.erase page ++ [page],
      recent_cache_limit :=
        max ((1 / 10 : ℚ) * st.cache_size)
          (st.recent_cache_limit -
            (st.cache_size : ℚ) / ((st.cache_size : ℚ) - st.recent_cache_limit)) })
  else if st.recent_cache.contains page then
    let st1 := { st with
      recent_cache_limit :=
        min ((9 / 10 : ℚ) * st.cache_size)
          (st.recent_cache_limit + (st.cache_size : ℚ) / st.recent_cache_limit),
      recent_cache := st.recent_cache.erase page,
      cache := st.cache ++ [page] }
    (false,
      if st1.cache_size < st1.cache.length then { st1 with cache := st1.cache.drop 1 }
      else st1)
  else
    let r := st.recent_cache ++ [page]
    (false, { st with
      recent_cache := if st.recent_cache_limit < (r.length : ℚ) then r.drop 1 else r })

/-- One step of `LARCCache.simulate` (same counter layout as ARC's). -/
def simStep (acc : (ℕ × ℕ × ℕ × ℕ × ℕ × ℕ) × State) (req : Int × Op) :
    (ℕ × ℕ × ℕ × ℕ × ℕ × ℕ) × State :=
  let (c, st) := acc
  let (hit, st2) := process_request st req.1
  match req.2 with
  | Op.read =>
      ((c.1 + 1, (if hit then c.2.1 + 1 else c.2.1),
        (if hit then c.2.2.1 else c.2.2.1 + 1), c.2.2.2), st2)
  | Op.write =>
      ((c.1, c.2.1, c.2.2.1, c.2.2.2.1 + 1,
        (if hit then c.2.2.2.2.1 + 1 else c.2.2.2.2.1),
        (if hit then c.2.2.2.2.2 else c.2.2.2.2.2 + 1)), st2)

/-- `LARCCache.simulate` folded over a dataset of (page, op). -/
def simulate (cap : ℕ) (dataset : List (Int × Op)) :
    (ℕ × ℕ × ℕ × ℕ × ℕ × ℕ) × State :=
  dataset.foldl simStep ((0, 0, 0, 0, 0, 0), init cap)

/-- Per-request hit/miss outcomes of the LARC run. -/
def outcomes (cap : ℕ) (dataset : List (Int × Op)) : List Bool :=
  (dataset.foldl
    (fun (acc : List Bool × State) req =>
      let (hit, st2) := process_request acc.2 req.1
      (acc.1 ++ [hit], st2))
    ([], init cap)).1

/-- Total hits of the LARC run. -/
def totalHits (cap : ℕ) (dataset : List (Int × Op)) : ℕ :=
  let c := (simulate cap dataset).1
  c.2.1 + c.2.2.2.2.1

end LARC

/-! ## Belady / OPT (src/policies/Belady.py)

`float('inf')` next-use values are modelled by `Option ℕ` with `none` = +∞.
The `heapq` heap of `(-next_use, page)` tuples is modelled as a multiset
(list) of `(next_use, page)` entries from which a pop removes the entry that
is minimal for the tuple order on `(-next_use, page)` — i.e. the entry with
the farthest next use, ties broken by the smaller page.  Pop order of a
binary heap depends only on the multiset of its elements, so this is
observationally faithful. -/

namespace OPT

/-- next-use comparison: `a` strictly farther than `b` (−a < −b), `none` = +∞. -/
def nuGt : Option ℕ → Option ℕ → Bool
  | none, none => false
  | none, some _ => true
  | some _, none => false
  | some a, some b => b < a

/-- Heap-tuple order `(-next_use, page) ≤ (-next_use, page)` (lexicographic). -/
def entLE (e1 e2 : Option ℕ × Int) : Bool :=
  nuGt e1.1 e2.1 || (e1.1 == e2.1 && e1.2 ≤ e2.2)

/-- Minimal heap entry with respect to `entLE` (what `heappop` returns). -/
def heapMinEnt : List (Option ℕ × Int) → Option (Option ℕ × Int)
  | [] => none
  | e :: rest =>
    match heapMinEnt rest with
    | none => some e
    | some m => if entLE e m then some e else some m

/-- Association-list read, `dict.get`. -/
def alookup (l : List (Int × Option ℕ)) (k : Int) : Option (Option ℕ) :=
  match l with
  | [] => none
  | (k2, v) :: rest => if k2 = k then some v else alookup rest k

/-- Association-list write, `dict[k] = v`. -/
def aset : List (Int × Option ℕ) → Int → Option ℕ → List (Int × Option ℕ)
  | [], k, v => [(k, v)]
  | (k2, v2) :: rest, k, v =>
    if k2 = k then (k2, v) :: rest else (k2, v2) :: aset rest k v

/-- Association-list delete, `del dict[k]`. -/
def adel : List (Int × Option ℕ) → Int → List (Int × Option ℕ)
  | [], _ => []
  | (k2, v2) :: rest, k => if k2 = k then rest else (k2, v2) :: adel rest k

/-- State of `OptimalCache`. -/
structure State where
  capacity : ℕ
  cache : List Int
  heap : List (Option ℕ × Int)
  page_next_use : List (Int × Option ℕ)
deriving Repr, DecidableEq

/-- `OptimalCache.__init__`. -/
def init (capacity : ℕ) : State :=
  { capacity := capacity, cache := [], heap := [], page_next_use := [] }

/-- The lazy-invalidation pop loop of `access_page`: pop entries off the
heap; an entry whose page is no longer cached or whose next-use value
disagrees with `page_next_use` is stale and is discarded; the first valid
entry is the victim.  Returns the victim (if any) and the remaining heap. -/
def evict_loop : ℕ → List Int → List (Int × Option ℕ) → List (Option ℕ × Int) →
    Option (Option ℕ × Int) × List (Option ℕ × Int)
  | 0, _, _, heap => (none, heap)
  | fuel + 1, cache, pnu, heap =>
    match heapMinEnt heap with
    | none => (none, heap)
    | some e =>
      let heap2 := heap.erase e
      if cache.contains e.2 && alookup pnu e.2 == some e.1 then (some e, heap2)
      else evict_loop fuel cache pnu heap2

/-- `OptimalCache.access_page`: returns (hit, evicted page, new state). -/
def access_page (st : State) (page : Int) (next_use : Option ℕ) :
    Bool × Option Int × State :=
  if st.cache.contains page then
    (true, none,
      { st with
        page_next_use := aset st.page_next_use page next_use,
        heap := st.heap ++ [(next_use, page)] })
  else
    let step1 :=
      if st.capacity ≤ st.cache.length then
        match evict_loop st.heap.length st.cache st.page_next_use st.heap with
        | (some e, heap2) =>
            (some e.2,
              { st with
                cache := st.cache.erase e.2,
                page_next_use := adel st.page_next_use e.2,
                heap := heap2 })
        | (none, heap2) => (none, { st with heap := heap2 })
      else (none, st)
    (false, step1.1,
      { step1.2 with
        cache := step1.2.cache ++ [page],
        page_next_use := aset step1.2.page_next_use page next_use,
        heap := step1.2.heap ++ [(next_use, page)] })

/-- `CacheSimulator.precompute_next_use`, single reverse pass maintaining
`last_occurrence`; position index is threaded so the recursion processes the
rightmost element first.  Returns the next-use list and the map. -/
def precomputeGo : ℕ → List Int → List (Option ℕ) × List (Int × ℕ)
  | _, [] => ([], [])
  | i, k :: rest =>
    let pr := precomputeGo (i + 1) rest
    ((pr.2.lookup k) :: pr.1,
      if pr.2.lookup k = none then pr.2 ++ [(k, i)]
      else pr.2.map (fun e => if e.1 = k then (k, i) else e))

/-- `precompute_next_use` over the key sequence. -/
def precompute_next_use (keys : List Int) : List (Option ℕ) :=
  (precomputeGo 0 keys).1

/-- One step of `CacheSimulator.simulate`: counters are
(read_hit, read_miss, write_hit, write_miss). -/
def simStep (acc : (ℕ × ℕ × ℕ × ℕ) × State) (req : (Int × Op) × Option ℕ) :
    (ℕ × ℕ × ℕ × ℕ) × State :=
  let (c, st) := acc
  let r := access_page st req.1.1 req.2
  let hit := r.1
  let st2 := r.2.2
  match req.1.2 with
  | Op.read => (((if hit then c.1 + 1 else c.1), (if hit then c.2.1 else c.2.1 + 1),
      c.2.2.1, c.2.2.2), st2)
  | Op.write => ((c.1, c.2.1, (if hit then c.2.2.1 + 1 else c.2.2.1),
      (if hit then c.2.2.2 else c.2.2.2 + 1)), st2)

/-- `CacheSimulator.simulate` driven by the precomputed next-use array. -/
def simulate (cap : ℕ) (sequence : List (Int × Op)) : (ℕ × ℕ × ℕ × ℕ) × State :=
  (sequence.zip (precompute_next_use (sequence.map Prod.fst))).foldl
    simStep ((0, 0, 0, 0), init cap)

/-- Per-request hit/miss outcomes of the OPT run. -/
def outcomes (cap : ℕ) (sequence : List (Int × Op)) : List Bool :=
  ((sequence.zip (precompute_next_use (sequence.map Prod.fst))).foldl
    (fun (acc : List Bool × State) req =>
      let r := access_page acc.2 req.1.1 req.2
      (acc.1 ++ [r.1], r.2.2))
    ([], init cap)).1

/-- Total hits of the OPT run. -/
def totalHits (cap : ℕ) (sequence : List (Int × Op)) : ℕ :=
  let c := (simulate cap sequence).1
  c.1 + c.2.2.1

end OPT

/-! ## N-Hit, lowest-count eviction (src/policies/N-Hit.py)

The `SortedList` of `(nhit, insertion_counter, item)` tuples is modelled as
a multiset (list); `pop(0)` removes the lexicographically smallest tuple,
which is unique because insertion counters are distinct. -/

namespace NHit

/-- Lexicographic order on `(nhit, insertion_counter, item)` tuples. -/
def triLE (a b : ℕ × ℕ × Int) : Bool :=
  a.1 < b.1 || (a.1 == b.1 &&
    (a.2.1 < b.2.1 || (a.2.1 == b.2.1 && a.2.2 ≤ b.2.2)))

/-- Smallest tuple of the sorted index (what `sorted_items.pop(0)` removes). -/
def triMin : List (ℕ × ℕ × Int) → Option (ℕ × ℕ × Int)
  | [] => none
  | e :: rest =>
    match triMin rest with
    | none => some e
    | some m => if triLE e m then some e else some m

/-- Association-list read with a default, `defaultdict` / `dict.get`. -/
def lookupD (l : List (Int × ℕ)) (k : Int) : ℕ :=
  match l with
  | [] => 0
  | (k2, v) :: rest => if k2 = k then v else lookupD rest k

/-- `tracking[item] += 1` on a `defaultdict(int)`. -/
def bump : List (Int × ℕ) → Int → List (Int × ℕ)
  | [], k => [(k, 1)]
  | (k2, v) :: rest, k =>
    if k2 = k then (k2, v + 1) :: rest else (k2, v) :: bump rest k

/-- Association-list write for the cache dict. -/
def cset : List (Int × ℕ) → Int → ℕ → List (Int × ℕ)
  | [], k, v => [(k, v)]
  | (k2, v2) :: rest, k, v =>
    if k2 = k then (k2, v) :: rest else (k2, v2) :: cset rest k v

/-- Association-list delete for the cache dict. -/
def cdel : List (Int × ℕ) → Int → List (Int × ℕ)
  | [], _ => []
  | (k2, v2) :: rest, k => if k2 = k then rest else (k2, v2) :: cdel rest k

/-- State of `NHitCache`. -/
structure State where
  capacity : ℕ
  trigger_threshold : ℚ
  insertion_threshold : ℕ
  cache : List (Int × ℕ)
  tracking : List (Int × ℕ)
  sorted_items : List (ℕ × ℕ × Int)
  insertion_counter : ℕ
deriving Repr, DecidableEq

/-- `NHitCache.__init__`. -/
def init (capacity : ℕ) (trigger_threshold : ℚ) (insertion_threshold : ℕ) : State :=
  { capacity := capacity, trigger_threshold := trigger_threshold,
    insertion_threshold := insertion_threshold,
    cache := [], tracking := [], sorted_items := [], insertion_counter := 0 }

/-- Keys currently resident in the cache dict. -/
def cacheKeys (st : State) : List Int := st.cache.map Prod.fst

/-- `NHitCache._evict`: remove the smallest tuple of the index and its
cache entry (no-op on an empty index). -/
def evictOne (st : State) : State :=
  match triMin st.sorted_items with
  | none => st
  | some v =>
      { st with
        sorted_items := st.sorted_items.erase v,
        cache := cdel st.cache v.2.2 }

/-- `NHitCache.access`: bump the tracking count. -/
def access (st : State) (item : Int) : State :=
  { st with tracking := bump st.tracking item }

/-- `NHitCache.promote`: evict if at capacity, then admit the item with its
current tracking count and register it in the sorted index. -/
def promote (st : State) (item : Int) : State :=
  let st1 := if st.capacity ≤ st.cache.length then evictOne st else st
  let nhit := lookupD st1.tracking item
  { st1 with
    cache := cset st1.cache item nhit,
    insertion_counter := st1.insertion_counter + 1,
    sorted_items := st1.sorted_items ++ [(nhit, st1.insertion_counter + 1, item)] }

/-- `NHitCache.should_promote`: occupancy at or below the trigger threshold,
or tracking count at or above the insertion threshold. -/
def should_promote (st : State) (item : Int) : Bool :=
  if (100 * st.cache.length : ℚ) / st.capacity ≤ st.trigger_threshold then true
  else decide (st.insertion_threshold ≤ lookupD st.tracking item)

/-- One request of the `simulate_nhit` loop: on a hit nothing changes; on a
miss the access is tracked and the item is promoted when
`should_promote` says so.  Returns the hit flag. -/
def processOne (st : State) (item : Int) : Bool × State :=
  if (cacheKeys st).contains item then (true, st)
  else
    let st1 := access st item
    (false, if should_promote st1 item then promote st1 item else st1)

/-- One step of `simulate_nhit`: counters are
(read_hit, read_miss, write_hit, write_miss, cold_misses) with the set of
keys seen as misses threaded alongside. -/
def simStep (acc : ((ℕ × ℕ × ℕ × ℕ × ℕ) × List Int) × State) (req : Int × Op) :
    ((ℕ × ℕ × ℕ × ℕ × ℕ) × List Int) × State :=
  let ((c, seen), st) := acc
  let (hit, st2) := processOne st req.1
  let cold := !hit && !(seen.contains req.1)
  let seen2 := if cold then seen ++ [req.1] else seen
  let c2 :=
    match req.2 with
    | Op.read =>
        ((if hit then c.1 + 1 else c.1), (if hit then c.2.1 else c.2.1 + 1),
          c.2.2.1, c.2.2.2.1, (if cold then c.2.2.2.2 + 1 else c.2.2.2.2))
    | Op.write =>
        (c.1, c.2.1, (if hit then c.2.2.1 + 1 else c.2.2.1),
          (if hit then c.2.2.2.1 else c.2.2.2.1 + 1),
          (if cold then c.2.2.2.2 + 1 else c.2.2.2.2))
  ((c2, seen2), st2)

/-- `simulate_nhit` folded over a dataset of (offset, op). -/
def simulate (cap : ℕ) (trigger : ℚ) (insThr : ℕ) (dataset : List (Int × Op)) :
    ((ℕ × ℕ × ℕ × ℕ × ℕ) × List Int) × State :=
  dataset.foldl simStep (((0, 0, 0, 0, 0), []), init cap trigger insThr)

/-- Per-request hit/miss outcomes of the N-Hit run. -/
def outcomes (cap : ℕ) (trigger : ℚ) (insThr : ℕ) (dataset : List (Int × Op)) :
    List Bool :=
  (dataset.foldl
    (fun (acc : List Bool × State) req =>
      let (hit, st2) := processOne acc.2 req.1
      (acc.1 ++ [hit], st2))
    ([], init cap trigger insThr)).1

/-- Total hits of the N-Hit run. -/
def totalHits (cap : ℕ) (trigger : ℚ) (insThr : ℕ) (dataset : List (Int × Op)) : ℕ :=
  let c := ((simulate cap trigger insThr dataset).1).1
  c.1 + c.2.2.1

end NHit

/-! ## N-Hit, LRU-backed eviction (src/LRU&N-Hit.py) -/

namespace NHitLRU

/-- `LRUCache` of src/LRU&N-Hit.py (insert-then-trim variant). -/
structure LRUPart where
  capacity : ℕ
  cache : List Int
deriving Repr, DecidableEq

/-- `LRUCache.is_present`. -/
def is_present (l : LRUPart) (key : Int) : Bool := l.cache.contains key

/-- `LRUCache.access`: move-to-end when present. -/
def accessLRU (l : LRUPart) (key : Int) : LRUPart :=
  if l.cache.contains key then { l with cache := l.cache.erase key ++ [key] }
  else l

/-- `LRUCache.insert`: move-to-end or append, then drop the oldest entry
when over capacity; returns the evicted key, if any. -/
def insert (l : LRUPart) (key : Int) : Option Int × LRUPart :=
  let c1 := if l.cache.contains key then l.cache.erase key ++ [key]
            else l.cache ++ [key]
  if l.capacity < c1.length then
    (c1.head?, { l with cache := c1.drop 1 })
  else (none, { l with cache := c1 })

/-- State of `NHitPolicy` (tracker bounded by `max_tracked_items`). -/
structure Policy where
  trigger_threshold : ℚ
  N : ℕ
  cache_capacity : ℕ
  max_tracked_items : ℕ
  access_counts : List (Int × ℕ)
  tracking_queue : List Int
deriving Repr, DecidableEq

/-- `NHitPolicy.record_access`: bump a tracked item, otherwise make room by
dropping the oldest tracked item when the tracker is full, then track the
item with count 1. -/
def record_access (po : Policy) (item : Int) : Policy :=
  if (po.access_counts.map Prod.fst).contains item then
    { po with access_counts := NHit.bump po.access_counts item }
  else
    let po1 :=
      if po.max_tracked_items ≤ po.access_counts.length then
        match po.tracking_queue with
        | [] => po
        | oldest :: rest =>
            { po with access_counts := NHit.cdel po.access_counts oldest,
                      tracking_queue := rest }
      else po
    { po1 with access_counts := po1.access_counts ++ [(item, 1)],
               tracking_queue := po1.tracking_queue ++ [item] }

/-- `NHitPolicy.should_promote`. -/
def should_promote (po : Policy) (item : Int) (is_cache_hit : Bool)
    (current_cache_occupancy : ℕ) : Bool :=
  if (100 * current_cache_occupancy : ℚ) / po.cache_capacity ≤ po.trigger_threshold
    || is_cache_hit then true
  else decide (po.N ≤ NHit.lookupD po.access_counts item)

/-- `NHitPolicy.remove_from_tracking`. -/
def remove_from_tracking (po : Policy) (item : Int) : Policy :=
  if (po.access_counts.map Prod.fst).contains item then
    { po with access_counts := NHit.cdel po.access_counts item,
              tracking_queue := po.tracking_queue.erase item }
  else po

/-- One request of the `simulate_nhit_lru` loop: record the access, test
the LRU cache, and on a miss insert only when promotion is granted. -/
def processOne (st : LRUPart × Policy) (item : Int) : Bool × (LRUPart × Policy) :=
  let (lru, po) := st
  let po1 := record_access po item
  let hit := is_present lru item
  if hit then (true, (accessLRU lru item, po1))
  else if should_promote po1 item false lru.cache.length then
    (false, ((insert lru item).2, remove_from_tracking po1 item))
  else (false, (lru, po1))

/-- `simulate_nhit_lru` folded over a dataset of (item, op): counters are
(read_req, read_hit, write_req, write_hit). -/
def simulate (cap : ℕ) (trigger : ℚ) (n : ℕ) (maxTracked : ℕ)
    (dataset : List (Int × Op)) : (ℕ × ℕ × ℕ × ℕ) × (LRUPart × Policy) :=
  dataset.foldl
    (fun acc req =>
      let (c, st) := acc
      let (hit, st2) := processOne st req.1
      match req.2 with
      | Op.read => ((c.1 + 1, (if hit then c.2.1 + 1 else c.2.1), c.2.2.1, c.2.2.2), st2)
      | Op.write => ((c.1, c.2.1, c.2.2.1 + 1, (if hit then c.2.2.2 + 1 else c.2.2.2)), st2))
    ((0, 0, 0, 0),
      ({ capacity := cap, cache := [] },
       { trigger_threshold := trigger, N := n, cache_capacity := cap,
         max_tracked_items := maxTracked, access_counts := [], tracking_queue := [] }))

/-- Per-request hit/miss outcomes of the N-Hit-LRU run. -/
def outcomes (cap : ℕ) (trigger : ℚ) (n : ℕ) (maxTracked : ℕ)
    (dataset : List (Int × Op)) : List Bool :=
  (dataset.foldl
    (fun (acc : List Bool × (LRUPart × Policy)) req =>
      let (hit, st2) := processOne acc.2 req.1
      (acc.1 ++ [hit], st2))
    ([], ({ capacity := cap, cache := [] },
      { trigger_threshold := trigger, N := n, cache_capacity := cap,
        max_tracked_items := maxTracked, access_counts := [], tracking_queue := [] }))).1

/-- Total hits of the N-Hit-LRU run. -/
def totalHits (cap : ℕ) (trigger : ℚ) (n : ℕ) (maxTracked : ℕ)
    (dataset : List (Int × Op)) : ℕ :=
  let c := (simulate cap trigger n maxTracked dataset).1
  c.2.1 + c.2.2.2

end NHitLRU

/-! ## Constructors (error handling)

Each Python `__init__` is embedded as a fallible constructor (`Option`,
`none` standing for a raised exception).  None of the source constructors
contains a validation check or a `raise`, so every body is `some …` with the
parameters stored verbatim.  Parameters are embedded at their Python types:
integers as `ℤ`, floats as `ℚ`. -/

namespace Construct

/-- `q` truncated toward zero, Python `int(q)`. -/
def intTrunc (q : ℚ) : ℤ := q.num / (q.den : ℤ)

/-- Parameter record stored by `LRUCache.__init__` (src/policies/LRU.py). -/
structure LRUCacheObj where
  max_capacity : ℤ
deriving Repr, DecidableEq

/-- `LRUCache.__init__`: stores the capacity, no validation. -/
def mkLRUCache (max_capacity : ℤ) : Option LRUCacheObj :=
  some { max_capacity := max_capacity }

/-- Parameter record stored by `OptimalCache.__init__` (src/policies/Belady.py). -/
structure OptimalCacheObj where
  capacity : ℤ
deriving Repr, DecidableEq

/-- `OptimalCache.__init__`: stores the capacity, no validation. -/
def mkOptimalCache (capacity : ℤ) : Option OptimalCacheObj :=
  some { capacity := capacity }

/-- Parameter record stored by `ARCCache.__init__` (src/policies/ARC.py). -/
structure ARCCacheObj where
  cache_size : ℤ
deriving Repr, DecidableEq

/-- `ARCCache.__init__`: stores the capacity, no validation. -/
def mkARCCache (cache_size : ℤ) : Option ARCCacheObj :=
  some { cache_size := cache_size }

/-- Parameter record stored by `LARCCache.__init__` (src/policies/LARC.py). -/
structure LARCCacheObj where
  cache_size : ℤ
  recent_cache_limit : ℚ
deriving Repr, DecidableEq

/-- `LARCCache.__init__`: stores the capacity and the initial limit. -/
def mkLARCCache (cache_size : ℤ) : Option LARCCacheObj :=
  some { cache_size := cache_size,
         recent_cache_limit := (1 / 10 : ℚ) * cache_size }

/-- Parameter record stored by `NHitCache.__init__` (src/policies/N-Hit.py). -/
structure NHitCacheObj where
  capacity : ℤ
  trigger_threshold : ℚ
  insertion_threshold : ℤ
deriving Repr, DecidableEq

/-- `NHitCache.__init__`: stores the three parameters, no validation. -/
def mkNHitCache (capacity : ℤ) (trigger_threshold : ℚ)
    (insertion_threshold : ℤ) : Option NHitCacheObj :=
  some { capacity := capacity, trigger_threshold := trigger_threshold,
         insertion_threshold := insertion_threshold }

/-- Parameter record stored by `NHitPolicy.__init__` (src/LRU&N-Hit.py). -/
structure NHitPolicyObj where
  trigger_threshold : ℚ
  N : ℤ
  cache_capacity : ℤ
  max_tracked_items : ℤ
deriving Repr, DecidableEq

/-- `NHitPolicy.__init__`: stores the parameters and the truncated tracker
bound, no validation.  The last argument is Python's `tracking_ratio`. -/
def mkNHitPolicy (cache_capacity : ℤ) (trigger_threshold : ℚ) (n : ℤ)
    (tracking_mult : ℚ) : Option NHitPolicyObj :=
  some { trigger_threshold := trigger_threshold, N := n,
         cache_capacity := cache_capacity,
         max_tracked_items := intTrunc (tracking_mult * cache_capacity) }

end Construct

/-! ## Shared helper lemmas -/

theorem arc_balance_p (fuel : ℕ) (st : ARC.State) :
    (ARC.balance fuel st).p = st.p := by
  induction fuel generalizing st with
  | zero => rfl
  | succ f ih =>
    unfold ARC.balance
    split
    · rfl
    · split
      · split
        · rfl
        · rw [ih]
      · split
        · rfl
        · rw [ih]

theorem arc_balance_cache_size (fuel : ℕ) (st : ARC.State) :
    (ARC.balance fuel st).cache_size = st.cache_size := by
  induction fuel generalizing st with
  | zero => rfl
  | succ f ih =>
    unfold ARC.balance
    split
    · rfl
    · split
      · split
        · rfl
        · rw [ih]
      · split
        · rfl
        · rw [ih]

theorem arc_ghost_p (fuel : ℕ) (st : ARC.State) :
    (ARC.ghost fuel st).p = st.p := by
  induction fuel generalizing st with
  | zero => rfl
  | succ f ih =>
    unfold ARC.ghost
    split
    · rfl
    · split
      · split
        · rfl
        · rw [ih]
      · split
        · rfl
        · rw [ih]

/-! ## C9 — constructor validation -/

/-- C9 (counterexample): construction is not rejected for invalid
parameters.  A negative LRU capacity, a zero ARC capacity and an N-Hit
trigger threshold of 150 (outside 0..100) are all accepted, and the N-Hit
engine built with the out-of-range threshold processes a request normally
(the first access misses and is promoted). -/
theorem constructor_accepts_invalid :
    Construct.mkLRUCache (-5) = some { max_capacity := -5 } ∧
    Construct.mkARCCache 0 = some { cache_size := 0 } ∧
    Construct.mkNHitCache 5 150 3 =
      some { capacity := 5, trigger_threshold := 150, insertion_threshold := 3 } ∧
    (NHit.processOne (NHit.init 5 150 3) 1).1 = false ∧
    NHit.cacheKeys (NHit.processOne (NHit.init 5 150 3) 1).2 = [1] := by
  decide

/-- C9 (amended): no engine validates its constructor parameters —
construction always succeeds, storing the given parameters verbatim
(for LARC together with the derived initial limit, for the LRU-backed
N-Hit policy together with the truncated tracker bound). -/
theorem constructors_never_reject :
    (∀ c : ℤ, Construct.mkLRUCache c = some { max_capacity := c }) ∧
    (∀ c : ℤ, Construct.mkOptimalCache c = some { capacity := c }) ∧
    (∀ c : ℤ, Construct.mkARCCache c = some { cache_size := c }) ∧
    (∀ c : ℤ, Construct.mkLARCCache c =
      some { cache_size := c, recent_cache_limit := (1 / 10 : ℚ) * c }) ∧
    (∀ c i : ℤ, ∀ t : ℚ, Construct.mkNHitCache c t i =
      some { capacity := c, trigger_threshold := t, insertion_threshold := i }) ∧
    (∀ c n : ℤ, ∀ t r : ℚ, Construct.mkNHitPolicy c t n r =
      some { trigger_threshold := t, N := n, cache_capacity := c,
             max_tracked_items := Construct.intTrunc (r * c) }) :=
  ⟨fun _ => rfl, fun _ => rfl, fun _ => rfl, fun _ => rfl,
   fun _ _ _ => rfl, fun _ _ _ _ => rfl⟩

/-! ## C8 — N-Hit lowest-count scenario S5 -/

/-- The S5 trace A,A,A,B,B,B,C,C,A with A=1, B=2, C=3, all reads. -/
def s5trace : List (Int × Op) :=
  [(1, Op.read), (1, Op.read), (1, Op.read), (2, Op.read), (2, Op.read),
   (2, Op.read), (3, Op.read), (3, Op.read), (1, Op.read)]

/-- C8 (counterexample): with capacity 2, trigger threshold 0 and insertion
threshold 3, key A is promoted already on its FIRST access (the empty cache
has occupancy 0 ≤ trigger 0), not on its third; its second and third
accesses are hits, and the promotion path only runs on misses. -/
theorem nhit_s5_first_access_promotion :
    NHit.cacheKeys (NHit.simulate 2 0 3 [((1 : Int), Op.read)]).2 = [1] ∧
    NHit.outcomes 2 0 3 s5trace =
      [false, true, true, false, false, false, false, false, true] := by
  decide

/-- C8 (amended): in the S5 run (capacity 2, trigger 0, insertion threshold
3, trace A,A,A,B,B,B,C,C,A) A is promoted on its first access; B is not
resident before its third access and is promoted exactly on its third
access, evicting nothing (A stays resident); C is never promoted; the final
access to A is a Hit; and the final cache contents are exactly {A, B}. -/
theorem nhit_scenario_s5 :
    NHit.cacheKeys (NHit.simulate 2 0 3 (s5trace.take 1)).2 = [1] ∧
    NHit.cacheKeys (NHit.simulate 2 0 3 (s5trace.take 5)).2 = [1] ∧
    NHit.cacheKeys (NHit.simulate 2 0 3 (s5trace.take 6)).2 = [1, 2] ∧
    NHit.cacheKeys (NHit.simulate 2 0 3 (s5trace.take 7)).2 = [1, 2] ∧
    NHit.cacheKeys (NHit.simulate 2 0 3 (s5trace.take 8)).2 = [1, 2] ∧
    NHit.outcomes 2 0 3 s5trace =
      [false, true, true, false, false, false, false, false, true] ∧
    NHit.cacheKeys (NHit.simulate 2 0 3 s5trace).2 = [1, 2] := by
  decide

/-! ## C3 — the ARC p update -/

/-- Ceiling division on naturals, used to state the claimed formula. -/
def ceilDivNat (a b : ℕ) : ℕ := (a + b - 1) / b

/-- The p update the specification claims for ARC Case II (ghost hit in
B1), stated with ceiling division, from the spec's words. -/
def arcSpecPAfterB1Hit (st : ARC.State) : ℕ :=
  min st.cache_size (st.p + max 1 (ceilDivNat st.B2.length (max 1 st.B1.length)))

/-- The p update the specification claims for ARC Case III (ghost hit in
B2), stated with ceiling division, from the spec's words. -/
def arcSpecPAfterB2Hit (st : ARC.State) : ℕ :=
  st.p - max 1 (ceilDivNat st.B1.length (max 1 st.B2.length))

/-- Request prefix reaching an ARC state (capacity 5) whose ghost lists
have sizes |B1| = 3 and |B2| = 2, with key 3 resident in B2. -/
def c3keys : List Int := [1, 2, 3, 4, 5, 6, 7, 1, 2, 3, 4, 1, 2, 8, 9, 8, 10]

/-- The ARC state reached by `c3keys` from capacity 5. -/
def c3state : ARC.State :=
  c3keys.foldl (fun st k => (ARC.process_request st k).2) (ARC.init 5)

/-- C3 (counterexample): in the reachable capacity-5 ARC state after the
request sequence `c3keys` (where B1 = [5,6,7], B2 = [3,4] and p = 2), an
access to key 3 ∈ B2 sets p to 2 − max(1, ⌊3/2⌋) = 1, while the claimed
ceiling-division formula gives 2 − max(1, ⌈3/2⌉) = 0: the division in the
source is floor division, not ceiling division. -/
theorem arc_p_update_ceil_counterexample :
    (3 : Int) ∈ c3state.B2 ∧ (3 : Int) ∉ c3state.T1 ∧ (3 : Int) ∉ c3state.T2 ∧
    (3 : Int) ∉ c3state.B1 ∧ c3state.B1.length = 3 ∧ c3state.B2.length = 2 ∧
    c3state.p = 2 ∧
    ((ARC.process_request c3state 3).2).p = 1 ∧
    arcSpecPAfterB2Hit c3state = 0 := by
  decide

/-- C3 (amended): on an access to a key resident in ghost list B1 the ARC
engine sets p to min(capacity, p + max(1, ⌊|B2|/max(1,|B1|)⌋)), and on an
access to a key resident in B2 it sets p to max(0, p − max(1,
⌊|B1|/max(1,|B2|)⌋)) (truncated subtraction on ℕ), with the ghost-list
sizes taken immediately before the update and the division a FLOOR
division. -/
theorem arc_p_update_floor_div (st : ARC.State) (page : Int)
    (hT1 : page ∉ st.T1) (hT2 : page ∉ st.T2) :
    (page ∈ st.B1 →
      ((ARC.process_request st page).2).p =
        min st.cache_size (st.p + max 1 (st.B2.length / max 1 st.B1.length))) ∧
    (page ∉ st.B1 → page ∈ st.B2 →
      ((ARC.process_request st page).2).p =
        st.p - max 1 (st.B1.length / max 1 st.B2.length)) := by
  constructor
  · intro hB1
    simp [ARC.process_request, List.contains, List.elem_eq_mem, hT1, hT2, hB1,
      arc_ghost_p, arc_balance_p]
  · intro hB1 hB2
    simp [ARC.process_request, List.contains, List.elem_eq_mem, hT1, hT2, hB1, hB2,
      arc_ghost_p, arc_balance_p]

/-- Witness for `arc_p_update_floor_div` at a concrete state with
|B1| = 2, |B2| = 3, p = 1: a hit on 10 ∈ B1 gives p = min 5 (1 + max 1 1) = 2. -/
theorem arc_p_update_floor_div_witness :
    ((ARC.process_request ⟨5, [], [], [10, 11], [20, 21, 22], 1⟩ 10).2).p = 2 := by
  have h :=
    (arc_p_update_floor_div ⟨5, [], [], [10, 11], [20, 21, 22], 1⟩ 10
      (by decide) (by decide)).1 (by decide)
  rw [h]; decide

/-! ## C4 — the LARC admission filter -/

/-- Invariant carried through LARC runs: the capacity field is fixed, the
adaptive limit never exceeds 0.9·capacity, and the admission filter holds
at most ⌊0.9·capacity⌋ keys. -/
def LARCInv (cap : ℕ) (st : LARC.State) : Prop :=
  st.cache_size = cap ∧ st.recent_cache_limit ≤ (9 / 10 : ℚ) * cap ∧
    st.recent_cache.length ≤ 9 * cap / 10

theorem larc_case1_eq (st : LARC.State) (page : Int)
    (h : st.cache.contains page = true) :
    LARC.process_request st page =
      (true, { st with
        cache := st.cache.erase page ++ [page],
        recent_cache_limit :=
          max ((1 / 10 : ℚ) * st.cache_size)
            (st.recent_cache_limit -
              (st.cache_size : ℚ) / ((st.cache_size : ℚ) - st.recent_cache_limit)) }) := by
  unfold LARC.process_request
  rw [if_pos h]

theorem larc_case2_eq (st : LARC.State) (page : Int)
    (h1 : st.cache.contains page = false)
    (h2 : st.recent_cache.contains page = true) :
    LARC.process_request st page =
      (false,
        if st.cache_size < (st.cache ++ [page]).length then
          { st with
            recent_cache_limit :=
              min ((9 / 10 : ℚ) * st.cache_size)
                (st.recent_cache_limit + (st.cache_size : ℚ) / st.recent_cache_limit),
            recent_cache := st.recent_cache.erase page,
            cache := (st.cache ++ [page]).drop 1 }
        else
          { st with
            recent_cache_limit :=
              min ((9 / 10 : ℚ) * st.cache_size)
                (st.recent_cache_limit + (st.cache_size : ℚ) / st.recent_cache_limit),
            recent_cache := st.recent_cache.erase page,
            cache := st.cache ++ [page] }) := by
  unfold LARC.process_request
  rw [if_neg (by rw [h1]; simp), if_pos h2]

theorem larc_case3_eq (st : LARC.State) (page : Int)
    (h1 : st.cache.contains page = false)
    (h2 : st.recent_cache.contains page = false) :
    LARC.process_request st page =
      (false, { st with
        recent_cache :=
          if st.recent_cache_limit < ((st.recent_cache ++ [page]).length : ℚ)
          then (st.recent_cache ++ [page]).drop 1
          else st.recent_cache ++ [page] }) := by
  unfold LARC.process_request
  rw [if_neg (by rw [h1]; simp), if_neg (by rw [h2]; simp)]

theorem larc_step_inv {cap : ℕ} {st : LARC.State} (h : LARCInv cap st)
    (page : Int) : LARCInv cap (LARC.process_request st page).2 := by
  obtain ⟨hc, hlim, hlen⟩ := h
  have hcap : (0 : ℚ) ≤ (cap : ℚ) := by positivity
  cases hb1 : st.cache.contains page with
  | true =>
    rw [larc_case1_eq st page hb1]
    have hfrac : (0 : ℚ) ≤ (st.cache_size : ℚ) / ((st.cache_size : ℚ) - st.recent_cache_limit) := by
      rcases Nat.eq_zero_or_pos st.cache_size with h0 | hpos
      · simp [h0]
      · apply div_nonneg (by positivity)
        have hq : (1 : ℚ) ≤ (st.cache_size : ℚ) := by exact_mod_cast hpos
        rw [hc] at *
        nlinarith
    rw [hc] at *
    exact ⟨rfl, max_le (by nlinarith) (by linarith), hlen⟩
  | false =>
    cases hb2 : st.recent_cache.contains page with
    | true =>
      rw [larc_case2_eq st page hb1 hb2]
      have herase : (st.recent_cache.erase page).length ≤ st.recent_cache.length :=
        List.Sublist.length_le (List.erase_sublist _ _)
      rw [hc] at *
      split
      · exact ⟨rfl, min_le_left _ _, le_trans herase hlen⟩
      · exact ⟨rfl, min_le_left _ _, le_trans herase hlen⟩
    | false =>
      rw [larc_case3_eq st page hb1 hb2]
      rw [hc] at *
      refine ⟨rfl, hlim, ?_⟩
      split
      · simpa using hlen
      · rename_i hnd
        push_neg at hnd
        have hlenq : ((st.recent_cache ++ [page]).length : ℚ) ≤ (9 / 10 : ℚ) * cap :=
          le_trans hnd hlim
        have h10 : (st.recent_cache.length + 1) * 10 ≤ 9 * cap := by
          have hq : ((st.recent_cache.length + 1 : ℕ) : ℚ) * 10 ≤ 9 * (cap : ℚ) := by
            push_cast [List.length_append, List.length_cons, List.length_nil] at hlenq ⊢
            nlinarith
          exact_mod_cast hq
        simpa using (Nat.le_div_iff_mul_le (by norm_num)).2 h10

/-- Fold preservation of an invariant, used for every per-policy run. -/
theorem foldl_preserve {σ α : Type} {P : σ → Prop} {f : σ → α → σ}
    (hf : ∀ s a, P s → P (f s a)) :
    ∀ (l : List α) (s : σ), P s → P (l.foldl f s)
  | [], _, h => h
  | a :: l, s, h => foldl_preserve hf l (f s a) (hf s a h)

theorem larc_simStep_state (acc : (ℕ × ℕ × ℕ × ℕ × ℕ × ℕ) × LARC.State)
    (req : Int × Op) :
    (LARC.simStep acc req).2 = (LARC.process_request acc.2 req.1).2 := by
  obtain ⟨c, st⟩ := acc
  obtain ⟨k, op⟩ := req
  cases op <;> rfl

/-- The C4 counterexample trace: promote key 1 (limit rises to 9), fill the
filter with nine fresh keys, hit key 1 (limit falls to 1), then access one
more fresh key. -/
def c4trace : List (Int × Op) :=
  [(1, Op.read), (1, Op.read), (11, Op.read), (12, Op.read), (13, Op.read),
   (14, Op.read), (15, Op.read), (16, Op.read), (17, Op.read), (18, Op.read),
   (19, Op.read), (1, Op.read), (20, Op.read)]

/-- C4 (counterexample): after running `c4trace` at capacity 10 the filter
holds 9 keys while the limit is 1, so `|recent_cache| ≤ ⌊recent_cache_limit⌋`
fails (9 > 1); moreover the last request was a fresh key (in neither
structure before the call), so the claimed `while`-trimming would have left
at most ⌊1⌋ = 1 key — the source trims at most one entry per insertion. -/
theorem larc_recent_bound_counterexample :
    ((LARC.simulate 10 c4trace).2).recent_cache.length = 9 ∧
    ((LARC.simulate 10 c4trace).2).recent_cache_limit = 1 ∧
    ((LARC.simulate 10 (c4trace.take 12)).2).cache.contains 20 = false ∧
    ((LARC.simulate 10 (c4trace.take 12)).2).recent_cache.contains 20 = false := by
  decide

/-- C4 (amended): after every LARC request the admission filter holds at
most ⌊0.9·capacity⌋ keys (the floor of the upper clamp of the adaptive
limit, not of its current value); and on an access to a key in neither
structure the key is appended at the most-recent end of `recent_cache` and
then a single oldest entry is dropped if `|recent_cache| >
recent_cache_limit`. -/
theorem larc_recent_bound_and_single_drop :
    (∀ (cap : ℕ) (seq : List (Int × Op)),
      ((LARC.simulate cap seq).2).recent_cache.length ≤ 9 * cap / 10) ∧
    (∀ (st : LARC.State) (page : Int),
      st.cache.contains page = false → st.recent_cache.contains page = false →
        LARC.process_request st page =
          (false, { st with
            recent_cache :=
              if st.recent_cache_limit < ((st.recent_cache ++ [page]).length : ℚ)
              then (st.recent_cache ++ [page]).drop 1
              else st.recent_cache ++ [page] })) := by
  constructor
  · intro cap seq
    have hinv : LARCInv cap ((LARC.simulate cap seq).2) := by
      refine foldl_preserve
        (P := fun (acc : (ℕ × ℕ × ℕ × ℕ × ℕ × ℕ) × LARC.State) => LARCInv cap acc.2)
        ?_ seq _ ?_
      · intro s a hs
        rw [larc_simStep_state]
        exact larc_step_inv hs a.1
      · refine ⟨rfl, ?_, by simp [LARC.init]⟩
        show (1 / 10 : ℚ) * cap ≤ (9 / 10 : ℚ) * cap
        have hcap : (0 : ℚ) ≤ (cap : ℚ) := by positivity
        nlinarith
    exact hinv.2.2
  · exact larc_case3_eq

/-- Witness for `larc_recent_bound_and_single_drop`: the bound at capacity 2
on a one-request run, and the fresh-key clause at `LARC.init 10` with key 7
(the filter limit is 1, so the single inserted key stays). -/
theorem larc_recent_bound_and_single_drop_witness :
    ((LARC.simulate 2 [((5 : Int), Op.read)]).2).recent_cache.length ≤ 9 * 2 / 10 ∧
    LARC.process_request (LARC.init 10) 7 =
      (false, { LARC.init 10 with recent_cache := [7] }) := by
  constructor
  · exact larc_recent_bound_and_single_drop.1 2 [(5, Op.read)]
  · have h := larc_recent_bound_and_single_drop.2 (LARC.init 10) 7 (by decide) (by decide)
    rw [h]
    decide

/-! ## C5 — correctness of the next-use precomputation -/

/-- Index of the first occurrence of `k` in `l` (`none` when absent);
used to state what the spec calls the smallest next-use index. -/
def firstIdx : List Int → Int → Option ℕ
  | [], _ => none
  | a :: l, k => if a = k then some 0 else (firstIdx l k).map (· + 1)

theorem lookup_cons_eq (e : Int × ℕ) (l : List (Int × ℕ)) (k : Int) :
    ((e :: l).lookup k) = if k = e.1 then some e.2 else l.lookup k := by
  rcases e with ⟨a, v⟩
  by_cases h : k = a
  · subst h; simp [List.lookup]
  · simp [List.lookup, beq_eq_false_iff_ne.2 h, h]

theorem lookup_append_single (l : List (Int × ℕ)) (a : Int) (n : ℕ) (k : Int) :
    (l ++ [(a, n)]).lookup k =
      match l.lookup k with
      | some v => some v
      | none => if k = a then some n else none := by
  induction l with
  | nil =>
    by_cases h : k = a
    · subst h; simp [List.lookup]
    · simp [List.lookup, beq_eq_false_iff_ne.2 h, h]
  | cons e l ih =>
    by_cases h : k = e.1
    · simp [List.cons_append, lookup_cons_eq, h]
    · simp only [List.cons_append, lookup_cons_eq, if_neg h, ih]

theorem lookup_map_replace (l : List (Int × ℕ)) (a : Int) (n : ℕ) (k : Int) :
    ((l.map fun e => if e.1 = a then (a, n) else e).lookup k) =
      if k = a then (l.lookup a).map (fun _ => n) else l.lookup k := by
  induction l with
  | nil => simp [List.lookup]
  | cons e l ih =>
    by_cases he : e.1 = a
    · by_cases h : k = a
      · subst h
        simp [List.map_cons, if_pos he, lookup_cons_eq, he, ih]
      · have hke : ¬(k = e.1) := by rw [he]; exact h
        simp [List.map_cons, if_pos he, lookup_cons_eq, ih, h, hke]
    · by_cases h : k = e.1
      · subst h
        have hka : ¬(e.1 = a) := he
        simp [List.map_cons, if_neg he, lookup_cons_eq, hka, ih]
      · have hae : ¬(a = e.1) := fun hh => he hh.symm
        simp only [List.map_cons, if_neg he, lookup_cons_eq, if_neg h, ih, if_neg hae]

theorem precomputeGo_lookup (keys : List Int) (n : ℕ) (k : Int) :
    (OPT.precomputeGo n keys).2.lookup k = (firstIdx keys k).map (n + ·) := by
  induction keys generalizing n with
  | nil => simp [OPT.precomputeGo, firstIdx, List.lookup]
  | cons a rest ih =>
    have hgo : (OPT.precomputeGo n (a :: rest)).2 =
        (if (OPT.precomputeGo (n + 1) rest).2.lookup a = none
          then (OPT.precomputeGo (n + 1) rest).2 ++ [(a, n)]
          else (OPT.precomputeGo (n + 1) rest).2.map
            (fun e => if e.1 = a then (a, n) else e)) := rfl
    rw [hgo]
    by_cases hka : k = a
    · subst hka
      have hfi : firstIdx (k :: rest) k = some 0 := by simp [firstIdx]
      rw [hfi]
      split
      · rename_i hnone
        rw [lookup_append_single, hnone]
        simp
      · rename_i hsome
        rw [lookup_map_replace, if_pos rfl, ih]
        rw [ih] at hsome
        rcases ho : firstIdx rest k with _ | d
        · rw [ho] at hsome; simp at hsome
        · simp
    · have hfi : firstIdx (a :: rest) k = (firstIdx rest k).map (· + 1) := by
        rw [show firstIdx (a :: rest) k =
          (if a = k then some 0 else (firstIdx rest k).map (· + 1)) from rfl]
        rw [if_neg (fun hh : a = k => hka hh.symm)]
      rw [hfi]
      have hmain :
          ((if (OPT.precomputeGo (n + 1) rest).2.lookup a = none
            then (OPT.precomputeGo (n + 1) rest).2 ++ [(a, n)]
            else (OPT.precomputeGo (n + 1) rest).2.map
              (fun e => if e.1 = a then (a, n) else e)).lookup k) =
          (OPT.precomputeGo (n + 1) rest).2.lookup k := by
        split
        · rw [lookup_append_single]
          rcases hl : (OPT.precomputeGo (n + 1) rest).2.lookup k with _ | v
          · simp [if_neg hka]
          · simp
        · rw [lookup_map_replace, if_neg hka]
      rw [hmain, ih]
      rcases firstIdx rest k with _ | d
      · simp
      · simp [Nat.add_assoc, Nat.add_comm 1 d]

theorem precomputeGo_get (keys : List Int) :
    ∀ (n i : ℕ), i < keys.length →
      (OPT.precomputeGo n keys).1.get? i =
        some ((firstIdx (keys.drop (i + 1)) (keys.getD i 0)).map
          (fun d => n + i + 1 + d)) := by
  induction keys with
  | nil => intro n i h; simp at h
  | cons a rest ih =>
    intro n i h
    have hcons : (OPT.precomputeGo n (a :: rest)).1 =
        ((OPT.precomputeGo (n + 1) rest).2.lookup a) ::
          (OPT.precomputeGo (n + 1) rest).1 := rfl
    rw [hcons]
    match i with
    | 0 =>
      simp only [List.get?]
      rw [precomputeGo_lookup]
      simp
    | Nat.succ j =>
      simp only [List.get?]
      rw [ih (n + 1) j (by simpa using Nat.lt_of_succ_lt_succ h)]
      have harith : ∀ d, n + 1 + j + 1 + d = n + (j + 1) + 1 + d := by omega
      simp only [List.drop_succ_cons, List.getD_cons_succ]
      congr 1
      rcases firstIdx (rest.drop (j + 1)) (rest.getD j 0) with _ | d
      · simp
      · simp [harith]

theorem firstIdx_spec_some (l : List Int) (k : Int) :
    ∀ (d : ℕ), firstIdx l k = some d →
      l.get? d = some k ∧ ∀ e, e < d → l.get? e ≠ some k := by
  induction l with
  | nil => intro d h; simp [firstIdx] at h
  | cons a rest ih =>
    intro d h
    by_cases hak : a = k
    · have h0 : d = 0 := by
        rw [show firstIdx (a :: rest) k =
          (if a = k then some 0 else (firstIdx rest k).map (· + 1)) from rfl,
          if_pos hak] at h
        simpa using h.symm
      subst h0
      subst hak
      exact ⟨rfl, fun e he => absurd he (Nat.not_lt_zero e)⟩
    · rw [show firstIdx (a :: rest) k =
        (if a = k then some 0 else (firstIdx rest k).map (· + 1)) from rfl,
        if_neg hak] at h
      rcases ho : firstIdx rest k with _ | d0
      · rw [ho] at h; simp at h
      · rw [ho] at h
        have h2 : d0 + 1 = d := by simpa using h
        subst h2
        obtain ⟨hget, hmin⟩ := ih d0 ho
        refine ⟨by simpa using hget, ?_⟩
        intro e he
        match e with
        | 0 =>
          intro hh
          exact hak (by simpa using hh)
        | Nat.succ e0 =>
          simpa using hmin e0 (Nat.lt_of_succ_lt_succ he)

theorem firstIdx_spec_none (l : List Int) (k : Int) :
    firstIdx l k = none ↔ ∀ j, l.get? j ≠ some k := by
  induction l with
  | nil => simp [firstIdx]
  | cons a rest ih =>
    rw [show firstIdx (a :: rest) k =
      (if a = k then some 0 else (firstIdx rest k).map (· + 1)) from rfl]
    by_cases hak : a = k
    · rw [if_pos hak]
      constructor
      · intro h; simp at h
      · intro h
        exact absurd (by simpa using hak) (h 0)
    · rw [if_neg hak]
      constructor
      · intro h j
        match j with
        | 0 => simpa using fun hh => hak hh
        | Nat.succ j0 =>
          have : firstIdx rest k = none := by
            rcases ho : firstIdx rest k with _ | d
            · rfl
            · rw [ho] at h; simp at h
          simpa using (ih.1 this) j0
      · intro h
        have : firstIdx rest k = none :=
          ih.2 (fun j => by simpa using h (j + 1))
        rw [this]; rfl

/-- C5 (confirmed): the precomputed next-use list is correct.  For every
position i in range, `next_use[i]` is `i + 1 + d` where d is the offset of
the first occurrence of `sequence[i]`'s key in the remaining suffix, and is
`none` (+∞) when the key never occurs again; `firstIdx` indeed returns the
smallest matching index (second conjunct) and returns `none` exactly when
the key is absent from the suffix (third conjunct). -/
theorem next_use_spec :
    (∀ (keys : List Int) (i : ℕ), i < keys.length →
      (OPT.precompute_next_use keys).get? i =
        some ((firstIdx (keys.drop (i + 1)) (keys.getD i 0)).map
          (fun d => i + 1 + d))) ∧
    (∀ (l : List Int) (k : Int) (d : ℕ), firstIdx l k = some d →
      l.get? d = some k ∧ ∀ e, e < d → l.get? e ≠ some k) ∧
    (∀ (l : List Int) (k : Int), firstIdx l k = none ↔ ∀ j, l.get? j ≠ some k) := by
  refine ⟨fun keys i h => ?_, fun l k d h => firstIdx_spec_some l k d h,
    fun l k => firstIdx_spec_none l k⟩
  have hg := precomputeGo_get keys 0 i h
  simpa [OPT.precompute_next_use] using hg

/-- Witness for `next_use_spec` on the sequence [5, 6, 5]: position 0 gets
next use 2, position 1 gets +∞, and `firstIdx` finds 5 at offset 1 of the
suffix [6, 5]. -/
theorem next_use_spec_witness :
    (OPT.precompute_next_use [(5 : Int), 6, 5]).get? 0 = some (some 2) ∧
      [(6 : Int), 5].get? 1 = some 5 := by
  constructor
  · have h := next_use_spec.1 [(5 : Int), 6, 5] 0 (by decide)
    rw [h]
    decide
  · exact (next_use_spec.2.1 [(6 : Int), 5] 5 1 (by decide)).1

/-! ## OPT heap infrastructure -/

/-- Validity of a heap entry against the canonical state (the source's
lazy-invalidation test). -/
def OPT.validEnt (cache : List Int) (pnu : List (Int × Option ℕ))
    (e : Option ℕ × Int) : Bool :=
  cache.contains e.2 && OPT.alookup pnu e.2 == some e.1

theorem entLE_total (a b : Option ℕ × Int) :
    OPT.entLE a b = true ∨ OPT.entLE b a = true := by
  rcases a with ⟨n1, k1⟩
  rcases b with ⟨n2, k2⟩
  rcases n1 with _ | v1 <;> rcases n2 with _ | v2 <;>
    simp [OPT.entLE, OPT.nuGt] <;> omega

theorem entLE_trans {a b c : Option ℕ × Int} (h1 : OPT.entLE a b = true)
    (h2 : OPT.entLE b c = true) : OPT.entLE a c = true := by
  rcases a with ⟨n1, k1⟩
  rcases b with ⟨n2, k2⟩
  rcases c with ⟨n3, k3⟩
  rcases n1 with _ | v1 <;> rcases n2 with _ | v2 <;> rcases n3 with _ | v3 <;>
    simp [OPT.entLE, OPT.nuGt] at * <;> omega

theorem entLE_refl (a : Option ℕ × Int) : OPT.entLE a a = true := by
  rcases a with ⟨n, k⟩
  rcases n with _ | v <;> simp [OPT.entLE, OPT.nuGt]

theorem heapMinEnt_cons (e : Option ℕ × Int) (rest : List (Option ℕ × Int)) :
    OPT.heapMinEnt (e :: rest) =
      (match OPT.heapMinEnt rest with
        | none => some e
        | some m2 => if OPT.entLE e m2 then some e else some m2) := rfl

theorem heapMinEnt_eq_none {l : List (Option ℕ × Int)} :
    OPT.heapMinEnt l = none ↔ l = [] := by
  cases l with
  | nil => simp [OPT.heapMinEnt]
  | cons e rest =>
    simp only [heapMinEnt_cons]
    cases hr : OPT.heapMinEnt rest with
    | none => simp
    | some m2 => split <;> (try split) <;> simp

theorem heapMinEnt_mem : ∀ {heap : List (Option ℕ × Int)} {m : Option ℕ × Int},
    OPT.heapMinEnt heap = some m → m ∈ heap := by
  intro heap
  induction heap with
  | nil => intro m h; simp [OPT.heapMinEnt] at h
  | cons e rest ih =>
    intro m h
    rw [heapMinEnt_cons] at h
    cases hr : OPT.heapMinEnt rest with
    | none =>
      rw [hr] at h
      have h2 : some e = some m := h
      have he : e = m := by simpa using h2
      rw [← he]
      exact List.mem_cons_self e rest
    | some m2 =>
      rw [hr] at h
      have h2 : (if OPT.entLE e m2 = true then some e else some m2) = some m := h
      by_cases hle : OPT.entLE e m2 = true
      · rw [if_pos hle] at h2
        have he : e = m := by simpa using h2
        rw [← he]
        exact List.mem_cons_self e rest
      · rw [if_neg hle] at h2
        have he : m2 = m := by simpa using h2
        exact List.mem_cons_of_mem e (he ▸ ih hr)

theorem heapMinEnt_min : ∀ {heap : List (Option ℕ × Int)} {m : Option ℕ × Int},
    OPT.heapMinEnt heap = some m → ∀ x ∈ heap, OPT.entLE m x = true := by
  intro heap
  induction heap with
  | nil => intro m h; simp [OPT.heapMinEnt] at h
  | cons e rest ih =>
    intro m h
    rw [heapMinEnt_cons] at h
    cases hr : OPT.heapMinEnt rest with
    | none =>
      rw [hr] at h
      have h2 : some e = some m := h
      have he : e = m := by simpa using h2
      have hnil : rest = [] := heapMinEnt_eq_none.1 hr
      subst hnil
      intro x hx
      rcases List.mem_cons.1 hx with hx | hx
      · rw [← he, hx]; exact entLE_refl e
      · simp at hx
    | some m2 =>
      rw [hr] at h
      have h2 : (if OPT.entLE e m2 = true then some e else some m2) = some m := h
      by_cases hle : OPT.entLE e m2 = true
      · rw [if_pos hle] at h2
        have he : e = m := by simpa using h2
        subst he
        intro x hx
        rcases List.mem_cons.1 hx with hx | hx
        · rw [hx]; exact entLE_refl e
        · exact entLE_trans hle (ih hr x hx)
      · rw [if_neg hle] at h2
        have he : m2 = m := by simpa using h2
        subst he
        intro x hx
        rcases List.mem_cons.1 hx with hx | hx
        · rw [hx]
          rcases entLE_total e m2 with hl | hl
          · exact absurd hl hle
          · exact hl
        · exact ih hr x hx

theorem alookup_aset (l : List (Int × Option ℕ)) (k : Int) (v : Option ℕ)
    (k2 : Int) :
    OPT.alookup (OPT.aset l k v) k2 = if k2 = k then some v else OPT.alookup l k2 := by
  induction l with
  | nil =>
    by_cases h : k2 = k
    · subst h; simp [OPT.aset, OPT.alookup]
    · simp [OPT.aset, OPT.alookup, h, Ne.symm h]
  | cons e rest ih =>
    rcases e with ⟨a, w⟩
    by_cases hak : a = k
    · subst hak
      by_cases h : k2 = a
      · subst h; simp [OPT.aset, OPT.alookup]
      · simp [OPT.aset, OPT.alookup, h, Ne.symm h]
    · by_cases h2 : a = k2
      · subst h2
        simp [OPT.aset, OPT.alookup, hak]
      · simp [OPT.aset, OPT.alookup, hak, h2, ih]

theorem alookup_adel_ne (l : List (Int × Option ℕ)) (k k2 : Int) (h : k2 ≠ k) :
    OPT.alookup (OPT.adel l k) k2 = OPT.alookup l k2 := by
  induction l with
  | nil => simp [OPT.adel]
  | cons e rest ih =>
    rcases e with ⟨a, w⟩
    by_cases hak : a = k
    · subst hak
      simp [OPT.adel, OPT.alookup, Ne.symm h]
    · by_cases h2 : a = k2
      · subst h2
        simp [OPT.adel, OPT.alookup, hak]
      · simp [OPT.adel, OPT.alookup, hak, h2, ih]

theorem evict_loop_eq_cons (fuel : ℕ) (cache : List Int)
    (pnu : List (Int × Option ℕ)) (heap : List (Option ℕ × Int)) :
    OPT.evict_loop (fuel + 1) cache pnu heap =
      (match OPT.heapMinEnt heap with
        | none => (none, heap)
        | some e =>
          if OPT.validEnt cache pnu e = true then (some e, heap.erase e)
          else OPT.evict_loop fuel cache pnu (heap.erase e)) := by
  rfl

theorem perm_cons_erase_ent {heap : List (Option ℕ × Int)} {m : Option ℕ × Int}
    (h : m ∈ heap) : heap.Perm (m :: heap.erase m) := by
  induction heap with
  | nil => cases h
  | cons a t ih =>
    by_cases ham : a = m
    · subst ham
      rw [List.erase_cons_head]
    · rw [List.erase_cons_tail (by simpa using ham)]
      have hmt : m ∈ t := by
        rcases List.mem_cons.1 h with hh | hh
        · exact absurd hh.symm ham
        · exact hh
      exact List.Perm.trans (List.Perm.cons a (ih hmt)) (List.Perm.swap m a _)

theorem evict_loop_step_valid {cache : List Int} {pnu : List (Int × Option ℕ)}
    {heap : List (Option ℕ × Int)} {m : Option ℕ × Int} (fuel : ℕ)
    (h : OPT.heapMinEnt heap = some m) (hv : OPT.validEnt cache pnu m = true) :
    OPT.evict_loop (fuel + 1) cache pnu heap = (some m, heap.erase m) := by
  rw [evict_loop_eq_cons, h]
  show (if OPT.validEnt cache pnu m = true then (some m, heap.erase m)
    else OPT.evict_loop fuel cache pnu (heap.erase m)) = (some m, heap.erase m)
  exact if_pos hv

theorem evict_loop_step_invalid {cache : List Int} {pnu : List (Int × Option ℕ)}
    {heap : List (Option ℕ × Int)} {m : Option ℕ × Int} (fuel : ℕ)
    (h : OPT.heapMinEnt heap = some m) (hv : OPT.validEnt cache pnu m = false) :
    OPT.evict_loop (fuel + 1) cache pnu heap =
      OPT.evict_loop fuel cache pnu (heap.erase m) := by
  rw [evict_loop_eq_cons, h]
  show (if OPT.validEnt cache pnu m = true then (some m, heap.erase m)
    else OPT.evict_loop fuel cache pnu (heap.erase m)) = _
  rw [if_neg (by simp [hv])]

theorem evict_loop_spec (cache : List Int) (pnu : List (Int × Option ℕ)) :
    ∀ (fuel : ℕ) (heap : List (Option ℕ × Int)),
      heap.length ≤ fuel →
      (∃ e0 ∈ heap, OPT.validEnt cache pnu e0 = true) →
      ∃ e dropped heap2,
        OPT.evict_loop fuel cache pnu heap = (some e, heap2) ∧
        OPT.validEnt cache pnu e = true ∧
        heap.Perm (e :: (dropped ++ heap2)) ∧
        (∀ d ∈ dropped, OPT.validEnt cache pnu d = false) ∧
        (∀ x ∈ heap, OPT.validEnt cache pnu x = true → OPT.entLE e x = true) := by
  intro fuel
  induction fuel with
  | zero =>
    intro heap hlen hex
    obtain ⟨e0, he0, _⟩ := hex
    rw [Nat.le_zero] at hlen
    rw [List.length_eq_zero] at hlen
    subst hlen
    simp at he0
  | succ f ih =>
    intro heap hlen hex
    obtain ⟨e0, he0mem, he0valid⟩ := hex
    cases hm : OPT.heapMinEnt heap with
    | none =>
      exfalso
      rw [heapMinEnt_eq_none] at hm
      subst hm
      simp at he0mem
    | some m =>
      have hmmem : m ∈ heap := heapMinEnt_mem hm
      by_cases hv : OPT.validEnt cache pnu m = true
      · refine ⟨m, [], heap.erase m, evict_loop_step_valid f hm hv, hv, ?_, by simp, ?_⟩
        · simpa using perm_cons_erase_ent hmmem
        · intro x hx _
          exact heapMinEnt_min hm x hx
      · rw [Bool.not_eq_true] at hv
        rw [evict_loop_step_invalid f hm hv]
        have hne : e0 ≠ m := by
          intro hh
          rw [hh, hv] at he0valid
          exact Bool.false_ne_true he0valid
        have he0mem2 : e0 ∈ heap.erase m := (List.mem_erase_of_ne hne).2 he0mem
        have hlen2 : (heap.erase m).length ≤ f := by
          rw [List.length_erase_of_mem hmmem]
          omega
        obtain ⟨e, dropped, heap2, heq, hvalid, hperm, hdropped, hmin⟩ :=
          ih (heap.erase m) hlen2 ⟨e0, he0mem2, he0valid⟩
        refine ⟨e, m :: dropped, heap2, heq, hvalid, ?_, ?_, ?_⟩
        · exact List.Perm.trans (perm_cons_erase_ent hmmem)
            (List.Perm.trans (List.Perm.cons m hperm) (List.Perm.swap e m _))
        · intro d hd
          rcases List.mem_cons.1 hd with hd | hd
          · rw [hd]; exact hv
          · exact hdropped d hd
        · intro x hx hxv
          have hxne : x ≠ m := by
            intro hh
            rw [hh, hv] at hxv
            exact Bool.false_ne_true hxv
          exact hmin x ((List.mem_erase_of_ne hxne).2 hx) hxv

theorem access_page_hit (st : OPT.State) (page : Int) (nu : Option ℕ)
    (hhit : st.cache.contains page = true) :
    OPT.access_page st page nu =
      (true, none,
       { st with page_next_use := OPT.aset st.page_next_use page nu,
                 heap := st.heap ++ [(nu, page)] }) := by
  unfold OPT.access_page
  rw [if_pos hhit]

theorem access_page_miss_notfull (st : OPT.State) (page : Int) (nu : Option ℕ)
    (hmiss : st.cache.contains page = false)
    (hnot : ¬ st.capacity ≤ st.cache.length) :
    OPT.access_page st page nu =
      (false, none,
       { st with cache := st.cache ++ [page],
                 page_next_use := OPT.aset st.page_next_use page nu,
                 heap := st.heap ++ [(nu, page)] }) := by
  unfold OPT.access_page
  rw [if_neg (by rw [hmiss]; simp), if_neg hnot]

theorem access_page_miss_full (st : OPT.State) (page : Int) (nu : Option ℕ)
    (hmiss : st.cache.contains page = false)
    (hfull : st.capacity ≤ st.cache.length) {e : Option ℕ × Int}
    {heap2 : List (Option ℕ × Int)}
    (heq : OPT.evict_loop st.heap.length st.cache st.page_next_use st.heap =
      (some e, heap2)) :
    OPT.access_page st page nu =
      (false, some e.2,
       { capacity := st.capacity,
         cache := st.cache.erase e.2 ++ [page],
         heap := heap2 ++ [(nu, page)],
         page_next_use := OPT.aset (OPT.adel st.page_next_use e.2) page nu }) := by
  unfold OPT.access_page
  rw [if_neg (by rw [hmiss]; simp), if_pos hfull, heq]

theorem evict_loop_some_valid (cache : List Int) (pnu : List (Int × Option ℕ)) :
    ∀ (fuel : ℕ) (heap : List (Option ℕ × Int)) (e : Option ℕ × Int)
      (h2 : List (Option ℕ × Int)),
      OPT.evict_loop fuel cache pnu heap = (some e, h2) →
      OPT.validEnt cache pnu e = true := by
  intro fuel
  induction fuel with
  | zero => intro heap e h2 h; simp [OPT.evict_loop] at h
  | succ f ih =>
    intro heap e h2 h
    cases hm : OPT.heapMinEnt heap with
    | none =>
      rw [evict_loop_eq_cons, hm] at h
      have h3 : ((none : Option (Option ℕ × Int)), heap) = (some e, h2) := h
      simp at h3
    | some m =>
      by_cases hv : OPT.validEnt cache pnu m = true
      · rw [evict_loop_step_valid f hm hv] at h
        have h3 : m = e := by simpa using congrArg Prod.fst h
        rw [← h3]; exact hv
      · rw [Bool.not_eq_true] at hv
        rw [evict_loop_step_invalid f hm hv] at h
        exact ih _ e h2 h

/-- Invariant carried through Belady/OPT runs: fixed capacity, duplicate-free
cache within capacity, and every resident key having a `page_next_use` entry
whose pair is present in the heap. -/
def OPTInv (cap : ℕ) (st : OPT.State) : Prop :=
  st.capacity = cap ∧ st.cache.Nodup ∧ st.cache.length ≤ cap ∧
  (∀ k ∈ st.cache, ∃ nu0, OPT.alookup st.page_next_use k = some nu0 ∧
    (nu0, k) ∈ st.heap)

theorem opt_step_inv {cap : ℕ} (hcap : 0 < cap) {st : OPT.State}
    (h : OPTInv cap st) (page : Int) (nu : Option ℕ) :
    OPTInv cap (OPT.access_page st page nu).2.2 := by
  obtain ⟨hc, hnd, hlen, hmap⟩ := h
  cases hb : st.cache.contains page with
  | true =>
    rw [access_page_hit st page nu hb]
    refine ⟨hc, hnd, hlen, ?_⟩
    intro k hk
    by_cases hkp : k = page
    · subst hkp
      exact ⟨nu, by rw [alookup_aset, if_pos rfl], by simp⟩
    · obtain ⟨nu0, hl, hh⟩ := hmap k hk
      exact ⟨nu0, by rw [alookup_aset, if_neg hkp]; exact hl, by simp [hh]⟩
  | false =>
    have hpagemem : page ∉ st.cache := by
      simpa [List.contains, List.elem_eq_mem] using hb
    by_cases hfull : st.capacity ≤ st.cache.length
    · have hlencap : st.cache.length = cap := le_antisymm hlen (hc ▸ hfull)
      have hne : st.cache ≠ [] := by
        intro hnil
        rw [hnil] at hlencap
        simp at hlencap
        omega
      obtain ⟨k0, hk0⟩ := List.exists_mem_of_ne_nil st.cache hne
      obtain ⟨nu0, hl0, hh0⟩ := hmap k0 hk0
      have hvalid0 : OPT.validEnt st.cache st.page_next_use (nu0, k0) = true := by
        simp [OPT.validEnt, hl0, List.elem_eq_mem, hk0, List.contains]
      obtain ⟨e, dropped, heap2, heq, hvalid, hperm, hdropped, _⟩ :=
        evict_loop_spec st.cache st.page_next_use st.heap.length st.heap le_rfl
          ⟨(nu0, k0), hh0, hvalid0⟩
      rw [access_page_miss_full st page nu hb hfull heq]
      have hemem : e.2 ∈ st.cache := by
        have := hvalid
        simp only [OPT.validEnt, Bool.and_eq_true] at this
        have hcont := this.1
        simpa [List.contains, List.elem_eq_mem] using hcont
      refine ⟨hc, ?_, ?_, ?_⟩
      · exact List.Nodup.append (hnd.erase e.2) (List.nodup_singleton page)
          (by
            intro x hx hx2
            simp at hx2
            subst hx2
            exact hpagemem (List.mem_of_mem_erase hx))
      · rw [List.length_append, List.length_erase_of_mem hemem]
        simp only [List.length_singleton]
        omega
      · intro k hk
        rcases List.mem_append.1 hk with hk | hk
        · have hkcache : k ∈ st.cache := List.mem_of_mem_erase hk
          have hkne : k ≠ e.2 := (List.Nodup.mem_erase_iff hnd).1 hk |>.1
          obtain ⟨nuk, hlk, hhk⟩ := hmap k hkcache
          refine ⟨nuk, ?_, ?_⟩
          · rw [alookup_aset, if_neg (by
              intro hkp
              subst hkp
              exact hpagemem hkcache), alookup_adel_ne _ _ _ hkne]
            exact hlk
          · have hnotdropped : (nuk, k) ∉ dropped := by
              intro hd
              have hinv := hdropped (nuk, k) hd
              have hvk : OPT.validEnt st.cache st.page_next_use (nuk, k) = true := by
                simp [OPT.validEnt, hlk, List.elem_eq_mem, hkcache, List.contains]
              rw [hvk] at hinv
              exact Bool.noConfusion hinv
            have hnee : (nuk, k) ≠ e := by
              intro hh
              exact hkne (by rw [← hh])
            have hmem2 : (nuk, k) ∈ e :: (dropped ++ heap2) :=
              hperm.subset hhk
            rcases List.mem_cons.1 hmem2 with hh | hh
            · exact absurd hh hnee
            · rcases List.mem_append.1 hh with hh | hh
              · exact absurd hh hnotdropped
              · simp [hh]
        · simp at hk
          subst hk
          exact ⟨nu, by rw [alookup_aset, if_pos rfl], by simp⟩
    · rw [access_page_miss_notfull st page nu hb hfull]
      refine ⟨hc, ?_, ?_, ?_⟩
      · exact List.Nodup.append hnd (List.nodup_singleton page)
          (by
            intro x hx hx2
            simp at hx2
            subst hx2
            exact hpagemem hx)
      · rw [List.length_append]
        simp only [List.length_singleton]
        omega
      · intro k hk
        rcases List.mem_append.1 hk with hk | hk
        · by_cases hkp : k = page
          · subst hkp
            exact ⟨nu, by rw [alookup_aset, if_pos rfl], by simp⟩
          · obtain ⟨nu0, hl, hh⟩ := hmap k hk
            exact ⟨nu0, by rw [alookup_aset, if_neg hkp]; exact hl, by simp [hh]⟩
        · simp at hk
          subst hk
          exact ⟨nu, by rw [alookup_aset, if_pos rfl], by simp⟩

/-! ## ARC size bounds -/

/-- The miss-path intermediate state `st1` of `process_request` (the three
ghost/fresh cases), named for proofs. -/
def arcMiss1 (st : ARC.State) (page : Int) : ARC.State :=
  if st.B1.contains page then
    { st with
      p := min st.cache_size (st.p + max 1 (st.B2.length / max 1 st.B1.length)),
      B1 := st.B1.erase page,
      T2 := st.T2 ++ [page] }
  else if st.B2.contains page then
    { st with
      p := st.p - max 1 (st.B1.length / max 1 st.B2.length),
      B2 := st.B2.erase page,
      T2 := st.T2 ++ [page] }
  else
    { st with T1 := st.T1 ++ [page] }

theorem arc_hit_T1_eq (st : ARC.State) (page : Int)
    (h1 : st.T1.contains page = true) :
    ARC.process_request st page =
      (true, { st with T1 := st.T1.erase page, T2 := st.T2 ++ [page] }) := by
  unfold ARC.process_request
  rw [if_pos (by rw [h1]; simp), if_pos h1]

theorem arc_hit_T2_eq (st : ARC.State) (page : Int)
    (h1 : st.T1.contains page = false) (h2 : st.T2.contains page = true) :
    ARC.process_request st page =
      (true, { st with T2 := st.T2.erase page ++ [page] }) := by
  unfold ARC.process_request
  rw [if_pos (by rw [h1, h2]; simp), if_neg (by rw [h1]; simp)]

theorem arc_process_miss (st : ARC.State) (page : Int)
    (h1 : st.T1.contains page = false) (h2 : st.T2.contains page = false) :
    ARC.process_request st page =
      (false,
       ARC.ghost
         ((ARC.balance ((arcMiss1 st page).T1.length + (arcMiss1 st page).T2.length)
            (arcMiss1 st page)).B1.length +
          (ARC.balance ((arcMiss1 st page).T1.length + (arcMiss1 st page).T2.length)
            (arcMiss1 st page)).B2.length)
         (ARC.balance ((arcMiss1 st page).T1.length + (arcMiss1 st page).T2.length)
            (arcMiss1 st page))) := by
  unfold ARC.process_request arcMiss1
  rw [if_neg (by rw [h1, h2]; simp)]

theorem arc_balance_sum : ∀ (fuel : ℕ) (st : ARC.State),
    st.p ≤ st.cache_size →
    st.T1.length + st.T2.length ≤ st.cache_size + fuel →
    (ARC.balance fuel st).T1.length + (ARC.balance fuel st).T2.length ≤
      st.cache_size := by
  intro fuel
  induction fuel with
  | zero =>
    intro st hp hsum
    simpa [ARC.balance] using hsum
  | succ f ih =>
    intro st hp hsum
    unfold ARC.balance
    split
    · rename_i hle; exact hle
    · rename_i hgt
      push_neg at hgt
      split
      · rename_i hT1
        cases hT1l : st.T1 with
        | nil =>
          rw [hT1l] at hT1
          simp at hT1
        | cons old rest =>
          have hsum2 : rest.length + st.T2.length ≤ st.cache_size + f := by
            rw [hT1l] at hsum
            simp only [List.length_cons] at hsum
            omega
          exact ih { st with T1 := rest, B1 := st.B1 ++ [old] } hp hsum2
      · rename_i hT1
        push_neg at hT1
        cases hT2l : st.T2 with
        | nil =>
          rw [hT2l] at hgt
          simp at hgt
          omega
        | cons old rest =>
          have hsum2 : st.T1.length + rest.length ≤ st.cache_size + f := by
            rw [hT2l] at hsum
            simp only [List.length_cons] at hsum
            omega
          exact ih { st with T2 := rest, B2 := st.B2 ++ [old] } hp hsum2

theorem arc_ghost_T1 (fuel : ℕ) (st : ARC.State) :
    (ARC.ghost fuel st).T1 = st.T1 := by
  induction fuel generalizing st with
  | zero => rfl
  | succ f ih =>
    unfold ARC.ghost
    split
    · rfl
    · split
      · split
        · rfl
        · rw [ih]
      · split
        · rfl
        · rw [ih]

theorem arc_ghost_T2 (fuel : ℕ) (st : ARC.State) :
    (ARC.ghost fuel st).T2 = st.T2 := by
  induction fuel generalizing st with
  | zero => rfl
  | succ f ih =>
    unfold ARC.ghost
    split
    · rfl
    · split
      · split
        · rfl
        · rw [ih]
      · split
        · rfl
        · rw [ih]

theorem arc_ghost_cache_size (fuel : ℕ) (st : ARC.State) :
    (ARC.ghost fuel st).cache_size = st.cache_size := by
  induction fuel generalizing st with
  | zero => rfl
  | succ f ih =>
    unfold ARC.ghost
    split
    · rfl
    · split
      · split
        · rfl
        · rw [ih]
      · split
        · rfl
        · rw [ih]

/-- Size/p invariant carried through ARC runs. -/
def ARCSizeInv (cap : ℕ) (st : ARC.State) : Prop :=
  st.cache_size = cap ∧ st.p ≤ cap ∧ st.T1.length + st.T2.length ≤ cap

theorem arcMiss1_fields (st : ARC.State) (page : Int) :
    (arcMiss1 st page).cache_size = st.cache_size ∧
    ((arcMiss1 st page).p ≤ max st.p st.cache_size) ∧
    (arcMiss1 st page).T1.length + (arcMiss1 st page).T2.length ≤
      st.T1.length + st.T2.length + 1 := by
  unfold arcMiss1
  split
  · exact ⟨rfl, by simp, by simp; omega⟩
  · split
    · exact ⟨rfl, le_max_of_le_left (Nat.sub_le _ _), by simp; omega⟩
    · exact ⟨rfl, le_max_of_le_left le_rfl, by simp; omega⟩

theorem arc_size_step {cap : ℕ} {st : ARC.State} (h : ARCSizeInv cap st)
    (page : Int) : ARCSizeInv cap (ARC.process_request st page).2 := by
  obtain ⟨hc, hp, hsum⟩ := h
  cases hb1 : st.T1.contains page with
  | true =>
    rw [arc_hit_T1_eq st page hb1]
    have hmem : page ∈ st.T1 := by
      simpa [List.contains, List.elem_eq_mem] using hb1
    refine ⟨hc, hp, ?_⟩
    have : (st.T1.erase page).length = st.T1.length - 1 :=
      List.length_erase_of_mem hmem
    simp only [List.length_append, List.length_singleton, this]
    have hT1pos : 1 ≤ st.T1.length := List.length_pos.2 (by
      intro hnil
      rw [hnil] at hmem
      simp at hmem)
    omega
  | false =>
    cases hb2 : st.T2.contains page with
    | true =>
      rw [arc_hit_T2_eq st page hb1 hb2]
      have hmem : page ∈ st.T2 := by
        simpa [List.contains, List.elem_eq_mem] using hb2
      refine ⟨hc, hp, ?_⟩
      have : (st.T2.erase page).length = st.T2.length - 1 :=
        List.length_erase_of_mem hmem
      simp only [List.length_append, List.length_singleton, this]
      have hT2pos : 1 ≤ st.T2.length := List.length_pos.2 (by
        intro hnil
        rw [hnil] at hmem
        simp at hmem)
      omega
    | false =>
      rw [arc_process_miss st page hb1 hb2]
      obtain ⟨hm1, hm2, hm3⟩ := arcMiss1_fields st page
      have hpm : (arcMiss1 st page).p ≤ (arcMiss1 st page).cache_size := by
        rw [hm1]
        calc (arcMiss1 st page).p ≤ max st.p st.cache_size := hm2
          _ ≤ st.cache_size := by
            rw [hc]
            exact max_le hp le_rfl
      have hbal := arc_balance_sum
        ((arcMiss1 st page).T1.length + (arcMiss1 st page).T2.length)
        (arcMiss1 st page) hpm (by omega)
      refine ⟨?_, ?_, ?_⟩
      · rw [arc_ghost_cache_size, arc_balance_cache_size, hm1, hc]
      · rw [arc_ghost_p, arc_balance_p]
        calc (arcMiss1 st page).p ≤ max st.p st.cache_size := hm2
          _ ≤ cap := by rw [hc]; exact max_le hp le_rfl
      · rw [arc_ghost_T1, arc_ghost_T2]
        calc _ ≤ (arcMiss1 st page).cache_size := hbal
          _ = cap := by rw [hm1, hc]

/-! ## Remaining size invariants -/

/-- Size invariant carried through LRU runs. -/
def LRUSizeInv (cap : ℕ) (st : LRU.State) : Prop :=
  st.max_capacity = cap ∧ st.cache_store.length ≤ cap

theorem lru_size_step {cap : ℕ} (hcap : 0 < cap) {st : LRU.State}
    (h : LRUSizeInv cap st) (item : Int) :
    LRUSizeInv cap (LRU.access_or_update_cache st item).2 := by
  obtain ⟨hc, hlen⟩ := h
  unfold LRU.access_or_update_cache
  cases hb : st.cache_store.contains item with
  | true =>
    rw [if_pos rfl]
    have hmem : item ∈ st.cache_store := by
      simpa [List.contains, List.elem_eq_mem] using hb
    refine ⟨hc, ?_⟩
    have he : (st.cache_store.erase item).length = st.cache_store.length - 1 :=
      List.length_erase_of_mem hmem
    have hpos : 1 ≤ st.cache_store.length := List.length_pos.2 (by
      intro hnil; rw [hnil] at hmem; simp at hmem)
    simp only [List.length_append, List.length_singleton, he]
    omega
  | false =>
    rw [if_neg (by simp)]
    refine ⟨hc, ?_⟩
    split
    · rename_i hge
      have hd : (st.cache_store.drop 1).length = st.cache_store.length - 1 := by
        simp
      simp only [List.length_append, List.length_singleton, hd]
      rw [hc] at hge
      omega
    · rename_i hlt
      push_neg at hlt
      simp only [List.length_append, List.length_singleton]
      rw [hc] at hlt
      omega

theorem lru_simStep_state (acc : (ℕ × ℕ × ℕ × ℕ) × LRU.State) (req : Int × Op) :
    (LRU.simStep acc req).2 = (LRU.access_or_update_cache acc.2 req.1).2 := by
  obtain ⟨c, st⟩ := acc
  obtain ⟨k, op⟩ := req
  cases op <;> rfl

/-- Cache-size invariant carried through LARC runs. -/
def LARCCacheInv (cap : ℕ) (st : LARC.State) : Prop :=
  st.cache_size = cap ∧ st.cache.length ≤ cap

theorem larc_cache_step {cap : ℕ} {st : LARC.State} (h : LARCCacheInv cap st)
    (page : Int) : LARCCacheInv cap (LARC.process_request st page).2 := by
  obtain ⟨hc, hlen⟩ := h
  cases hb1 : st.cache.contains page with
  | true =>
    rw [larc_case1_eq st page hb1]
    have hmem : page ∈ st.cache := by
      simpa [List.contains, List.elem_eq_mem] using hb1
    refine ⟨hc, ?_⟩
    have he : (st.cache.erase page).length = st.cache.length - 1 :=
      List.length_erase_of_mem hmem
    have hpos : 1 ≤ st.cache.length := List.length_pos.2 (by
      intro hnil; rw [hnil] at hmem; simp at hmem)
    simp only [List.length_append, List.length_singleton, he]
    omega
  | false =>
    cases hb2 : st.recent_cache.contains page with
    | true =>
      rw [larc_case2_eq st page hb1 hb2]
      split
      · refine ⟨hc, ?_⟩
        simp only [List.length_drop, List.length_append, List.length_singleton]
        omega
      · rename_i hnotover
        push_neg at hnotover
        refine ⟨hc, ?_⟩
        simp only [List.length_append, List.length_singleton] at hnotover ⊢
        rw [hc] at hnotover
        omega
    | false =>
      rw [larc_case3_eq st page hb1 hb2]
      exact ⟨hc, hlen⟩

theorem opt_simStep_state (acc : (ℕ × ℕ × ℕ × ℕ) × OPT.State)
    (req : (Int × Op) × Option ℕ) :
    (OPT.simStep acc req).2 = (OPT.access_page acc.2 req.1.1 req.2).2.2 := by
  obtain ⟨c, st⟩ := acc
  obtain ⟨⟨k, op⟩, nu⟩ := req
  cases op <;> rfl

theorem arc_simStep_state (acc : (ℕ × ℕ × ℕ × ℕ × ℕ × ℕ) × ARC.State)
    (req : Int × Op) :
    (ARC.simStep acc req).2 = (ARC.process_request acc.2 req.1).2 := by
  obtain ⟨c, st⟩ := acc
  obtain ⟨k, op⟩ := req
  cases op <;> rfl

theorem cdel_keys (l : List (Int × ℕ)) (k : Int) :
    (NHit.cdel l k).map Prod.fst = (l.map Prod.fst).erase k := by
  induction l with
  | nil => simp [NHit.cdel]
  | cons e rest ih =>
    rcases e with ⟨a, v⟩
    by_cases h : a = k
    · subst h
      simp [NHit.cdel, List.erase_cons_head]
    · simp only [NHit.cdel, if_neg h, List.map_cons]
      rw [List.erase_cons_tail (by simpa using h), ih]

theorem cset_keys_absent (l : List (Int × ℕ)) (k : Int) (v : ℕ)
    (h : k ∉ l.map Prod.fst) :
    (NHit.cset l k v).map Prod.fst = l.map Prod.fst ++ [k] := by
  induction l with
  | nil => simp [NHit.cset]
  | cons e rest ih =>
    rcases e with ⟨a, w⟩
    have hka : ¬(a = k) := by
      intro hh
      exact h (by simp [hh])
    simp only [NHit.cset, if_neg hka, List.map_cons, List.cons_append,
      List.cons.injEq, true_and]
    exact ih (fun hh => h (by simp [hh]))

theorem triMin_cons (e : ℕ × ℕ × Int) (rest : List (ℕ × ℕ × Int)) :
    NHit.triMin (e :: rest) =
      (match NHit.triMin rest with
        | none => some e
        | some m2 => if NHit.triLE e m2 then some e else some m2) := rfl

theorem triMin_mem : ∀ {l : List (ℕ × ℕ × Int)} {m : ℕ × ℕ × Int},
    NHit.triMin l = some m → m ∈ l := by
  intro l
  induction l with
  | nil => intro m h; simp [NHit.triMin] at h
  | cons e rest ih =>
    intro m h
    rw [triMin_cons] at h
    cases hr : NHit.triMin rest with
    | none =>
      rw [hr] at h
      have h2 : some e = some m := h
      have he : e = m := by simpa using h2
      rw [← he]
      exact List.mem_cons_self e rest
    | some m2 =>
      rw [hr] at h
      have h2 : (if NHit.triLE e m2 = true then some e else some m2) = some m := h
      by_cases hle : NHit.triLE e m2 = true
      · rw [if_pos hle] at h2
        have he : e = m := by simpa using h2
        rw [← he]
        exact List.mem_cons_self e rest
      · rw [if_neg hle] at h2
        have he : m2 = m := by simpa using h2
        exact List.mem_cons_of_mem e (he ▸ ih hr)

theorem triMin_eq_none {l : List (ℕ × ℕ × Int)} :
    NHit.triMin l = none ↔ l = [] := by
  cases l with
  | nil => simp [NHit.triMin]
  | cons e rest =>
    simp only [triMin_cons]
    cases hr : NHit.triMin rest with
    | none => simp
    | some m2 => split <;> (try split) <;> simp

/-- Size/bijection invariant carried through N-Hit (lowest-count) runs:
bounded cache, sorted index in bijection with the cache (equal sizes, every
index key resident, no duplicate index keys). -/
def NHitInv (cap : ℕ) (st : NHit.State) : Prop :=
  st.capacity = cap ∧ st.cache.length ≤ cap ∧
  st.sorted_items.length = st.cache.length ∧
  (∀ e ∈ st.sorted_items, e.2.2 ∈ st.cache.map Prod.fst) ∧
  (st.sorted_items.map (fun e => e.2.2)).Nodup

theorem evictOne_shape {st : NHit.State}
    (_hsl : st.sorted_items.length = st.cache.length)
    (hkeys : ∀ e ∈ st.sorted_items, e.2.2 ∈ st.cache.map Prod.fst)
    (_hnd : (st.sorted_items.map (fun e => e.2.2)).Nodup)
    (hne : st.sorted_items ≠ []) :
    ∃ v, NHit.triMin st.sorted_items = some v ∧
      NHit.evictOne st =
        { st with sorted_items := st.sorted_items.erase v,
                  cache := NHit.cdel st.cache v.2.2 } ∧
      v.2.2 ∈ st.cache.map Prod.fst ∧ v ∈ st.sorted_items := by
  cases hmin : NHit.triMin st.sorted_items with
  | none => exact absurd (triMin_eq_none.1 hmin) hne
  | some v =>
    have hvmem : v ∈ st.sorted_items := triMin_mem hmin
    refine ⟨v, rfl, ?_, hkeys v hvmem, hvmem⟩
    unfold NHit.evictOne
    rw [hmin]

theorem evictOne_inv {cap : ℕ} {st : NHit.State} (h : NHitInv cap st)
    (hne : st.sorted_items ≠ []) :
    NHitInv cap (NHit.evictOne st) ∧
    (NHit.evictOne st).cache.length = st.cache.length - 1 ∧
    (NHit.evictOne st).tracking = st.tracking ∧
    (NHit.evictOne st).insertion_counter = st.insertion_counter ∧
    (∀ k, k ∉ st.cache.map Prod.fst → k ∉ (NHit.evictOne st).cache.map Prod.fst) := by
  obtain ⟨hc, hlen, hsl, hkeys, hnd⟩ := h
  obtain ⟨v, hmin, heq, hvkey, hvmem⟩ := evictOne_shape hsl hkeys hnd hne
  have hndsorted : st.sorted_items.Nodup := List.Nodup.of_map _ hnd
  have hkeyseq : (NHit.cdel st.cache v.2.2).map Prod.fst =
      (st.cache.map Prod.fst).erase v.2.2 := cdel_keys _ _
  have hcachelen : (NHit.cdel st.cache v.2.2).length = st.cache.length - 1 := by
    have hl := congrArg List.length hkeyseq
    simp only [List.length_map] at hl
    rw [hl, List.length_erase_of_mem hvkey, List.length_map]
  rw [heq]
  refine ⟨⟨hc, ?_, ?_, ?_, ?_⟩, ?_, rfl, rfl, ?_⟩
  · show (NHit.cdel st.cache v.2.2).length ≤ cap
    rw [hcachelen]
    omega
  · show (st.sorted_items.erase v).length = (NHit.cdel st.cache v.2.2).length
    rw [List.length_erase_of_mem hvmem, hcachelen, hsl]
  · intro e he
    have hesub : e ∈ st.sorted_items ∧ e ≠ v := by
      rw [List.Nodup.mem_erase_iff hndsorted] at he
      exact ⟨he.2, he.1⟩
    have hekey : e.2.2 ∈ st.cache.map Prod.fst := hkeys e hesub.1
    have hkeyne : e.2.2 ≠ v.2.2 := by
      intro hh
      exact hesub.2 (List.inj_on_of_nodup_map hnd hesub.1 hvmem hh)
    show e.2.2 ∈ (NHit.cdel st.cache v.2.2).map Prod.fst
    rw [hkeyseq]
    exact (List.mem_erase_of_ne hkeyne).2 hekey
  · show ((st.sorted_items.erase v).map (fun e => e.2.2)).Nodup
    exact List.Nodup.sublist (List.Sublist.map _ (List.erase_sublist v _)) hnd
  · exact hcachelen
  · intro k hk
    show k ∉ (NHit.cdel st.cache v.2.2).map Prod.fst
    rw [hkeyseq]
    intro hmem
    exact hk (List.mem_of_mem_erase hmem)

theorem promote_inv {cap : ℕ} {st : NHit.State} (hcap : 0 < cap)
    (h : NHitInv cap st) (item : Int)
    (hitem : item ∉ st.cache.map Prod.fst) :
    NHitInv cap (NHit.promote st item) := by
  obtain ⟨hc, hlen, hsl, hkeys, hnd⟩ := h
  unfold NHit.promote
  split
  · rename_i hfull
    have hslne : st.sorted_items ≠ [] := by
      intro hnil
      rw [hnil] at hsl
      simp at hsl
      rw [hc] at hfull
      omega
    obtain ⟨hinv2, hlen2, _, _, hnotin2⟩ := evictOne_inv ⟨hc, hlen, hsl, hkeys, hnd⟩ hslne
    obtain ⟨hc2, hlen2b, hsl2, hkeys2, hnd2⟩ := hinv2
    set stE := NHit.evictOne st
    have hitem2 : item ∉ stE.cache.map Prod.fst := hnotin2 item hitem
    have hck : (NHit.cset stE.cache item (NHit.lookupD stE.tracking item)).map Prod.fst =
        stE.cache.map Prod.fst ++ [item] := cset_keys_absent _ _ _ hitem2
    have hclen : (NHit.cset stE.cache item (NHit.lookupD stE.tracking item)).length =
        stE.cache.length + 1 := by
      have hl := congrArg List.length hck
      simp only [List.length_map, List.length_append, List.length_singleton] at hl
      exact hl
    refine ⟨hc2, ?_, ?_, ?_, ?_⟩
    · show (NHit.cset stE.cache item _).length ≤ cap
      rw [hclen, hlen2]
      rw [hc] at hfull
      omega
    · show (stE.sorted_items ++ [_]).length = (NHit.cset stE.cache item _).length
      rw [List.length_append, List.length_singleton, hclen, hsl2]
    · intro e he
      rcases List.mem_append.1 he with he | he
      · show e.2.2 ∈ (NHit.cset stE.cache item _).map Prod.fst
        rw [hck]
        exact List.mem_append_left _ (hkeys2 e he)
      · simp at he
        subst he
        show item ∈ (NHit.cset stE.cache item _).map Prod.fst
        rw [hck]
        simp
    · show ((stE.sorted_items ++
          [(NHit.lookupD stE.tracking item, stE.insertion_counter + 1, item)]).map
            (fun e => e.2.2)).Nodup
      rw [List.map_append]
      refine List.Nodup.append hnd2 (by simp) ?_
      intro x hx hx2
      simp at hx2
      subst hx2
      have : x ∈ stE.cache.map Prod.fst := by
        rcases List.mem_map.1 hx with ⟨e, he, hek⟩
        exact hek ▸ hkeys2 e he
      exact hitem2 this
  · rename_i hnotfull
    push_neg at hnotfull
    have hitem2 : item ∉ st.cache.map Prod.fst := hitem
    have hck : (NHit.cset st.cache item (NHit.lookupD st.tracking item)).map Prod.fst =
        st.cache.map Prod.fst ++ [item] := cset_keys_absent _ _ _ hitem2
    have hclen : (NHit.cset st.cache item (NHit.lookupD st.tracking item)).length =
        st.cache.length + 1 := by
      have hl := congrArg List.length hck
      simp only [List.length_map, List.length_append, List.length_singleton] at hl
      exact hl
    refine ⟨hc, ?_, ?_, ?_, ?_⟩
    · show (NHit.cset st.cache item _).length ≤ cap
      rw [hclen]
      rw [hc] at hnotfull
      omega
    · show (st.sorted_items ++ [_]).length = (NHit.cset st.cache item _).length
      rw [List.length_append, List.length_singleton, hclen, hsl]
    · intro e he
      rcases List.mem_append.1 he with he | he
      · show e.2.2 ∈ (NHit.cset st.cache item _).map Prod.fst
        rw [hck]
        exact List.mem_append_left _ (hkeys e he)
      · simp at he
        subst he
        show item ∈ (NHit.cset st.cache item _).map Prod.fst
        rw [hck]
        simp
    · show ((st.sorted_items ++
          [(NHit.lookupD st.tracking item, st.insertion_counter + 1, item)]).map
            (fun e => e.2.2)).Nodup
      rw [List.map_append]
      refine List.Nodup.append hnd (by simp) ?_
      intro x hx hx2
      simp at hx2
      subst hx2
      have : x ∈ st.cache.map Prod.fst := by
        rcases List.mem_map.1 hx with ⟨e, he, hek⟩
        exact hek ▸ hkeys e he
      exact hitem2 this

theorem nhit_step_inv {cap : ℕ} (hcap : 0 < cap) {st : NHit.State}
    (h : NHitInv cap st) (item : Int) :
    NHitInv cap (NHit.processOne st item).2 := by
  unfold NHit.processOne
  cases hb : (NHit.cacheKeys st).contains item with
  | true => rw [if_pos rfl]; exact h
  | false =>
    rw [if_neg (by simp)]
    have hitem : item ∉ st.cache.map Prod.fst := by
      simpa [NHit.cacheKeys, List.contains, List.elem_eq_mem] using hb
    have haccess : NHitInv cap (NHit.access st item) := by
      obtain ⟨hc, hlen, hsl, hkeys, hnd⟩ := h
      exact ⟨hc, hlen, hsl, hkeys, hnd⟩
    show NHitInv cap
      (if NHit.should_promote (NHit.access st item) item = true
        then NHit.promote (NHit.access st item) item else NHit.access st item)
    split
    · exact promote_inv hcap haccess item hitem
    · exact haccess

/-- Size invariant carried through LRU-backed N-Hit runs. -/
def NHitLRUInv (cap : ℕ) (st : NHitLRU.LRUPart × NHitLRU.Policy) : Prop :=
  st.1.capacity = cap ∧ st.1.cache.length ≤ cap

theorem nhitlru_insert_len {l : NHitLRU.LRUPart} {cap : ℕ}
    (hc : l.capacity = cap) (hlen : l.cache.length ≤ cap) (key : Int) :
    ((NHitLRU.insert l key).2).cache.length ≤ cap := by
  unfold NHitLRU.insert
  by_cases hcont : l.cache.contains key = true
  · rw [if_pos hcont]
    have hmem : key ∈ l.cache := by
      simpa [List.contains, List.elem_eq_mem] using hcont
    have hpos : 1 ≤ l.cache.length := List.length_pos.2 (by
      intro hnil; rw [hnil] at hmem; simp at hmem)
    have hlen1 : (l.cache.erase key ++ [key]).length = l.cache.length := by
      rw [List.length_append, List.length_erase_of_mem hmem]
      simp only [List.length_singleton]
      omega
    show (if l.capacity < (l.cache.erase key ++ [key]).length
        then ((l.cache.erase key ++ [key]).head?,
          ({ capacity := l.capacity,
             cache := (l.cache.erase key ++ [key]).drop 1 } : NHitLRU.LRUPart))
        else ((none : Option Int),
          ({ capacity := l.capacity,
             cache := l.cache.erase key ++ [key] } : NHitLRU.LRUPart))).2.cache.length ≤ cap
    split
    · show ((l.cache.erase key ++ [key]).drop 1).length ≤ cap
      rw [List.length_drop]
      omega
    · show (l.cache.erase key ++ [key]).length ≤ cap
      omega
  · rw [if_neg hcont]
    have hlen1 : (l.cache ++ [key]).length = l.cache.length + 1 := by
      simp
    show (if l.capacity < (l.cache ++ [key]).length
        then ((l.cache ++ [key]).head?,
          ({ capacity := l.capacity,
             cache := (l.cache ++ [key]).drop 1 } : NHitLRU.LRUPart))
        else ((none : Option Int),
          ({ capacity := l.capacity,
             cache := l.cache ++ [key] } : NHitLRU.LRUPart))).2.cache.length ≤ cap
    split
    · show ((l.cache ++ [key]).drop 1).length ≤ cap
      rw [List.length_drop]
      omega
    · rename_i hnotover
      push_neg at hnotover
      rw [hc] at hnotover
      show (l.cache ++ [key]).length ≤ cap
      exact hnotover

theorem accessLRU_capacity (l : NHitLRU.LRUPart) (key : Int) :
    (NHitLRU.accessLRU l key).capacity = l.capacity := by
  unfold NHitLRU.accessLRU
  split <;> rfl

theorem insert_capacity (l : NHitLRU.LRUPart) (key : Int) :
    ((NHitLRU.insert l key).2).capacity = l.capacity := by
  unfold NHitLRU.insert
  split <;> (dsimp only []; split <;> rfl)

theorem accessLRU_len {l : NHitLRU.LRUPart} {cap : ℕ} (hlen : l.cache.length ≤ cap)
    (key : Int) : (NHitLRU.accessLRU l key).cache.length ≤ cap := by
  unfold NHitLRU.accessLRU
  split
  · rename_i hcont
    have hmem : key ∈ l.cache := by
      simpa [List.contains, List.elem_eq_mem] using hcont
    have hpos : 1 ≤ l.cache.length := List.length_pos.2 (by
      intro hnil; rw [hnil] at hmem; simp at hmem)
    show (l.cache.erase key ++ [key]).length ≤ cap
    rw [List.length_append, List.length_erase_of_mem hmem]
    simp only [List.length_singleton]
    omega
  · exact hlen

theorem nhitlru_step_inv {cap : ℕ} {st : NHitLRU.LRUPart × NHitLRU.Policy}
    (h : NHitLRUInv cap st) (item : Int) :
    NHitLRUInv cap (NHitLRU.processOne st item).2 := by
  obtain ⟨lru, po⟩ := st
  obtain ⟨hc, hlen⟩ := h
  show NHitLRUInv cap
    (if NHitLRU.is_present lru item = true
      then (true, (NHitLRU.accessLRU lru item, NHitLRU.record_access po item))
      else if NHitLRU.should_promote (NHitLRU.record_access po item) item false
          lru.cache.length = true
        then (false, ((NHitLRU.insert lru item).2,
          NHitLRU.remove_from_tracking (NHitLRU.record_access po item) item))
        else (false, (lru, NHitLRU.record_access po item))).2
  have hc2 : lru.capacity = cap := hc
  have hlen2 : lru.cache.length ≤ cap := hlen
  split
  · exact ⟨(accessLRU_capacity lru item).trans hc2, accessLRU_len hlen2 item⟩
  · split
    · exact ⟨(insert_capacity lru item).trans hc2, nhitlru_insert_len hc2 hlen2 item⟩
    · exact ⟨hc2, hlen2⟩

theorem opt_run_inv (cap : ℕ) (hcap : 0 < cap) (seq : List (Int × Op)) :
    OPTInv cap ((OPT.simulate cap seq).2) := by
  refine foldl_preserve
    (P := fun (acc : (ℕ × ℕ × ℕ × ℕ) × OPT.State) => OPTInv cap acc.2) ?_ _ _ ?_
  · intro s a hs
    rw [opt_simStep_state]
    exact opt_step_inv hcap hs a.1.1 a.2
  · exact ⟨rfl, by simp [OPT.init], by simp [OPT.init], by simp [OPT.init]⟩

/-- C2 (confirmed): for every engine built with a positive capacity and
every request sequence, the primary resident structure never exceeds the
capacity after any number of requests: LRU's cache_store, Belady's cache
set, ARC's |T1|+|T2|, LARC's cache, the N-Hit lowest-count cache dict and
the LRU-backed N-Hit cache. -/
theorem resident_size_le_capacity (cap : ℕ) (hcap : 0 < cap) :
    (∀ seq : List (Int × Op),
      ((LRU.simulate_lru_policy cap seq).2).cache_store.length ≤ cap) ∧
    (∀ seq : List (Int × Op), ((OPT.simulate cap seq).2).cache.length ≤ cap) ∧
    (∀ seq : List (Int × Op),
      ((ARC.simulate cap seq).2).T1.length + ((ARC.simulate cap seq).2).T2.length ≤ cap) ∧
    (∀ seq : List (Int × Op), ((LARC.simulate cap seq).2).cache.length ≤ cap) ∧
    (∀ (trigger : ℚ) (insThr : ℕ) (seq : List (Int × Op)),
      ((NHit.simulate cap trigger insThr seq).2).cache.length ≤ cap) ∧
    (∀ (trigger : ℚ) (n maxTracked : ℕ) (seq : List (Int × Op)),
      ((NHitLRU.simulate cap trigger n maxTracked seq).2).1.cache.length ≤ cap) := by
  refine ⟨?_, ?_, ?_, ?_, ?_, ?_⟩
  · intro seq
    have hinv : LRUSizeInv cap ((LRU.simulate_lru_policy cap seq).2) := by
      refine foldl_preserve
        (P := fun (acc : (ℕ × ℕ × ℕ × ℕ) × LRU.State) => LRUSizeInv cap acc.2)
        ?_ _ _ ⟨rfl, by simp [LRU.init]⟩
      intro s a hs
      rw [lru_simStep_state]
      exact lru_size_step hcap hs a.1
    exact hinv.2
  · intro seq
    exact (opt_run_inv cap hcap seq).2.2.1
  · intro seq
    have hinv : ARCSizeInv cap ((ARC.simulate cap seq).2) := by
      refine foldl_preserve
        (P := fun (acc : (ℕ × ℕ × ℕ × ℕ × ℕ × ℕ) × ARC.State) => ARCSizeInv cap acc.2)
        ?_ _ _ ⟨rfl, by simp [ARC.init], by simp [ARC.init]⟩
      intro s a hs
      rw [arc_simStep_state]
      exact arc_size_step hs a.1
    exact hinv.2.2
  · intro seq
    have hinv : LARCCacheInv cap ((LARC.simulate cap seq).2) := by
      refine foldl_preserve
        (P := fun (acc : (ℕ × ℕ × ℕ × ℕ × ℕ × ℕ) × LARC.State) => LARCCacheInv cap acc.2)
        ?_ _ _ ⟨rfl, by simp [LARC.init]⟩
      intro s a hs
      rw [larc_simStep_state]
      exact larc_cache_step hs a.1
    exact hinv.2
  · intro trigger insThr seq
    have hstep : ∀ (acc : ((ℕ × ℕ × ℕ × ℕ × ℕ) × List Int) × NHit.State)
        (req : Int × Op),
        (NHit.simStep acc req).2 = (NHit.processOne acc.2 req.1).2 := by
      intro acc req
      obtain ⟨⟨c, seen⟩, st⟩ := acc
      obtain ⟨k, op⟩ := req
      cases op <;> rfl
    have hinv : NHitInv cap ((NHit.simulate cap trigger insThr seq).2) := by
      refine foldl_preserve
        (P := fun (acc : ((ℕ × ℕ × ℕ × ℕ × ℕ) × List Int) × NHit.State) =>
          NHitInv cap acc.2)
        ?_ _ _ ⟨rfl, by simp [NHit.init], by simp [NHit.init], by simp [NHit.init],
          by simp [NHit.init]⟩
      intro s a hs
      rw [hstep]
      exact nhit_step_inv hcap hs a.1
    exact hinv.2.1
  · intro trigger n maxTracked seq
    have hinv : NHitLRUInv cap ((NHitLRU.simulate cap trigger n maxTracked seq).2) := by
      refine foldl_preserve
        (P := fun (acc : (ℕ × ℕ × ℕ × ℕ) × (NHitLRU.LRUPart × NHitLRU.Policy)) =>
          NHitLRUInv cap acc.2)
        ?_ _ _ ⟨rfl, by simp⟩
      intro s a hs
      have hstep : (let (c, st) := s;
          let (hit, st2) := NHitLRU.processOne st a.1
          match a.2 with
          | Op.read => ((c.1 + 1, (if hit then c.2.1 + 1 else c.2.1), c.2.2.1, c.2.2.2), st2)
          | Op.write => ((c.1, c.2.1, c.2.2.1 + 1, (if hit then c.2.2.2 + 1 else c.2.2.2)), st2)).2
          = (NHitLRU.processOne s.2 a.1).2 := by
        obtain ⟨c, st⟩ := s
        obtain ⟨k, op⟩ := a
        cases op <;> rfl
      exact hstep ▸ nhitlru_step_inv hs a.1
    exact hinv.2

/-- Witness for `resident_size_le_capacity` at capacity 1 on the sequence
[7, 8, 7]: every engine ends within its capacity. -/
theorem resident_size_le_capacity_witness :
    ((LRU.simulate_lru_policy 1 [(7, Op.read), (8, Op.read), (7, Op.read)]).2).cache_store.length ≤ 1 ∧
    ((ARC.simulate 1 [(7, Op.read), (8, Op.read), (7, Op.read)]).2).T1.length +
      ((ARC.simulate 1 [(7, Op.read), (8, Op.read), (7, Op.read)]).2).T2.length ≤ 1 := by
  have h := resident_size_le_capacity 1 (by decide)
  exact ⟨h.1 [(7, Op.read), (8, Op.read), (7, Op.read)],
    h.2.2.1 [(7, Op.read), (8, Op.read), (7, Op.read)]⟩

/-! ## C7 — Belady residency invariants -/

/-- C7 (confirmed): after every access in a Belady/OPT run with positive
capacity, every key in the cache set has an entry in page_next_use; and the
lazy-invalidation pop loop only ever returns a victim that is resident with
a next-use value agreeing with page_next_use — stale popped entries are
discarded, never evicted. -/
theorem belady_residency_invariant :
    (∀ (cap : ℕ), 0 < cap → ∀ (seq : List (Int × Op)) (k : Int),
      k ∈ ((OPT.simulate cap seq).2).cache →
      OPT.alookup ((OPT.simulate cap seq).2).page_next_use k ≠ none) ∧
    (∀ (fuel : ℕ) (cache : List Int) (pnu : List (Int × Option ℕ))
      (heap h2 : List (Option ℕ × Int)) (e : Option ℕ × Int),
      OPT.evict_loop fuel cache pnu heap = (some e, h2) →
        e.2 ∈ cache ∧ OPT.alookup pnu e.2 = some e.1) := by
  constructor
  · intro cap hcap seq k hk
    obtain ⟨_, _, _, hmap⟩ := opt_run_inv cap hcap seq
    obtain ⟨nu0, hl, _⟩ := hmap k hk
    rw [hl]
    simp
  · intro fuel cache pnu heap h2 e heq
    have hv := evict_loop_some_valid cache pnu fuel heap e h2 heq
    simp only [OPT.validEnt, Bool.and_eq_true] at hv
    constructor
    · have := hv.1
      simpa [List.contains, List.elem_eq_mem] using this
    · have := hv.2
      simpa using this

/-- Witness for `belady_residency_invariant`: after the one-request run at
capacity 1 the cached key 3 has a next-use entry, and the pop loop on a
one-element valid heap evicts a resident key. -/
theorem belady_residency_invariant_witness :
    OPT.alookup ((OPT.simulate 1 [((3 : Int), Op.read)]).2).page_next_use 3 ≠ none ∧
    (7 : Int) ∈ [(7 : Int)] ∧ OPT.alookup [(7, some 5)] 7 = some (some 5) := by
  constructor
  · exact belady_residency_invariant.1 1 (by decide) [((3 : Int), Op.read)] 3 (by decide)
  · exact (belady_residency_invariant.2 1 [(7 : Int)] [(7, some 5)]
      [(some 5, 7)] [] (some 5, 7) (by decide))

/-! ## C10 — operation noninterference machinery

Every driver loop has the shape: update the counters from the op and the
hit flag, update the engine state from the key alone.  `tmplStep` captures
that shape; each driver's step function is proved equal to an instance. -/

/-- Generic driver step: counters see the op, the hit flag and the key;
the engine state sees only the key. -/
def tmplStep {α κ σ γ : Type} (φ : α → κ) (opf : α → Op)
    (step : σ → κ → Bool × σ) (upd : γ → Op → Bool → κ → γ) :
    (γ × σ) → α → (γ × σ) :=
  fun acc r =>
    (upd acc.1 (opf r) (step acc.2 (φ r)).1 (φ r), (step acc.2 (φ r)).2)

theorem foldl_ext {σ α : Type} (f g : σ → α → σ) (h : ∀ a b, f a b = g a b) :
    ∀ (l : List α) (a : σ), l.foldl f a = l.foldl g a := by
  intro l
  induction l with
  | nil => intro a; rfl
  | cons x xs ih => intro a; simp only [List.foldl]; rw [h]; exact ih _

theorem tmpl_state {α κ σ γ : Type} (φ : α → κ) (opf : α → Op)
    (step : σ → κ → Bool × σ) (upd : γ → Op → Bool → κ → γ) :
    ∀ (s : List α) (c : γ) (st : σ),
      (s.foldl (tmplStep φ opf step upd) (c, st)).2 =
        (s.map φ).foldl (fun st2 k => (step st2 k).2) st := by
  intro s
  induction s with
  | nil => intro c st; rfl
  | cons r rest ih =>
    intro c st
    simp only [List.foldl, List.map_cons, tmplStep]
    exact ih _ _

/-- Hit-flag weighted sum of a keys-only run. -/
def outSum {κ σ : Type} (ν : Bool → ℕ) (step : σ → κ → Bool × σ)
    (st : σ) (keys : List κ) : ℕ :=
  (keys.foldl (fun acc k => (acc.1 + ν (step acc.2 k).1, (step acc.2 k).2))
    (0, st)).1

theorem outSum_go {κ σ : Type} (ν : Bool → ℕ) (step : σ → κ → Bool × σ) :
    ∀ (keys : List κ) (st : σ) (n : ℕ),
      (keys.foldl (fun acc k => (acc.1 + ν (step acc.2 k).1, (step acc.2 k).2))
        (n, st)).1 = n + outSum ν step st keys := by
  intro keys
  induction keys with
  | nil => intro st n; simp [outSum]
  | cons k rest ih =>
    intro st n
    simp only [List.foldl, outSum]
    rw [ih, ih ((step st k).2) (0 + ν (step st k).1)]
    omega

theorem tmpl_measure {α κ σ γ : Type} (φ : α → κ) (opf : α → Op)
    (step : σ → κ → Bool × σ) (upd : γ → Op → Bool → κ → γ)
    (μ : γ → ℕ) (ν : Bool → ℕ)
    (hupd : ∀ c op hit k, μ (upd c op hit k) = μ c + ν hit) :
    ∀ (s : List α) (c : γ) (st : σ),
      μ ((s.foldl (tmplStep φ opf step upd) (c, st)).1) =
        μ c + outSum ν step st (s.map φ) := by
  intro s
  induction s with
  | nil => intro c st; simp [outSum]
  | cons r rest ih =>
    intro c st
    simp only [List.foldl, List.map_cons, tmplStep, outSum]
    rw [ih, hupd]
    rw [outSum_go ν step (rest.map φ) ((step st (φ r)).2) (0 + ν (step st (φ r)).1)]
    unfold outSum
    omega

theorem outcomes_factor {α κ σ : Type} (φ : α → κ) (step : σ → κ → Bool × σ) :
    ∀ (s : List α) (acc : List Bool × σ),
      s.foldl (fun acc r => (acc.1 ++ [(step acc.2 (φ r)).1], (step acc.2 (φ r)).2)) acc =
        (s.map φ).foldl (fun acc k => (acc.1 ++ [(step acc.2 k).1], (step acc.2 k).2)) acc := by
  intro s
  induction s with
  | nil => intro acc; rfl
  | cons r rest ih =>
    intro acc
    simp only [List.foldl, List.map_cons]
    exact ih _

theorem zip_key_map :
    ∀ (s t : List (Int × Op)) (nus : List (Option ℕ)),
      s.map Prod.fst = t.map Prod.fst →
      (s.zip nus).map (fun r => (r.1.1, r.2)) =
        (t.zip nus).map (fun r => (r.1.1, r.2)) := by
  intro s
  induction s with
  | nil =>
    intro t nus h
    cases t with
    | nil => rfl
    | cons y ys => simp at h
  | cons x xs ih =>
    intro t nus h
    cases t with
    | nil => simp at h
    | cons y ys =>
      simp only [List.map_cons, List.cons.injEq] at h
      cases nus with
      | nil => rfl
      | cons nu nrest =>
        simp only [List.zip_cons_cons, List.map_cons, List.cons.injEq]
        exact ⟨by rw [h.1], ih ys nrest h.2⟩

/-- Counter update of `LRU.simStep` (read_req, read_miss, write_req, write_miss). -/
def lruUpd (c : ℕ × ℕ × ℕ × ℕ) (op : Op) (hit : Bool) (_ : Int) : ℕ × ℕ × ℕ × ℕ :=
  match op with
  | Op.read => (c.1 + 1, (if hit then c.2.1 else c.2.1 + 1), c.2.2.1, c.2.2.2)
  | Op.write => (c.1, c.2.1, c.2.2.1 + 1, (if hit then c.2.2.2 else c.2.2.2 + 1))

/-- Counter update shared by `ARC.simStep` and `LARC.simStep`. -/
def sixUpd (c : ℕ × ℕ × ℕ × ℕ × ℕ × ℕ) (op : Op) (hit : Bool) (_ : Int) :
    ℕ × ℕ × ℕ × ℕ × ℕ × ℕ :=
  match op with
  | Op.read =>
      (c.1 + 1, (if hit then c.2.1 + 1 else c.2.1),
        (if hit then c.2.2.1 else c.2.2.1 + 1), c.2.2.2)
  | Op.write =>
      (c.1, c.2.1, c.2.2.1, c.2.2.2.1 + 1,
        (if hit then c.2.2.2.2.1 + 1 else c.2.2.2.2.1),
        (if hit then c.2.2.2.2.2 else c.2.2.2.2.2 + 1))

/-- Engine step of the Belady driver: hit flag and next state of `access_page`. -/
def optStepFn (st : OPT.State) (k : Int × Option ℕ) : Bool × OPT.State :=
  let r := OPT.access_page st k.1 k.2
  (r.1, r.2.2)

/-- Counter update of `OPT.simStep` (read_hit, read_miss, write_hit, write_miss). -/
def optUpd (c : ℕ × ℕ × ℕ × ℕ) (op : Op) (hit : Bool) (_ : Int × Option ℕ) :
    ℕ × ℕ × ℕ × ℕ :=
  match op with
  | Op.read => ((if hit then c.1 + 1 else c.1), (if hit then c.2.1 else c.2.1 + 1),
      c.2.2.1, c.2.2.2)
  | Op.write => (c.1, c.2.1, (if hit then c.2.2.1 + 1 else c.2.2.1),
      (if hit then c.2.2.2 else c.2.2.2 + 1))

/-- Counter/seen-set update of `NHit.simStep`. -/
def nhitUpd (cs : (ℕ × ℕ × ℕ × ℕ × ℕ) × List Int) (op : Op) (hit : Bool) (k : Int) :
    (ℕ × ℕ × ℕ × ℕ × ℕ) × List Int :=
  let c := cs.1
  let seen := cs.2
  let cold := !hit && !(seen.contains k)
  let seen2 := if cold then seen ++ [k] else seen
  let c2 :=
    match op with
    | Op.read =>
        ((if hit then c.1 + 1 else c.1), (if hit then c.2.1 else c.2.1 + 1),
          c.2.2.1, c.2.2.2.1, (if cold then c.2.2.2.2 + 1 else c.2.2.2.2))
    | Op.write =>
        (c.1, c.2.1, (if hit then c.2.2.1 + 1 else c.2.2.1),
          (if hit then c.2.2.2.1 else c.2.2.2.1 + 1),
          (if cold then c.2.2.2.2 + 1 else c.2.2.2.2))
  (c2, seen2)

/-- Counter update of the `NHitLRU.simulate` fold (read_req, read_hit, write_req, write_hit). -/
def nhitlruUpd (c : ℕ × ℕ × ℕ × ℕ) (op : Op) (hit : Bool) (_ : Int) : ℕ × ℕ × ℕ × ℕ :=
  match op with
  | Op.read => (c.1 + 1, (if hit then c.2.1 + 1 else c.2.1), c.2.2.1, c.2.2.2)
  | Op.write => (c.1, c.2.1, c.2.2.1 + 1, (if hit then c.2.2.2 + 1 else c.2.2.2))

theorem lru_sim_tmpl (cap : ℕ) (s : List (Int × Op)) :
    LRU.simulate_lru_policy cap s =
      s.foldl
        (tmplStep Prod.fst Prod.snd (fun st k => LRU.access_or_update_cache st k) lruUpd)
        ((0, 0, 0, 0), LRU.init cap) :=
  foldl_ext _ _
    (fun a b => by
      obtain ⟨c, st⟩ := a
      obtain ⟨k, op⟩ := b
      cases op <;> rfl) s _

theorem arc_sim_tmpl (cap : ℕ) (s : List (Int × Op)) :
    ARC.simulate cap s =
      s.foldl
        (tmplStep Prod.fst Prod.snd (fun st k => ARC.process_request st k) sixUpd)
        ((0, 0, 0, 0, 0, 0), ARC.init cap) :=
  foldl_ext _ _
    (fun a b => by
      obtain ⟨c, st⟩ := a
      obtain ⟨k, op⟩ := b
      cases op <;> rfl) s _

theorem larc_sim_tmpl (cap : ℕ) (s : List (Int × Op)) :
    LARC.simulate cap s =
      s.foldl
        (tmplStep Prod.fst Prod.snd (fun st k => LARC.process_request st k) sixUpd)
        ((0, 0, 0, 0, 0, 0), LARC.init cap) :=
  foldl_ext _ _
    (fun a b => by
      obtain ⟨c, st⟩ := a
      obtain ⟨k, op⟩ := b
      cases op <;> rfl) s _

theorem opt_sim_tmpl (cap : ℕ) (s : List (Int × Op)) :
    OPT.simulate cap s =
      (s.zip (OPT.precompute_next_use (s.map Prod.fst))).foldl
        (tmplStep (fun r => (r.1.1, r.2)) (fun r => r.1.2) optStepFn optUpd)
        ((0, 0, 0, 0), OPT.init cap) :=
  foldl_ext _ _
    (fun a b => by
      obtain ⟨c, st⟩ := a
      obtain ⟨⟨k, op⟩, nu⟩ := b
      cases op <;> rfl) _ _

theorem nhit_sim_tmpl (cap : ℕ) (trigger : ℚ) (insThr : ℕ) (s : List (Int × Op)) :
    NHit.simulate cap trigger insThr s =
      s.foldl
        (tmplStep Prod.fst Prod.snd (fun st k => NHit.processOne st k) nhitUpd)
        (((0, 0, 0, 0, 0), []), NHit.init cap trigger insThr) :=
  foldl_ext _ _
    (fun a b => by
      obtain ⟨⟨c, seen⟩, st⟩ := a
      obtain ⟨k, op⟩ := b
      cases op <;> rfl) s _

theorem nhitlru_sim_tmpl (cap : ℕ) (trigger : ℚ) (n maxTracked : ℕ)
    (s : List (Int × Op)) :
    NHitLRU.simulate cap trigger n maxTracked s =
      s.foldl
        (tmplStep Prod.fst Prod.snd (fun st k => NHitLRU.processOne st k) nhitlruUpd)
        ((0, 0, 0, 0),
          ({ capacity := cap, cache := [] },
           { trigger_threshold := trigger, N := n, cache_capacity := cap,
             max_tracked_items := maxTracked, access_counts := [],
             tracking_queue := [] })) :=
  foldl_ext _ _
    (fun a b => by
      obtain ⟨c, st⟩ := a
      obtain ⟨k, op⟩ := b
      cases op <;> rfl) s _

theorem lru_state_keys (cap : ℕ) (s : List (Int × Op)) :
    (LRU.simulate_lru_policy cap s).2 =
      (s.map Prod.fst).foldl
        (fun st k => (LRU.access_or_update_cache st k).2) (LRU.init cap) := by
  rw [lru_sim_tmpl]
  exact tmpl_state _ _ _ _ s _ _

theorem arc_state_keys (cap : ℕ) (s : List (Int × Op)) :
    (ARC.simulate cap s).2 =
      (s.map Prod.fst).foldl
        (fun st k => (ARC.process_request st k).2) (ARC.init cap) := by
  rw [arc_sim_tmpl]
  exact tmpl_state _ _ _ _ s _ _

theorem larc_state_keys (cap : ℕ) (s : List (Int × Op)) :
    (LARC.simulate cap s).2 =
      (s.map Prod.fst).foldl
        (fun st k => (LARC.process_request st k).2) (LARC.init cap) := by
  rw [larc_sim_tmpl]
  exact tmpl_state _ _ _ _ s _ _

theorem opt_state_keys (cap : ℕ) (s : List (Int × Op)) :
    (OPT.simulate cap s).2 =
      ((s.zip (OPT.precompute_next_use (s.map Prod.fst))).map
          (fun r => (r.1.1, r.2))).foldl
        (fun st k => (optStepFn st k).2) (OPT.init cap) := by
  rw [opt_sim_tmpl]
  exact tmpl_state _ _ _ _ _ _ _

theorem nhit_state_keys (cap : ℕ) (trigger : ℚ) (insThr : ℕ) (s : List (Int × Op)) :
    (NHit.simulate cap trigger insThr s).2 =
      (s.map Prod.fst).foldl
        (fun st k => (NHit.processOne st k).2) (NHit.init cap trigger insThr) := by
  rw [nhit_sim_tmpl]
  exact tmpl_state _ _ _ _ s _ _

theorem nhitlru_state_keys (cap : ℕ) (trigger : ℚ) (n maxTracked : ℕ)
    (s : List (Int × Op)) :
    (NHitLRU.simulate cap trigger n maxTracked s).2 =
      (s.map Prod.fst).foldl
        (fun st k => (NHitLRU.processOne st k).2)
        ({ capacity := cap, cache := [] },
         { trigger_threshold := trigger, N := n, cache_capacity := cap,
           max_tracked_items := maxTracked, access_counts := [],
           tracking_queue := [] }) := by
  rw [nhitlru_sim_tmpl]
  exact tmpl_state _ _ _ _ s _ _

theorem lru_outcomes_keys (cap : ℕ) (s : List (Int × Op)) :
    LRU.outcomes cap s =
      ((s.map Prod.fst).foldl
        (fun (acc : List Bool × LRU.State) k =>
          (acc.1 ++ [(LRU.access_or_update_cache acc.2 k).1],
           (LRU.access_or_update_cache acc.2 k).2))
        ([], LRU.init cap)).1 :=
  congrArg Prod.fst
    (outcomes_factor Prod.fst (fun st k => LRU.access_or_update_cache st k) s
      ([], LRU.init cap))

theorem arc_outcomes_keys (cap : ℕ) (s : List (Int × Op)) :
    ARC.outcomes cap s =
      ((s.map Prod.fst).foldl
        (fun (acc : List Bool × ARC.State) k =>
          (acc.1 ++ [(ARC.process_request acc.2 k).1],
           (ARC.process_request acc.2 k).2))
        ([], ARC.init cap)).1 :=
  congrArg Prod.fst
    (outcomes_factor Prod.fst (fun st k => ARC.process_request st k) s
      ([], ARC.init cap))

theorem larc_outcomes_keys (cap : ℕ) (s : List (Int × Op)) :
    LARC.outcomes cap s =
      ((s.map Prod.fst).foldl
        (fun (acc : List Bool × LARC.State) k =>
          (acc.1 ++ [(LARC.process_request acc.2 k).1],
           (LARC.process_request acc.2 k).2))
        ([], LARC.init cap)).1 :=
  congrArg Prod.fst
    (outcomes_factor Prod.fst (fun st k => LARC.process_request st k) s
      ([], LARC.init cap))

theorem opt_outcomes_keys (cap : ℕ) (s : List (Int × Op)) :
    OPT.outcomes cap s =
      (((s.zip (OPT.precompute_next_use (s.map Prod.fst))).map
          (fun r => (r.1.1, r.2))).foldl
        (fun (acc : List Bool × OPT.State) k =>
          (acc.1 ++ [(optStepFn acc.2 k).1], (optStepFn acc.2 k).2))
        ([], OPT.init cap)).1 :=
  congrArg Prod.fst
    (outcomes_factor (fun (r : (Int × Op) × Option ℕ) => (r.1.1, r.2)) optStepFn _
      ([], OPT.init cap))

theorem nhit_outcomes_keys (cap : ℕ) (trigger : ℚ) (insThr : ℕ)
    (s : List (Int × Op)) :
    NHit.outcomes cap trigger insThr s =
      ((s.map Prod.fst).foldl
        (fun (acc : List Bool × NHit.State) k =>
          (acc.1 ++ [(NHit.processOne acc.2 k).1], (NHit.processOne acc.2 k).2))
        ([], NHit.init cap trigger insThr)).1 :=
  congrArg Prod.fst
    (outcomes_factor Prod.fst (fun st k => NHit.processOne st k) s
      ([], NHit.init cap trigger insThr))

theorem nhitlru_outcomes_keys (cap : ℕ) (trigger : ℚ) (n maxTracked : ℕ)
    (s : List (Int × Op)) :
    NHitLRU.outcomes cap trigger n maxTracked s =
      ((s.map Prod.fst).foldl
        (fun (acc : List Bool × (NHitLRU.LRUPart × NHitLRU.Policy)) k =>
          (acc.1 ++ [(NHitLRU.processOne acc.2 k).1], (NHitLRU.processOne acc.2 k).2))
        ([], ({ capacity := cap, cache := [] },
          { trigger_threshold := trigger, N := n, cache_capacity := cap,
            max_tracked_items := maxTracked, access_counts := [],
            tracking_queue := [] }))).1 :=
  congrArg Prod.fst
    (outcomes_factor Prod.fst (fun st k => NHitLRU.processOne st k) s _)

theorem lru_hits_keys (cap : ℕ) (s : List (Int × Op)) :
    LRU.totalHits cap s =
      outSum (fun _ => 1) (fun st k => LRU.access_or_update_cache st k)
          (LRU.init cap) (s.map Prod.fst)
        - outSum (fun hit => if hit then 0 else 1)
            (fun st k => LRU.access_or_update_cache st k)
            (LRU.init cap) (s.map Prod.fst) := by
  have h1 : LRU.totalHits cap s =
      ((LRU.simulate_lru_policy cap s).1.1 - (LRU.simulate_lru_policy cap s).1.2.1)
        + ((LRU.simulate_lru_policy cap s).1.2.2.1
            - (LRU.simulate_lru_policy cap s).1.2.2.2) := rfl
  rw [h1, lru_sim_tmpl]
  have hA := tmpl_measure Prod.fst Prod.snd
    (fun st k => LRU.access_or_update_cache st k) lruUpd
    (fun c => c.1 + c.2.2.1) (fun _ => 1)
    (by intro c op hit k; cases op <;> cases hit <;> simp [lruUpd] <;> omega)
    s (0, 0, 0, 0) (LRU.init cap)
  have hB := tmpl_measure Prod.fst Prod.snd
    (fun st k => LRU.access_or_update_cache st k) lruUpd
    (fun c => c.2.1 + c.2.2.2) (fun hit => if hit then 0 else 1)
    (by intro c op hit k; cases op <;> cases hit <;> simp [lruUpd] <;> omega)
    s (0, 0, 0, 0) (LRU.init cap)
  have hpres : ∀ (a : (ℕ × ℕ × ℕ × ℕ) × LRU.State) (r : Int × Op),
      (a.1.2.1 ≤ a.1.1 ∧ a.1.2.2.2 ≤ a.1.2.2.1) →
      (((tmplStep Prod.fst Prod.snd
          (fun st k => LRU.access_or_update_cache st k) lruUpd) a r).1.2.1 ≤
        ((tmplStep Prod.fst Prod.snd
          (fun st k => LRU.access_or_update_cache st k) lruUpd) a r).1.1 ∧
        ((tmplStep Prod.fst Prod.snd
          (fun st k => LRU.access_or_update_cache st k) lruUpd) a r).1.2.2.2 ≤
        ((tmplStep Prod.fst Prod.snd
          (fun st k => LRU.access_or_update_cache st k) lruUpd) a r).1.2.2.1) := by
    intro a r h
    obtain ⟨k, op⟩ := r
    cases op <;> simp [tmplStep, lruUpd] <;> split_ifs <;> omega
  have hdom := foldl_preserve hpres s ((0, 0, 0, 0), LRU.init cap)
    ⟨Nat.le_refl 0, Nat.le_refl 0⟩
  dsimp only [] at hA hB
  omega

theorem arc_hits_keys (cap : ℕ) (s : List (Int × Op)) :
    ARC.totalHits cap s =
      outSum (fun hit => if hit then 1 else 0)
        (fun st k => ARC.process_request st k) (ARC.init cap) (s.map Prod.fst) := by
  have h1 : ARC.totalHits cap s =
      (ARC.simulate cap s).1.2.1 + (ARC.simulate cap s).1.2.2.2.2.1 := rfl
  rw [h1, arc_sim_tmpl]
  have hA := tmpl_measure Prod.fst Prod.snd
    (fun st k => ARC.process_request st k) sixUpd
    (fun c => c.2.1 + c.2.2.2.2.1) (fun hit => if hit then 1 else 0)
    (by intro c op hit k; cases op <;> cases hit <;> simp [sixUpd] <;> omega)
    s (0, 0, 0, 0, 0, 0) (ARC.init cap)
  dsimp only [] at hA
  omega

theorem larc_hits_keys (cap : ℕ) (s : List (Int × Op)) :
    LARC.totalHits cap s =
      outSum (fun hit => if hit then 1 else 0)
        (fun st k => LARC.process_request st k) (LARC.init cap) (s.map Prod.fst) := by
  have h1 : LARC.totalHits cap s =
      (LARC.simulate cap s).1.2.1 + (LARC.simulate cap s).1.2.2.2.2.1 := rfl
  rw [h1, larc_sim_tmpl]
  have hA := tmpl_measure Prod.fst Prod.snd
    (fun st k => LARC.process_request st k) sixUpd
    (fun c => c.2.1 + c.2.2.2.2.1) (fun hit => if hit then 1 else 0)
    (by intro c op hit k; cases op <;> cases hit <;> simp [sixUpd] <;> omega)
    s (0, 0, 0, 0, 0, 0) (LARC.init cap)
  dsimp only [] at hA
  omega

theorem opt_hits_keys (cap : ℕ) (s : List (Int × Op)) :
    OPT.totalHits cap s =
      outSum (fun hit => if hit then 1 else 0) optStepFn (OPT.init cap)
        ((s.zip (OPT.precompute_next_use (s.map Prod.fst))).map
          (fun r => (r.1.1, r.2))) := by
  have h1 : OPT.totalHits cap s =
      (OPT.simulate cap s).1.1 + (OPT.simulate cap s).1.2.2.1 := rfl
  rw [h1, opt_sim_tmpl]
  have hA := tmpl_measure (fun (r : (Int × Op) × Option ℕ) => (r.1.1, r.2))
    (fun r => r.1.2) optStepFn optUpd
    (fun c => c.1 + c.2.2.1) (fun hit => if hit then 1 else 0)
    (by intro c op hit k; cases op <;> cases hit <;> simp [optUpd] <;> omega)
    (s.zip (OPT.precompute_next_use (s.map Prod.fst))) (0, 0, 0, 0) (OPT.init cap)
  dsimp only [] at hA
  omega

theorem nhit_hits_keys (cap : ℕ) (trigger : ℚ) (insThr : ℕ) (s : List (Int × Op)) :
    NHit.totalHits cap trigger insThr s =
      outSum (fun hit => if hit then 1 else 0)
        (fun st k => NHit.processOne st k) (NHit.init cap trigger insThr)
        (s.map Prod.fst) := by
  have h1 : NHit.totalHits cap trigger insThr s =
      (NHit.simulate cap trigger insThr s).1.1.1
        + (NHit.simulate cap trigger insThr s).1.1.2.2.1 := rfl
  rw [h1, nhit_sim_tmpl]
  have hA := tmpl_measure Prod.fst Prod.snd
    (fun st k => NHit.processOne st k) nhitUpd
    (fun cs => cs.1.1 + cs.1.2.2.1) (fun hit => if hit then 1 else 0)
    (by intro c op hit k; cases op <;> cases hit <;> simp [nhitUpd] <;> omega)
    s ((0, 0, 0, 0, 0), []) (NHit.init cap trigger insThr)
  dsimp only [] at hA
  omega

theorem nhitlru_hits_keys (cap : ℕ) (trigger : ℚ) (n maxTracked : ℕ)
    (s : List (Int × Op)) :
    NHitLRU.totalHits cap trigger n maxTracked s =
      outSum (fun hit => if hit then 1 else 0)
        (fun st k => NHitLRU.processOne st k)
        ({ capacity := cap, cache := [] },
         { trigger_threshold := trigger, N := n, cache_capacity := cap,
           max_tracked_items := maxTracked, access_counts := [],
           tracking_queue := [] })
        (s.map Prod.fst) := by
  have h1 : NHitLRU.totalHits cap trigger n maxTracked s =
      (NHitLRU.simulate cap trigger n maxTracked s).1.2.1
        + (NHitLRU.simulate cap trigger n maxTracked s).1.2.2.2 := rfl
  rw [h1, nhitlru_sim_tmpl]
  have hA := tmpl_measure Prod.fst Prod.snd
    (fun st k => NHitLRU.processOne st k) nhitlruUpd
    (fun c => c.2.1 + c.2.2.2) (fun hit => if hit then 1 else 0)
    (by intro c op hit k; cases op <;> cases hit <;> simp [nhitlruUpd] <;> omega)
    s (0, 0, 0, 0)
    ({ capacity := cap, cache := [] },
     { trigger_threshold := trigger, N := n, cache_capacity := cap,
       max_tracked_items := maxTracked, access_counts := [],
       tracking_queue := [] })
  dsimp only [] at hA
  omega

/-- C10: Operation-noninterference.  For every policy engine, two request
sequences with the same keys (in particular, sequences differing only by
flipping Read/Write operation fields) produce the same per-request hit/miss
outcome list, the same final engine state, and the same total hit count —
only the split of the counters between read and write columns can differ,
because every embedded step function consumes only the key. -/
theorem op_noninterference (cap : ℕ) (trigger : ℚ) (insThr n maxTracked : ℕ)
    (s t : List (Int × Op)) (hk : s.map Prod.fst = t.map Prod.fst) :
    (LRU.outcomes cap s = LRU.outcomes cap t ∧
      (LRU.simulate_lru_policy cap s).2 = (LRU.simulate_lru_policy cap t).2 ∧
      LRU.totalHits cap s = LRU.totalHits cap t) ∧
    (ARC.outcomes cap s = ARC.outcomes cap t ∧
      (ARC.simulate cap s).2 = (ARC.simulate cap t).2 ∧
      ARC.totalHits cap s = ARC.totalHits cap t) ∧
    (LARC.outcomes cap s = LARC.outcomes cap t ∧
      (LARC.simulate cap s).2 = (LARC.simulate cap t).2 ∧
      LARC.totalHits cap s = LARC.totalHits cap t) ∧
    (OPT.outcomes cap s = OPT.outcomes cap t ∧
      (OPT.simulate cap s).2 = (OPT.simulate cap t).2 ∧
      OPT.totalHits cap s = OPT.totalHits cap t) ∧
    (NHit.outcomes cap trigger insThr s = NHit.outcomes cap trigger insThr t ∧
      (NHit.simulate cap trigger insThr s).2 = (NHit.simulate cap trigger insThr t).2 ∧
      NHit.totalHits cap trigger insThr s = NHit.totalHits cap trigger insThr t) ∧
    (NHitLRU.outcomes cap trigger n maxTracked s =
        NHitLRU.outcomes cap trigger n maxTracked t ∧
      (NHitLRU.simulate cap trigger n maxTracked s).2 =
        (NHitLRU.simulate cap trigger n maxTracked t).2 ∧
      NHitLRU.totalHits cap trigger n maxTracked s =
        NHitLRU.totalHits cap trigger n maxTracked t) := by
  have hnu : OPT.precompute_next_use (s.map Prod.fst) =
      OPT.precompute_next_use (t.map Prod.fst) := by rw [hk]
  have hz : (s.zip (OPT.precompute_next_use (s.map Prod.fst))).map
        (fun r => (r.1.1, r.2)) =
      (t.zip (OPT.precompute_next_use (t.map Prod.fst))).map
        (fun r => (r.1.1, r.2)) := by
    rw [← hnu]
    exact zip_key_map s t _ hk
  refine ⟨⟨?_, ?_, ?_⟩, ⟨?_, ?_, ?_⟩, ⟨?_, ?_, ?_⟩, ⟨?_, ?_, ?_⟩, ⟨?_, ?_, ?_⟩,
    ?_, ?_, ?_⟩
  · rw [lru_outcomes_keys, lru_outcomes_keys, hk]
  · rw [lru_state_keys, lru_state_keys, hk]
  · rw [lru_hits_keys, lru_hits_keys, hk]
  · rw [arc_outcomes_keys, arc_outcomes_keys, hk]
  · rw [arc_state_keys, arc_state_keys, hk]
  · rw [arc_hits_keys, arc_hits_keys, hk]
  · rw [larc_outcomes_keys, larc_outcomes_keys, hk]
  · rw [larc_state_keys, larc_state_keys, hk]
  · rw [larc_hits_keys, larc_hits_keys, hk]
  · rw [opt_outcomes_keys, opt_outcomes_keys, hz]
  · rw [opt_state_keys, opt_state_keys, hz]
  · rw [opt_hits_keys, opt_hits_keys, hz]
  · rw [nhit_outcomes_keys, nhit_outcomes_keys, hk]
  · rw [nhit_state_keys, nhit_state_keys, hk]
  · rw [nhit_hits_keys, nhit_hits_keys, hk]
  · rw [nhitlru_outcomes_keys, nhitlru_outcomes_keys, hk]
  · rw [nhitlru_state_keys, nhitlru_state_keys, hk]
  · rw [nhitlru_hits_keys, nhitlru_hits_keys, hk]

/-- Witness for `op_noninterference` at a concrete pair of sequences that
differ only in their operation fields. -/
theorem op_noninterference_witness :
    [((1 : Int), Op.read), (2, Op.write), (1, Op.read)].map Prod.fst =
      [((1 : Int), Op.write), (2, Op.read), (1, Op.write)].map Prod.fst ∧
    LRU.outcomes 2 [((1 : Int), Op.read), (2, Op.write), (1, Op.read)] =
      LRU.outcomes 2 [((1 : Int), Op.write), (2, Op.read), (1, Op.write)] ∧
    ARC.totalHits 2 [((1 : Int), Op.read), (2, Op.write), (1, Op.read)] =
      ARC.totalHits 2 [((1 : Int), Op.write), (2, Op.read), (1, Op.write)] :=
  ⟨rfl,
    (op_noninterference 2 (1/2) 2 2 3 _ _ rfl).1.1,
    (op_noninterference 2 (1/2) 2 2 3 _ _ rfl).2.1.2.2⟩

/-! ## C6 — full ARC invariant -/

/-- Structural invariant of the four ARC lists: each is duplicate-free and
they are pairwise disjoint. -/
def ARCDisj (st : ARC.State) : Prop :=
  st.T1.Nodup ∧ st.T2.Nodup ∧ st.B1.Nodup ∧ st.B2.Nodup ∧
  (∀ x, x ∈ st.T1 → x ∉ st.T2) ∧
  (∀ x, x ∈ st.T1 → x ∉ st.B1) ∧
  (∀ x, x ∈ st.T1 → x ∉ st.B2) ∧
  (∀ x, x ∈ st.T2 → x ∉ st.B1) ∧
  (∀ x, x ∈ st.T2 → x ∉ st.B2) ∧
  (∀ x, x ∈ st.B1 → x ∉ st.B2)

theorem arc_balance_disj : ∀ (fuel : ℕ) (st : ARC.State),
    ARCDisj st → ARCDisj (ARC.balance fuel st) := by
  intro fuel
  induction fuel with
  | zero => intro st h; exact h
  | succ f ih =>
    intro st h
    obtain ⟨h1, h2, h3, h4, d12, d1b1, d1b2, d2b1, d2b2, db⟩ := h
    unfold ARC.balance
    split
    · exact ⟨h1, h2, h3, h4, d12, d1b1, d1b2, d2b1, d2b2, db⟩
    · split
      · cases hT1 : st.T1 with
        | nil => exact ⟨h1, h2, h3, h4, d12, d1b1, d1b2, d2b1, d2b2, db⟩
        | cons old rest =>
          apply ih
          rw [hT1] at h1
          have hold : old ∈ st.T1 := by rw [hT1]; exact List.mem_cons_self _ _
          have hrest : ∀ x, x ∈ rest → x ∈ st.T1 := by
            intro x hx; rw [hT1]; exact List.mem_cons_of_mem _ hx
          have holdrest : old ∉ rest := (List.nodup_cons.mp h1).1
          refine ⟨(List.nodup_cons.mp h1).2, h2,
            List.Nodup.append h3 (List.nodup_singleton _) ?_, h4,
            ?_, ?_, ?_, ?_, ?_, ?_⟩
          · intro x hx hx2
            simp only [List.mem_singleton] at hx2
            subst hx2
            exact d1b1 x hold hx
          · intro x hx; exact d12 x (hrest x hx)
          · intro x hx hxB
            rcases List.mem_append.mp hxB with hxB | hxB
            · exact d1b1 x (hrest x hx) hxB
            · simp only [List.mem_singleton] at hxB
              subst hxB
              exact holdrest hx
          · intro x hx; exact d1b2 x (hrest x hx)
          · intro x hx hxB
            rcases List.mem_append.mp hxB with hxB | hxB
            · exact d2b1 x hx hxB
            · simp only [List.mem_singleton] at hxB
              subst hxB
              exact d12 x hold hx
          · exact d2b2
          · intro x hxB hx2
            rcases List.mem_append.mp hxB with hxB | hxB
            · exact db x hxB hx2
            · simp only [List.mem_singleton] at hxB
              subst hxB
              exact d1b2 x hold hx2
      · cases hT2 : st.T2 with
        | nil => exact ⟨h1, h2, h3, h4, d12, d1b1, d1b2, d2b1, d2b2, db⟩
        | cons old rest =>
          apply ih
          rw [hT2] at h2
          have hold : old ∈ st.T2 := by rw [hT2]; exact List.mem_cons_self _ _
          have hrest : ∀ x, x ∈ rest → x ∈ st.T2 := by
            intro x hx; rw [hT2]; exact List.mem_cons_of_mem _ hx
          have holdrest : old ∉ rest := (List.nodup_cons.mp h2).1
          refine ⟨h1, (List.nodup_cons.mp h2).2, h3,
            List.Nodup.append h4 (List.nodup_singleton _) ?_,
            ?_, ?_, ?_, ?_, ?_, ?_⟩
          · intro x hx hx2
            simp only [List.mem_singleton] at hx2
            subst hx2
            exact d2b2 x hold hx
          · intro x hx hx2; exact d12 x hx (hrest x hx2)
          · exact d1b1
          · intro x hx hxB
            rcases List.mem_append.mp hxB with hxB | hxB
            · exact d1b2 x hx hxB
            · simp only [List.mem_singleton] at hxB
              subst hxB
              exact d12 x hx hold
          · intro x hx; exact d2b1 x (hrest x hx)
          · intro x hx hxB
            rcases List.mem_append.mp hxB with hxB | hxB
            · exact d2b2 x (hrest x hx) hxB
            · simp only [List.mem_singleton] at hxB
              subst hxB
              exact holdrest hx
          · intro x hxB hx2
            rcases List.mem_append.mp hx2 with hx2 | hx2
            · exact db x hxB hx2
            · simp only [List.mem_singleton] at hx2
              subst hx2
              exact d2b1 x hold hxB

theorem arc_ghost_disj : ∀ (fuel : ℕ) (st : ARC.State),
    ARCDisj st → ARCDisj (ARC.ghost fuel st) := by
  intro fuel
  induction fuel with
  | zero => intro st h; exact h
  | succ f ih =>
    intro st h
    obtain ⟨h1, h2, h3, h4, d12, d1b1, d1b2, d2b1, d2b2, db⟩ := h
    unfold ARC.ghost
    split
    · exact ⟨h1, h2, h3, h4, d12, d1b1, d1b2, d2b1, d2b2, db⟩
    · split
      · cases hB1 : st.B1 with
        | nil => exact ⟨h1, h2, h3, h4, d12, d1b1, d1b2, d2b1, d2b2, db⟩
        | cons old rest =>
          apply ih
          rw [hB1] at h3
          have hrest : ∀ x, x ∈ rest → x ∈ st.B1 := by
            intro x hx; rw [hB1]; exact List.mem_cons_of_mem _ hx
          exact ⟨h1, h2, (List.nodup_cons.mp h3).2, h4, d12,
            fun x hx hx2 => d1b1 x hx (hrest x hx2), d1b2,
            fun x hx hx2 => d2b1 x hx (hrest x hx2), d2b2,
            fun x hx hx2 => db x (hrest x hx) hx2⟩
      · cases hB2 : st.B2 with
        | nil => exact ⟨h1, h2, h3, h4, d12, d1b1, d1b2, d2b1, d2b2, db⟩
        | cons old rest =>
          apply ih
          rw [hB2] at h4
          have hrest : ∀ x, x ∈ rest → x ∈ st.B2 := by
            intro x hx; rw [hB2]; exact List.mem_cons_of_mem _ hx
          exact ⟨h1, h2, h3, (List.nodup_cons.mp h4).2, d12, d1b1,
            fun x hx hx2 => d1b2 x hx (hrest x hx2), d2b1,
            fun x hx hx2 => d2b2 x hx (hrest x hx2),
            fun x hx hx2 => db x hx (hrest x hx2)⟩

theorem arc_step_disj {st : ARC.State} (h : ARCDisj st) (page : Int) :
    ARCDisj (ARC.process_request st page).2 := by
  obtain ⟨h1, h2, h3, h4, d12, d1b1, d1b2, d2b1, d2b2, db⟩ := h
  cases hb1 : st.T1.contains page with
  | true =>
    rw [arc_hit_T1_eq st page hb1]
    have hmem : page ∈ st.T1 := by
      simpa [List.contains, List.elem_eq_mem] using hb1
    refine ⟨h1.erase _, List.Nodup.append h2 (List.nodup_singleton _) ?_, h3, h4,
      ?_, ?_, ?_, ?_, ?_, db⟩
    · intro x hx hx2
      simp only [List.mem_singleton] at hx2
      subst hx2
      exact d12 x hmem hx
    · intro x hx hxm
      have hx1 : x ∈ st.T1 := List.mem_of_mem_erase hx
      have hxne : x ≠ page := ((List.Nodup.mem_erase_iff h1).1 hx).1
      rcases List.mem_append.mp hxm with hxm | hxm
      · exact d12 x hx1 hxm
      · simp only [List.mem_singleton] at hxm
        exact hxne hxm
    · intro x hx; exact d1b1 x (List.mem_of_mem_erase hx)
    · intro x hx; exact d1b2 x (List.mem_of_mem_erase hx)
    · intro x hx
      rcases List.mem_append.mp hx with hx | hx
      · exact d2b1 x hx
      · simp only [List.mem_singleton] at hx
        subst hx
        exact d1b1 x hmem
    · intro x hx
      rcases List.mem_append.mp hx with hx | hx
      · exact d2b2 x hx
      · simp only [List.mem_singleton] at hx
        subst hx
        exact d1b2 x hmem
  | false =>
    have hnT1 : page ∉ st.T1 := by
      simpa [List.contains, List.elem_eq_mem] using hb1
    cases hb2 : st.T2.contains page with
    | true =>
      rw [arc_hit_T2_eq st page hb1 hb2]
      have hmem : page ∈ st.T2 := by
        simpa [List.contains, List.elem_eq_mem] using hb2
      refine ⟨h1, List.Nodup.append (h2.erase _) (List.nodup_singleton _) ?_,
        h3, h4, ?_, d1b1, d1b2, ?_, ?_, db⟩
      · intro x hx hx2
        simp only [List.mem_singleton] at hx2
        subst hx2
        exact ((List.Nodup.mem_erase_iff h2).1 hx).1 rfl
      · intro x hx hxm
        rcases List.mem_append.mp hxm with hxm | hxm
        · exact d12 x hx (List.mem_of_mem_erase hxm)
        · simp only [List.mem_singleton] at hxm
          subst hxm
          exact hnT1 hx
      · intro x hx
        rcases List.mem_append.mp hx with hx | hx
        · exact d2b1 x (List.mem_of_mem_erase hx)
        · simp only [List.mem_singleton] at hx
          subst hx
          exact d2b1 x hmem
      · intro x hx
        rcases List.mem_append.mp hx with hx | hx
        · exact d2b2 x (List.mem_of_mem_erase hx)
        · simp only [List.mem_singleton] at hx
          subst hx
          exact d2b2 x hmem
    | false =>
      have hnT2 : page ∉ st.T2 := by
        simpa [List.contains, List.elem_eq_mem] using hb2
      rw [arc_process_miss st page hb1 hb2]
      apply arc_ghost_disj
      apply arc_balance_disj
      unfold arcMiss1
      cases hg1 : st.B1.contains page with
      | true =>
        rw [if_pos rfl]
        have hmem : page ∈ st.B1 := by
          simpa [List.contains, List.elem_eq_mem] using hg1
        refine ⟨h1, List.Nodup.append h2 (List.nodup_singleton _) ?_,
          h3.erase _, h4, ?_, ?_, d1b2, ?_, ?_, ?_⟩
        · intro x hx hx2
          simp only [List.mem_singleton] at hx2
          subst hx2
          exact hnT2 hx
        · intro x hx hxm
          rcases List.mem_append.mp hxm with hxm | hxm
          · exact d12 x hx hxm
          · simp only [List.mem_singleton] at hxm
            subst hxm
            exact hnT1 hx
        · intro x hx hx2
          exact d1b1 x hx (List.mem_of_mem_erase hx2)
        · intro x hx hx2
          rcases List.mem_append.mp hx with hx | hx
          · exact d2b1 x hx (List.mem_of_mem_erase hx2)
          · simp only [List.mem_singleton] at hx
            subst hx
            exact ((List.Nodup.mem_erase_iff h3).1 hx2).1 rfl
        · intro x hx
          rcases List.mem_append.mp hx with hx | hx
          · exact d2b2 x hx
          · simp only [List.mem_singleton] at hx
            subst hx
            exact db x hmem
        · intro x hx
          exact db x (List.mem_of_mem_erase hx)
      | false =>
        rw [if_neg Bool.false_ne_true]
        have hnB1 : page ∉ st.B1 := by
          simpa [List.contains, List.elem_eq_mem] using hg1
        cases hg2 : st.B2.contains page with
        | true =>
          rw [if_pos rfl]
          have hmem : page ∈ st.B2 := by
            simpa [List.contains, List.elem_eq_mem] using hg2
          refine ⟨h1, List.Nodup.append h2 (List.nodup_singleton _) ?_,
            h3, h4.erase _, ?_, d1b1, ?_, ?_, ?_, ?_⟩
          · intro x hx hx2
            simp only [List.mem_singleton] at hx2
            subst hx2
            exact hnT2 hx
          · intro x hx hxm
            rcases List.mem_append.mp hxm with hxm | hxm
            · exact d12 x hx hxm
            · simp only [List.mem_singleton] at hxm
              subst hxm
              exact hnT1 hx
          · intro x hx hx2
            exact d1b2 x hx (List.mem_of_mem_erase hx2)
          · intro x hx
            rcases List.mem_append.mp hx with hx | hx
            · exact d2b1 x hx
            · simp only [List.mem_singleton] at hx
              subst hx
              exact hnB1
          · intro x hx hx2
            rcases List.mem_append.mp hx with hx | hx
            · exact d2b2 x hx (List.mem_of_mem_erase hx2)
            · simp only [List.mem_singleton] at hx
              subst hx
              exact ((List.Nodup.mem_erase_iff h4).1 hx2).1 rfl
          · intro x hx hx2
            exact db x hx (List.mem_of_mem_erase hx2)
        | false =>
          rw [if_neg Bool.false_ne_true]
          have hnB2 : page ∉ st.B2 := by
            simpa [List.contains, List.elem_eq_mem] using hg2
          refine ⟨List.Nodup.append h1 (List.nodup_singleton _) ?_, h2, h3, h4,
            ?_, ?_, ?_, d2b1, d2b2, db⟩
          · intro x hx hx2
            simp only [List.mem_singleton] at hx2
            subst hx2
            exact hnT1 hx
          · intro x hx
            rcases List.mem_append.mp hx with hx | hx
            · exact d12 x hx
            · simp only [List.mem_singleton] at hx
              subst hx
              exact hnT2
          · intro x hx
            rcases List.mem_append.mp hx with hx | hx
            · exact d1b1 x hx
            · simp only [List.mem_singleton] at hx
              subst hx
              exact hnB1
          · intro x hx
            rcases List.mem_append.mp hx with hx | hx
            · exact d1b2 x hx
            · simp only [List.mem_singleton] at hx
              subst hx
              exact hnB2

theorem arc_ghost_sum : ∀ (fuel : ℕ) (st : ARC.State),
    st.p ≤ st.cache_size →
    st.T1.length + st.T2.length ≤ st.cache_size →
    st.B1.length + st.B2.length ≤ fuel →
    (ARC.ghost fuel st).T1.length + (ARC.ghost fuel st).T2.length +
      (ARC.ghost fuel st).B1.length + (ARC.ghost fuel st).B2.length ≤
      2 * st.cache_size := by
  intro fuel
  induction fuel with
  | zero =>
    intro st hp hT hB
    simp only [ARC.ghost]
    omega
  | succ f ih =>
    intro st hp hT hB
    unfold ARC.ghost
    split
    · rename_i hle
      exact hle
    · rename_i hgt
      push_neg at hgt
      split
      · rename_i hpB1
        cases hB1l : st.B1 with
        | nil =>
          rw [hB1l] at hpB1
          simp at hpB1
        | cons old rest =>
          have hB' : rest.length + st.B2.length ≤ f := by
            rw [hB1l] at hB
            simp only [List.length_cons] at hB
            omega
          exact ih { st with B1 := rest } hp hT hB'
      · rename_i hpB1
        push_neg at hpB1
        cases hB2l : st.B2 with
        | nil =>
          exfalso
          rw [hB2l] at hgt
          simp only [List.length_nil] at hgt
          omega
        | cons old rest =>
          have hB' : st.B1.length + rest.length ≤ f := by
            rw [hB2l] at hB
            simp only [List.length_cons] at hB
            omega
          exact ih { st with B2 := rest } hp hT hB'

/-- Complete per-state ARC invariant: sizes, the 2·capacity ghost bound and
list disjointness. -/
def ARCFullInv (cap : ℕ) (st : ARC.State) : Prop :=
  ARCSizeInv cap st ∧
  st.T1.length + st.T2.length + st.B1.length + st.B2.length ≤ 2 * cap ∧
  ARCDisj st

theorem arc_full_step {cap : ℕ} {st : ARC.State} (h : ARCFullInv cap st)
    (page : Int) : ARCFullInv cap (ARC.process_request st page).2 := by
  obtain ⟨hs, htot, hd⟩ := h
  refine ⟨arc_size_step hs page, ?_, arc_step_disj hd page⟩
  obtain ⟨hc, hp, hsum⟩ := hs
  cases hb1 : st.T1.contains page with
  | true =>
    rw [arc_hit_T1_eq st page hb1]
    have hmem : page ∈ st.T1 := by
      simpa [List.contains, List.elem_eq_mem] using hb1
    have hlen : (st.T1.erase page).length = st.T1.length - 1 :=
      List.length_erase_of_mem hmem
    have hpos : 1 ≤ st.T1.length := List.length_pos.2 (by
      intro hnil
      rw [hnil] at hmem
      simp at hmem)
    simp only [hlen, List.length_append, List.length_singleton]
    omega
  | false =>
    cases hb2 : st.T2.contains page with
    | true =>
      rw [arc_hit_T2_eq st page hb1 hb2]
      have hmem : page ∈ st.T2 := by
        simpa [List.contains, List.elem_eq_mem] using hb2
      have hlen : (st.T2.erase page).length = st.T2.length - 1 :=
        List.length_erase_of_mem hmem
      have hpos : 1 ≤ st.T2.length := List.length_pos.2 (by
        intro hnil
        rw [hnil] at hmem
        simp at hmem)
      simp only [hlen, List.length_append, List.length_singleton]
      omega
    | false =>
      rw [arc_process_miss st page hb1 hb2]
      obtain ⟨hm1, hm2, hm3⟩ := arcMiss1_fields st page
      have hpm : (arcMiss1 st page).p ≤ (arcMiss1 st page).cache_size := by
        rw [hm1]
        calc (arcMiss1 st page).p ≤ max st.p st.cache_size := hm2
          _ ≤ st.cache_size := by
            rw [hc]
            exact max_le hp le_rfl
      have hbal := arc_balance_sum
        ((arcMiss1 st page).T1.length + (arcMiss1 st page).T2.length)
        (arcMiss1 st page) hpm (by omega)
      set st2 := ARC.balance
        ((arcMiss1 st page).T1.length + (arcMiss1 st page).T2.length)
        (arcMiss1 st page) with hst2
      have hp2 : st2.p ≤ st2.cache_size := by
        rw [hst2, arc_balance_p, arc_balance_cache_size]
        exact hpm
      have hT2b : st2.T1.length + st2.T2.length ≤ st2.cache_size := by
        rw [hst2, arc_balance_cache_size]
        exact hbal
      have hg := arc_ghost_sum (st2.B1.length + st2.B2.length) st2 hp2 hT2b le_rfl
      calc (ARC.ghost (st2.B1.length + st2.B2.length) st2).T1.length +
            (ARC.ghost (st2.B1.length + st2.B2.length) st2).T2.length +
            (ARC.ghost (st2.B1.length + st2.B2.length) st2).B1.length +
            (ARC.ghost (st2.B1.length + st2.B2.length) st2).B2.length ≤
          2 * st2.cache_size := hg
        _ = 2 * cap := by rw [hst2, arc_balance_cache_size, hm1, hc]

theorem arc_run_full (cap : ℕ) (seq : List (Int × Op)) :
    ARCFullInv cap (ARC.simulate cap seq).2 := by
  have hpres : ∀ (a : (ℕ × ℕ × ℕ × ℕ × ℕ × ℕ) × ARC.State) (r : Int × Op),
      ARCFullInv cap a.2 → ARCFullInv cap (ARC.simStep a r).2 := by
    intro a r h
    rw [arc_simStep_state]
    exact arc_full_step h r.1
  have h0 : ARCFullInv cap
      ((((0, 0, 0, 0, 0, 0) : ℕ × ℕ × ℕ × ℕ × ℕ × ℕ), ARC.init cap)).2 := by
    refine ⟨⟨rfl, Nat.zero_le _, by simp [ARC.init]⟩, by simp [ARC.init], ?_⟩
    simp [ARCDisj, ARC.init]
  exact foldl_preserve hpres seq _ h0

/-- C6: in the ARC engine with positive capacity, after every run from the
initial state the four lists T1, T2, B1, B2 are pairwise disjoint,
|T1|+|T2| ≤ capacity, |T1|+|T2|+|B1|+|B2| ≤ 2·capacity, and p ≤ capacity
(p is a natural number, so 0 ≤ p holds by construction, matching Python's
`max(0, …)` clamp). -/
theorem arc_invariants (cap : ℕ) (_hcap : 0 < cap) (seq : List (Int × Op)) :
    (∀ x ∈ ((ARC.simulate cap seq).2).T1, x ∉ ((ARC.simulate cap seq).2).T2) ∧
    (∀ x ∈ ((ARC.simulate cap seq).2).T1, x ∉ ((ARC.simulate cap seq).2).B1) ∧
    (∀ x ∈ ((ARC.simulate cap seq).2).T1, x ∉ ((ARC.simulate cap seq).2).B2) ∧
    (∀ x ∈ ((ARC.simulate cap seq).2).T2, x ∉ ((ARC.simulate cap seq).2).B1) ∧
    (∀ x ∈ ((ARC.simulate cap seq).2).T2, x ∉ ((ARC.simulate cap seq).2).B2) ∧
    (∀ x ∈ ((ARC.simulate cap seq).2).B1, x ∉ ((ARC.simulate cap seq).2).B2) ∧
    ((ARC.simulate cap seq).2).T1.length + ((ARC.simulate cap seq).2).T2.length ≤
      cap ∧
    ((ARC.simulate cap seq).2).T1.length + ((ARC.simulate cap seq).2).T2.length +
      ((ARC.simulate cap seq).2).B1.length + ((ARC.simulate cap seq).2).B2.length ≤
      2 * cap ∧
    ((ARC.simulate cap seq).2).p ≤ cap := by
  obtain ⟨⟨hc, hp, hsum⟩, htot, hnd1, hnd2, hnd3, hnd4, d12, d1b1, d1b2, d2b1,
    d2b2, db⟩ := arc_run_full cap seq
  exact ⟨d12, d1b1, d1b2, d2b1, d2b2, db, hsum, htot, hp⟩

/-- Witness for `arc_invariants` at capacity 1 on a one-request trace. -/
theorem arc_invariants_witness :
    (0 : ℕ) < 1 ∧
    (∀ x ∈ ((ARC.simulate 1 [((5 : Int), Op.read)]).2).T1,
      x ∉ ((ARC.simulate 1 [((5 : Int), Op.read)]).2).T2) ∧
    ((ARC.simulate 1 [((5 : Int), Op.read)]).2).p ≤ 1 :=
  ⟨by decide,
    (arc_invariants 1 (by decide) [(5, Op.read)]).1,
    (arc_invariants 1 (by decide) [(5, Op.read)]).2.2.2.2.2.2.2.2⟩

/-! ## C1 — Belady optimality

Abstract offline paging over the key sequence: `minMisses cap ks C` is the
least number of misses any demand-paging strategy (mandatory insertion on a
miss, one eviction exactly when the cache is full) can incur on `ks`
starting from cache `C`.  The embedded Belady engine is shown to meet this
bound and the embedded LRU engine to be bounded below by it. -/

/-- Index of the next use of `k` in `l`, with absent keys mapped to
`l.length` (standing for +∞, strictly beyond every real index). -/
def natIdx (l : List Int) (k : Int) : ℕ :=
  (firstIdx l k).getD l.length

/-- Optimal (minimal) miss count of demand paging with forced insertion. -/
def minMisses (cap : ℕ) : List Int → Finset Int → ℕ
  | [], _ => 0
  | k :: rest, C =>
    if k ∈ C then minMisses cap rest C
    else if C.card < cap then 1 + minMisses cap rest (insert k C)
    else if hne : C.Nonempty then
      1 + C.inf' hne (fun v => minMisses cap rest (insert k (C.erase v)))
    else 1 + minMisses cap rest (insert k C)

theorem minMisses_hit (cap : ℕ) (k : Int) (rest : List Int) (C : Finset Int)
    (hk : k ∈ C) : minMisses cap (k :: rest) C = minMisses cap rest C := by
  simp only [minMisses]
  rw [if_pos hk]

theorem minMisses_miss_notfull (cap : ℕ) (k : Int) (rest : List Int)
    (C : Finset Int) (hk : k ∉ C) (hlt : C.card < cap) :
    minMisses cap (k :: rest) C = 1 + minMisses cap rest (insert k C) := by
  simp only [minMisses]
  rw [if_neg hk, if_pos hlt]

theorem minMisses_miss_full (cap : ℕ) (k : Int) (rest : List Int)
    (C : Finset Int) (hk : k ∉ C) (hge : ¬ C.card < cap) (hne : C.Nonempty) :
    minMisses cap (k :: rest) C =
      1 + C.inf' hne (fun v => minMisses cap rest (insert k (C.erase v))) := by
  simp only [minMisses]
  rw [if_neg hk, if_neg hge, dif_pos hne]

theorem minMisses_miss_empty (cap : ℕ) (k : Int) (rest : List Int)
    (C : Finset Int) (hk : k ∉ C) (hge : ¬ C.card < cap) (hne : ¬ C.Nonempty) :
    minMisses cap (k :: rest) C = 1 + minMisses cap rest (insert k C) := by
  simp only [minMisses]
  rw [if_neg hk, if_neg hge, dif_neg hne]

theorem minMisses_sdiff_le (cap : ℕ) :
    ∀ (ks : List Int) (A B : Finset Int),
      A.card ≤ cap → B.card ≤ cap →
      minMisses cap ks A ≤ minMisses cap ks B + (B \ A).card := by
  intro ks
  induction ks with
  | nil =>
    intro A B hA hB
    simp [minMisses]
  | cons k rest ih =>
    intro A B hA hB
    by_cases hkA : k ∈ A
    · by_cases hkB : k ∈ B
      · rw [minMisses_hit cap k rest A hkA, minMisses_hit cap k rest B hkB]
        exact ih A B hA hB
      · rw [minMisses_hit cap k rest A hkA]
        by_cases hBf : B.card < cap
        · rw [minMisses_miss_notfull cap k rest B hkB hBf]
          have hih := ih A (insert k B) hA
            (by rw [Finset.card_insert_of_not_mem hkB]; omega)
          have hEq : insert k B \ A = B \ A := by
            ext x
            simp only [Finset.mem_sdiff, Finset.mem_insert]
            constructor
            · rintro ⟨h1 | h1, h2⟩
              · exact absurd (h1 ▸ hkA) h2
              · exact ⟨h1, h2⟩
            · rintro ⟨h1, h2⟩
              exact ⟨Or.inr h1, h2⟩
          rw [hEq] at hih
          omega
        · by_cases hne : B.Nonempty
          · rw [minMisses_miss_full cap k rest B hkB hBf hne]
            obtain ⟨w, hw, hwEq⟩ := Finset.exists_mem_eq_inf' hne
              (fun v => minMisses cap rest (insert k (B.erase v)))
            rw [hwEq]
            have hknBe : k ∉ B.erase w := fun h => hkB (Finset.mem_of_mem_erase h)
            have hih := ih A (insert k (B.erase w)) hA
              (by
                rw [Finset.card_insert_of_not_mem hknBe,
                  Finset.card_erase_of_mem hw]
                have : 1 ≤ B.card := Finset.card_pos.2 ⟨w, hw⟩
                omega)
            have hsub : insert k (B.erase w) \ A ⊆ B \ A := by
              intro x hx
              simp only [Finset.mem_sdiff, Finset.mem_insert,
                Finset.mem_erase] at hx ⊢
              rcases hx with ⟨h1 | h1, h2⟩
              · exact absurd (h1 ▸ hkA) h2
              · exact ⟨h1.2, h2⟩
            have hcard := Finset.card_le_card hsub
            omega
          · exfalso
            rw [Finset.not_nonempty_iff_eq_empty] at hne
            subst hne
            simp only [Finset.card_empty] at hBf
            have hcap : cap = 0 := by omega
            rw [hcap, Nat.le_zero, Finset.card_eq_zero] at hA
            subst hA
            simp at hkA
    · by_cases hkB : k ∈ B
      · rw [minMisses_hit cap k rest B hkB]
        have hkBA : k ∈ B \ A := Finset.mem_sdiff.2 ⟨hkB, hkA⟩
        have hpos : 1 ≤ (B \ A).card := Finset.card_pos.2 ⟨k, hkBA⟩
        by_cases hAf : A.card < cap
        · rw [minMisses_miss_notfull cap k rest A hkA hAf]
          have hih := ih (insert k A) B
            (by rw [Finset.card_insert_of_not_mem hkA]; omega) hB
          have hEq : B \ insert k A = (B \ A).erase k := by
            ext x
            simp only [Finset.mem_sdiff, Finset.mem_insert, Finset.mem_erase,
              not_or]
            constructor
            · rintro ⟨h1, h2, h3⟩
              exact ⟨h2, h1, h3⟩
            · rintro ⟨h1, h2, h3⟩
              exact ⟨h2, h1, h3⟩
          rw [hEq, Finset.card_erase_of_mem hkBA] at hih
          omega
        · by_cases hne : A.Nonempty
          · rw [minMisses_miss_full cap k rest A hkA hAf hne]
            have hAB : (A \ B).Nonempty := by
              rw [Finset.nonempty_iff_ne_empty]
              intro hempty
              have hsub : A ⊆ B := by
                rwa [Finset.sdiff_eq_empty_iff_subset] at hempty
              have hsub2 : insert k A ⊆ B := Finset.insert_subset_iff.2 ⟨hkB, hsub⟩
              have hcard := Finset.card_le_card hsub2
              rw [Finset.card_insert_of_not_mem hkA] at hcard
              omega
            obtain ⟨v, hv⟩ := hAB
            rw [Finset.mem_sdiff] at hv
            obtain ⟨hvA, hvB⟩ := hv
            have hinf : A.inf' hne
                (fun v => minMisses cap rest (insert k (A.erase v))) ≤
                minMisses cap rest (insert k (A.erase v)) :=
              Finset.inf'_le _ hvA
            have hknAe : k ∉ A.erase v := fun h => hkA (Finset.mem_of_mem_erase h)
            have hih := ih (insert k (A.erase v)) B
              (by
                rw [Finset.card_insert_of_not_mem hknAe,
                  Finset.card_erase_of_mem hvA]
                have : 1 ≤ A.card := Finset.card_pos.2 ⟨v, hvA⟩
                omega) hB
            have hsub : B \ insert k (A.erase v) ⊆ (B \ A).erase k := by
              intro x hx
              simp only [Finset.mem_sdiff, Finset.mem_insert, Finset.mem_erase,
                not_or] at hx ⊢
              obtain ⟨h1, h2, h3⟩ := hx
              refine ⟨h2, h1, ?_⟩
              intro hxA
              have hxv : x ≠ v := by
                intro hh
                rw [hh] at h1
                exact hvB h1
              exact h3 ⟨hxv, hxA⟩
            have hcard := Finset.card_le_card hsub
            rw [Finset.card_erase_of_mem hkBA] at hcard
            omega
          · exfalso
            rw [Finset.not_nonempty_iff_eq_empty] at hne
            subst hne
            simp only [Finset.card_empty] at hAf
            have hcap : cap = 0 := by omega
            rw [hcap, Nat.le_zero, Finset.card_eq_zero] at hB
            subst hB
            simp at hkB
      · -- k misses in both caches
        by_cases hAf : A.card < cap
        · rw [minMisses_miss_notfull cap k rest A hkA hAf]
          by_cases hBf : B.card < cap
          · rw [minMisses_miss_notfull cap k rest B hkB hBf]
            have hih := ih (insert k A) (insert k B)
              (by rw [Finset.card_insert_of_not_mem hkA]; omega)
              (by rw [Finset.card_insert_of_not_mem hkB]; omega)
            have hsub : insert k B \ insert k A ⊆ B \ A := by
              intro x hx
              simp only [Finset.mem_sdiff, Finset.mem_insert, not_or] at hx ⊢
              obtain ⟨h1 | h1, h2, h3⟩ := hx
              · exact absurd h1 h2
              · exact ⟨h1, h3⟩
            have hcard := Finset.card_le_card hsub
            omega
          · by_cases hne : B.Nonempty
            · rw [minMisses_miss_full cap k rest B hkB hBf hne]
              obtain ⟨w, hw, hwEq⟩ := Finset.exists_mem_eq_inf' hne
                (fun v => minMisses cap rest (insert k (B.erase v)))
              rw [hwEq]
              have hknBe : k ∉ B.erase w := fun h =>
                hkB (Finset.mem_of_mem_erase h)
              have hih := ih (insert k A) (insert k (B.erase w))
                (by rw [Finset.card_insert_of_not_mem hkA]; omega)
                (by
                  rw [Finset.card_insert_of_not_mem hknBe,
                    Finset.card_erase_of_mem hw]
                  have : 1 ≤ B.card := Finset.card_pos.2 ⟨w, hw⟩
                  omega)
              have hsub : insert k (B.erase w) \ insert k A ⊆ B \ A := by
                intro x hx
                simp only [Finset.mem_sdiff, Finset.mem_insert, Finset.mem_erase,
                  not_or] at hx ⊢
                obtain ⟨h1 | h1, h2, h3⟩ := hx
                · exact absurd h1 h2
                · exact ⟨h1.2, h3⟩
              have hcard := Finset.card_le_card hsub
              omega
            · exfalso
              rw [Finset.not_nonempty_iff_eq_empty] at hne
              subst hne
              simp only [Finset.card_empty] at hBf
              omega
        · by_cases hne : A.Nonempty
          · rw [minMisses_miss_full cap k rest A hkA hAf hne]
            by_cases hBf : B.card < cap
            · -- A full, B not full: evict some v ∈ A \ B
              rw [minMisses_miss_notfull cap k rest B hkB hBf]
              have hAB : (A \ B).Nonempty := by
                rw [Finset.nonempty_iff_ne_empty]
                intro hempty
                have hsub : A ⊆ B := by
                  rwa [Finset.sdiff_eq_empty_iff_subset] at hempty
                have hcard := Finset.card_le_card hsub
                omega
              obtain ⟨v, hv⟩ := hAB
              rw [Finset.mem_sdiff] at hv
              obtain ⟨hvA, hvB⟩ := hv
              have hinf : A.inf' hne
                  (fun v => minMisses cap rest (insert k (A.erase v))) ≤
                  minMisses cap rest (insert k (A.erase v)) :=
                Finset.inf'_le _ hvA
              have hknAe : k ∉ A.erase v := fun h =>
                hkA (Finset.mem_of_mem_erase h)
              have hih := ih (insert k (A.erase v)) (insert k B)
                (by
                  rw [Finset.card_insert_of_not_mem hknAe,
                    Finset.card_erase_of_mem hvA]
                  have : 1 ≤ A.card := Finset.card_pos.2 ⟨v, hvA⟩
                  omega)
                (by rw [Finset.card_insert_of_not_mem hkB]; omega)
              have hsub : insert k B \ insert k (A.erase v) ⊆ B \ A := by
                intro x hx
                simp only [Finset.mem_sdiff, Finset.mem_insert, Finset.mem_erase,
                  not_or] at hx ⊢
                obtain ⟨h1 | h1, h2, h3⟩ := hx
                · exact absurd h1 h2
                · refine ⟨h1, ?_⟩
                  intro hxA
                  have hxv : x ≠ v := by
                    intro hh
                    rw [hh] at h1
                    exact hvB h1
                  exact h3 ⟨hxv, hxA⟩
              have hcard := Finset.card_le_card hsub
              omega
            · by_cases hneB : B.Nonempty
              · rw [minMisses_miss_full cap k rest B hkB hBf hneB]
                obtain ⟨w, hw, hwEq⟩ := Finset.exists_mem_eq_inf' hneB
                  (fun v => minMisses cap rest (insert k (B.erase v)))
                rw [hwEq]
                have hknBe : k ∉ B.erase w := fun h =>
                  hkB (Finset.mem_of_mem_erase h)
                have hBecard : (insert k (B.erase w)).card ≤ cap := by
                  rw [Finset.card_insert_of_not_mem hknBe,
                    Finset.card_erase_of_mem hw]
                  have : 1 ≤ B.card := Finset.card_pos.2 ⟨w, hw⟩
                  omega
                by_cases hwA : w ∈ A
                · have hinf : A.inf' hne
                      (fun v => minMisses cap rest (insert k (A.erase v))) ≤
                      minMisses cap rest (insert k (A.erase w)) :=
                    Finset.inf'_le _ hwA
                  have hknAe : k ∉ A.erase w := fun h =>
                    hkA (Finset.mem_of_mem_erase h)
                  have hih := ih (insert k (A.erase w)) (insert k (B.erase w))
                    (by
                      rw [Finset.card_insert_of_not_mem hknAe,
                        Finset.card_erase_of_mem hwA]
                      have : 1 ≤ A.card := Finset.card_pos.2 ⟨w, hwA⟩
                      omega) hBecard
                  have hsub : insert k (B.erase w) \ insert k (A.erase w) ⊆
                      B \ A := by
                    intro x hx
                    simp only [Finset.mem_sdiff, Finset.mem_insert,
                      Finset.mem_erase, not_or] at hx ⊢
                    obtain ⟨h1 | h1, h2, h3⟩ := hx
                    · exact absurd h1 h2
                    · refine ⟨h1.2, ?_⟩
                      intro hxA
                      exact h3 ⟨h1.1, hxA⟩
                  have hcard := Finset.card_le_card hsub
                  omega
                · -- w ∈ B \ A; evict some v ∈ A \ B on the A side
                  have hwBA : w ∈ B \ A := Finset.mem_sdiff.2 ⟨hw, hwA⟩
                  have hposBA : 1 ≤ (B \ A).card := Finset.card_pos.2 ⟨w, hwBA⟩
                  have hAB : (A \ B).Nonempty := by
                    rw [Finset.nonempty_iff_ne_empty]
                    intro hempty
                    have hsub : A ⊆ B := by
                      rwa [Finset.sdiff_eq_empty_iff_subset] at hempty
                    have hEq : A = B := Finset.eq_of_subset_of_card_le hsub
                      (by omega)
                    rw [← hEq] at hw
                    exact hwA hw
                  obtain ⟨v, hv⟩ := hAB
                  rw [Finset.mem_sdiff] at hv
                  obtain ⟨hvA, hvB⟩ := hv
                  have hinf : A.inf' hne
                      (fun v => minMisses cap rest (insert k (A.erase v))) ≤
                      minMisses cap rest (insert k (A.erase v)) :=
                    Finset.inf'_le _ hvA
                  have hknAe : k ∉ A.erase v := fun h =>
                    hkA (Finset.mem_of_mem_erase h)
                  have hih := ih (insert k (A.erase v)) (insert k (B.erase w))
                    (by
                      rw [Finset.card_insert_of_not_mem hknAe,
                        Finset.card_erase_of_mem hvA]
                      have : 1 ≤ A.card := Finset.card_pos.2 ⟨v, hvA⟩
                      omega) hBecard
                  have hsub : insert k (B.erase w) \ insert k (A.erase v) ⊆
                      (B \ A).erase w := by
                    intro x hx
                    simp only [Finset.mem_sdiff, Finset.mem_insert,
                      Finset.mem_erase, not_or] at hx ⊢
                    obtain ⟨h1 | h1, h2, h3⟩ := hx
                    · exact absurd h1 h2
                    · refine ⟨h1.1, h1.2, ?_⟩
                      intro hxA
                      have hxv : x ≠ v := by
                        intro hh
                        rw [hh] at h1
                        exact hvB h1.2
                      exact h3 ⟨hxv, hxA⟩
                  have hcard := Finset.card_le_card hsub
                  rw [Finset.card_erase_of_mem hwBA] at hcard
                  omega
              · exfalso
                rw [Finset.not_nonempty_iff_eq_empty] at hneB
                subst hneB
                simp only [Finset.card_empty] at hBf
                have hcap : cap = 0 := by omega
                rw [Finset.nonempty_iff_ne_empty] at hne
                rw [hcap, Nat.le_zero, Finset.card_eq_zero] at hA
                exact hne hA
          · rw [Finset.not_nonempty_iff_eq_empty] at hne
            subst hne
            simp only [Finset.card_empty] at hAf
            have hcap : cap = 0 := by omega
            rw [hcap, Nat.le_zero, Finset.card_eq_zero] at hB
            subst hB
            exact Nat.le_add_right _ _

theorem natIdx_cons_self (k : Int) (rest : List Int) :
    natIdx (k :: rest) k = 0 := by
  simp [natIdx, firstIdx]

theorem natIdx_cons_ne (a k : Int) (rest : List Int) (h : ¬ a = k) :
    natIdx (a :: rest) k = natIdx rest k + 1 := by
  unfold natIdx
  rw [show firstIdx (a :: rest) k =
    (if a = k then some 0 else (firstIdx rest k).map (· + 1)) from rfl, if_neg h]
  cases firstIdx rest k with
  | none => simp
  | some d => simp

theorem minMisses_exchange (cap : ℕ) :
    ∀ (ks : List Int) (D : Finset Int) (x y : Int),
      x ∉ D → y ∉ D → D.card < cap →
      natIdx ks y ≤ natIdx ks x →
      minMisses cap ks (insert y D) ≤ minMisses cap ks (insert x D) := by
  intro ks
  induction ks with
  | nil =>
    intro D x y _ _ _ _
    simp [minMisses]
  | cons k rest ih =>
    intro D x y hxD hyD hDcard hidx
    by_cases hxy : x = y
    · subst hxy
      exact Nat.le_refl _
    by_cases hky : k = y
    · subst hky
      rw [minMisses_hit cap k rest (insert k D) (Finset.mem_insert_self _ _)]
      have hkIx : k ∉ insert x D := by
        simp only [Finset.mem_insert]
        rintro (h | h)
        · exact hxy h.symm
        · exact hyD h
      by_cases hfull : (insert x D).card < cap
      · rw [minMisses_miss_notfull cap k rest (insert x D) hkIx hfull]
        have hcards : (insert x D).card = D.card + 1 :=
          Finset.card_insert_of_not_mem hxD
        have hL3 := minMisses_sdiff_le cap rest (insert k D)
          (insert k (insert x D))
          (by rw [Finset.card_insert_of_not_mem hyD]; omega)
          (by
            have hkx : k ∉ insert x D := hkIx
            rw [Finset.card_insert_of_not_mem hkx]
            omega)
        have hsub : insert k (insert x D) \ insert k D ⊆ {x} := by
          intro z hz
          simp only [Finset.mem_sdiff, Finset.mem_insert, not_or,
            Finset.mem_singleton] at hz ⊢
          obtain ⟨h1 | h1 | h1, h2, h3⟩ := hz
          · exact absurd h1 h2
          · exact h1
          · exact absurd h1 h3
        have hcard := Finset.card_le_card hsub
        rw [Finset.card_singleton] at hcard
        omega
      · have hne : (insert x D).Nonempty := Finset.insert_nonempty _ _
        rw [minMisses_miss_full cap k rest (insert x D) hkIx hfull hne]
        obtain ⟨w, hwmem, hwEq⟩ := Finset.exists_mem_eq_inf' hne
          (fun v => minMisses cap rest (insert k ((insert x D).erase v)))
        rw [hwEq]
        have hknxw : k ∉ (insert x D).erase w := fun h =>
          hkIx (Finset.mem_of_mem_erase h)
        have hL3 := minMisses_sdiff_le cap rest (insert k D)
          (insert k ((insert x D).erase w))
          (by rw [Finset.card_insert_of_not_mem hyD]; omega)
          (by
            rw [Finset.card_insert_of_not_mem hknxw,
              Finset.card_erase_of_mem hwmem,
              Finset.card_insert_of_not_mem hxD]
            omega)
        have hsub : insert k ((insert x D).erase w) \ insert k D ⊆ {x} := by
          intro z hz
          simp only [Finset.mem_sdiff, Finset.mem_insert, Finset.mem_erase,
            not_or, Finset.mem_singleton] at hz ⊢
          obtain ⟨h1 | h1, h2, h3⟩ := hz
          · exact absurd h1 h2
          · rcases h1.2 with h4 | h4
            · exact h4
            · exact absurd h4 h3
        have hcard := Finset.card_le_card hsub
        rw [Finset.card_singleton] at hcard
        omega
    · by_cases hkx : k = x
      · exfalso
        subst hkx
        rw [natIdx_cons_self] at hidx
        rw [natIdx_cons_ne k y rest hky] at hidx
        omega
      · have hidx' : natIdx rest y ≤ natIdx rest x := by
          rw [natIdx_cons_ne k y rest hky, natIdx_cons_ne k x rest hkx] at hidx
          omega
        by_cases hkD : k ∈ D
        · rw [minMisses_hit cap k rest (insert y D)
            (Finset.mem_insert_of_mem hkD),
            minMisses_hit cap k rest (insert x D)
            (Finset.mem_insert_of_mem hkD)]
          exact ih D x y hxD hyD hDcard hidx'
        · have hkIy : k ∉ insert y D := by
            simp only [Finset.mem_insert]
            rintro (h | h)
            · exact hky h
            · exact hkD h
          have hkIx : k ∉ insert x D := by
            simp only [Finset.mem_insert]
            rintro (h | h)
            · exact hkx h
            · exact hkD h
          have hcy : (insert y D).card = D.card + 1 :=
            Finset.card_insert_of_not_mem hyD
          have hcx : (insert x D).card = D.card + 1 :=
            Finset.card_insert_of_not_mem hxD
          by_cases hfull : (insert y D).card < cap
          · rw [minMisses_miss_notfull cap k rest (insert y D) hkIy hfull,
              minMisses_miss_notfull cap k rest (insert x D) hkIx
                (by omega)]
            rw [Finset.Insert.comm k y, Finset.Insert.comm k x]
            have := ih (insert k D) x y
              (by
                simp only [Finset.mem_insert]
                rintro (h | h)
                · exact hkx h.symm
                · exact hxD h)
              (by
                simp only [Finset.mem_insert]
                rintro (h | h)
                · exact hky h.symm
                · exact hyD h)
              (by rw [Finset.card_insert_of_not_mem hkD]; omega)
              hidx'
            omega
          · have hneY : (insert y D).Nonempty := Finset.insert_nonempty _ _
            have hneX : (insert x D).Nonempty := Finset.insert_nonempty _ _
            rw [minMisses_miss_full cap k rest (insert y D) hkIy hfull hneY,
              minMisses_miss_full cap k rest (insert x D) hkIx
                (by omega) hneX]
            obtain ⟨w, hwmem, hwEq⟩ := Finset.exists_mem_eq_inf' hneX
              (fun v => minMisses cap rest (insert k ((insert x D).erase v)))
            rw [hwEq]
            rcases Finset.mem_insert.1 hwmem with hwx | hwD
            · subst hwx
              have hle := Finset.inf'_le
                (fun v => minMisses cap rest (insert k ((insert y D).erase v)))
                (Finset.mem_insert_self y D)
              have hEy : insert k ((insert y D).erase y) = insert k D := by
                rw [Finset.erase_insert hyD]
              have hEx : insert k ((insert w D).erase w) = insert k D := by
                rw [Finset.erase_insert hxD]
              rw [hEy] at hle
              rw [hEx]
              omega
            · have hyw : ¬ y = w := fun h => hyD (h ▸ hwD)
              have hxw : ¬ x = w := fun h => hxD (h ▸ hwD)
              have hwIy : w ∈ insert y D := Finset.mem_insert_of_mem hwD
              have hle := Finset.inf'_le
                (fun v => minMisses cap rest (insert k ((insert y D).erase v)))
                hwIy
              have hSy : insert k ((insert y D).erase w) =
                  insert y (insert k (D.erase w)) := by
                rw [Finset.erase_insert_of_ne hyw, Finset.Insert.comm]
              have hSx : insert k ((insert x D).erase w) =
                  insert x (insert k (D.erase w)) := by
                rw [Finset.erase_insert_of_ne hxw, Finset.Insert.comm]
              rw [hSy] at hle
              rw [hSx]
              have hknDw : k ∉ D.erase w := fun h =>
                hkD (Finset.mem_of_mem_erase h)
              have hih := ih (insert k (D.erase w)) x y
                (by
                  simp only [Finset.mem_insert, Finset.mem_erase]
                  rintro (h | h)
                  · exact hkx h.symm
                  · exact hxD h.2)
                (by
                  simp only [Finset.mem_insert, Finset.mem_erase]
                  rintro (h | h)
                  · exact hky h.symm
                  · exact hyD h.2)
                (by
                  rw [Finset.card_insert_of_not_mem hknDw,
                    Finset.card_erase_of_mem hwD]
                  have : 1 ≤ D.card := Finset.card_pos.2 ⟨w, hwD⟩
                  omega)
                hidx'
              omega

theorem outSum_cons {κ σ : Type} (ν : Bool → ℕ) (step : σ → κ → Bool × σ)
    (st : σ) (k : κ) (keys : List κ) :
    outSum ν step st (k :: keys) =
      ν ((step st k).1) + outSum ν step ((step st k).2) keys := by
  show (keys.foldl _ (0 + ν ((step st k).1), (step st k).2)).1 = _
  rw [outSum_go]
  omega

theorem outSum_nil {κ σ : Type} (ν : Bool → ℕ) (step : σ → κ → Bool × σ)
    (st : σ) : outSum ν step st [] = 0 := rfl

theorem outSum_split {κ σ : Type} (step : σ → κ → Bool × σ) :
    ∀ (keys : List κ) (st : σ),
      outSum (fun hit => if hit then 1 else 0) step st keys +
        outSum (fun hit => if hit then 0 else 1) step st keys = keys.length := by
  intro keys
  induction keys with
  | nil => intro st; rfl
  | cons k rest ih =>
    intro st
    rw [outSum_cons, outSum_cons, List.length_cons]
    have := ih ((step st k).2)
    have hone : (if (step st k).1 = true then (1 : ℕ) else 0) +
        (if (step st k).1 = true then (0 : ℕ) else 1) = 1 := by
      cases (step st k).1 <;> rfl
    omega

theorem greedy_victim_min (cap : ℕ) (rest : List Int) (C : Finset Int)
    (k v : Int) (hkC : k ∉ C) (hvC : v ∈ C) (hCcard : C.card ≤ cap)
    (hmax : ∀ r ∈ C, natIdx rest r ≤ natIdx rest v) :
    ∀ w ∈ C, minMisses cap rest (insert k (C.erase v)) ≤
      minMisses cap rest (insert k (C.erase w)) := by
  intro w hw
  by_cases hvw : v = w
  · subst hvw
    exact Nat.le_refl _
  · have hwv : w ∈ C.erase v := Finset.mem_erase.2 ⟨fun h => hvw h.symm, hw⟩
    have hvw2 : v ∈ C.erase w := Finset.mem_erase.2 ⟨hvw, hvC⟩
    have hC2 : (C.erase v).erase w = (C.erase w).erase v := by
      ext z
      simp only [Finset.mem_erase]
      constructor
      · rintro ⟨h1, h2, h3⟩
        exact ⟨h2, h1, h3⟩
      · rintro ⟨h1, h2, h3⟩
        exact ⟨h2, h1, h3⟩
    have hSv : insert k (C.erase v) = insert w (insert k ((C.erase v).erase w)) := by
      rw [Finset.Insert.comm, Finset.insert_erase hwv]
    have hSw : insert k (C.erase w) = insert v (insert k ((C.erase v).erase w)) := by
      rw [Finset.Insert.comm, hC2, Finset.insert_erase hvw2]
    rw [hSv, hSw]
    have hkC2 : k ∉ (C.erase v).erase w := fun h =>
      hkC (Finset.mem_of_mem_erase (Finset.mem_of_mem_erase h))
    have hcap1 : 1 ≤ C.card := Finset.card_pos.2 ⟨v, hvC⟩
    apply minMisses_exchange cap rest (insert k ((C.erase v).erase w)) v w
    · simp only [Finset.mem_insert, Finset.mem_erase]
      rintro (h | h)
      · rw [h] at hvC
        exact hkC hvC
      · exact h.2.1 rfl
    · simp only [Finset.mem_insert, Finset.mem_erase]
      rintro (h | h)
      · rw [h] at hw
        exact hkC hw
      · exact h.1 rfl
    · have hwe : w ∈ C.erase v := hwv
      rw [Finset.card_insert_of_not_mem hkC2, Finset.card_erase_of_mem hwe,
        Finset.card_erase_of_mem hvC]
      have h2 : 2 ≤ C.card := by
        have := Finset.card_pos.2 ⟨w, hwv⟩
        rw [Finset.card_erase_of_mem hvC] at this
        omega
      omega
    · exact hmax w hw

theorem min_le_lru_missSum (cap : ℕ) (hcap : 0 < cap) :
    ∀ (keys : List Int) (st : LRU.State),
      st.max_capacity = cap → st.cache_store.Nodup →
      st.cache_store.length ≤ cap →
      minMisses cap keys st.cache_store.toFinset ≤
        outSum (fun hit => if hit then 0 else 1)
          (fun s2 k => LRU.access_or_update_cache s2 k) st keys := by
  intro keys
  induction keys with
  | nil =>
    intro st _ _ _
    simp [minMisses, outSum_nil]
  | cons k rest ih =>
    intro st hc hnd hlen
    rw [outSum_cons]
    cases hb : st.cache_store.contains k with
    | true =>
      have hmem : k ∈ st.cache_store := by
        simpa [List.contains, List.elem_eq_mem] using hb
      have hstep : LRU.access_or_update_cache st k =
          (true, { st with cache_store := st.cache_store.erase k ++ [k] }) := by
        unfold LRU.access_or_update_cache
        rw [if_pos hb]
      rw [hstep]
      have hset : (st.cache_store.erase k ++ [k]).toFinset =
          st.cache_store.toFinset := by
        ext z
        simp only [List.mem_toFinset, List.mem_append, List.mem_singleton,
          List.Nodup.mem_erase_iff hnd]
        constructor
        · rintro (⟨_, h2⟩ | h1)
          · exact h2
          · rw [h1]; exact hmem
        · intro hz
          by_cases hzk : z = k
          · exact Or.inr hzk
          · exact Or.inl ⟨hzk, hz⟩
      rw [minMisses_hit cap k rest _ (List.mem_toFinset.2 hmem)]
      have hih := ih { st with cache_store := st.cache_store.erase k ++ [k] }
        hc
        (List.Nodup.append (hnd.erase k) (List.nodup_singleton _)
          (by
            intro z hz hz2
            simp only [List.mem_singleton] at hz2
            subst hz2
            exact ((List.Nodup.mem_erase_iff hnd).1 hz).1 rfl))
        (by
          show (st.cache_store.erase k ++ [k]).length ≤ cap
          rw [List.length_append, List.length_singleton,
            List.length_erase_of_mem hmem]
          have : 1 ≤ st.cache_store.length := List.length_pos.2 (by
            intro hnil
            rw [hnil] at hmem
            simp at hmem)
          omega)
      show minMisses cap rest st.cache_store.toFinset ≤
        (if true = true then 0 else 1) +
          outSum _ _ { st with cache_store := st.cache_store.erase k ++ [k] } rest
      rw [← hset]
      simpa using hih
    | false =>
      have hnmem : k ∉ st.cache_store := by
        simpa [List.contains, List.elem_eq_mem] using hb
      have hknF : k ∉ st.cache_store.toFinset := fun h =>
        hnmem (List.mem_toFinset.1 h)
      have hcard : st.cache_store.toFinset.card = st.cache_store.length :=
        List.toFinset_card_of_nodup hnd
      by_cases hfull : st.max_capacity ≤ st.cache_store.length
      · -- at capacity: drop the oldest, then append
        have hstep : LRU.access_or_update_cache st k =
            (false, { st with cache_store := st.cache_store.drop 1 ++ [k] }) := by
          unfold LRU.access_or_update_cache
          rw [if_neg (by rw [hb]; exact Bool.false_ne_true)]
          simp only [if_pos hfull]
        have hpos : 0 < st.cache_store.length := by
          rw [hc] at hfull
          omega
        obtain ⟨h0, t, hsl⟩ :=
          List.exists_cons_of_ne_nil (List.ne_nil_of_length_pos hpos)
        have hdrop : st.cache_store.drop 1 = t := by rw [hsl]; rfl
        rw [hdrop] at hstep
        rw [hstep]
        have hmemh0 : h0 ∈ st.cache_store := by
          rw [hsl]; exact List.mem_cons_self _ _
        have hh0F : h0 ∈ st.cache_store.toFinset := List.mem_toFinset.2 hmemh0
        have hfull2 : ¬ st.cache_store.toFinset.card < cap := by
          rw [hcard, ← hc]
          omega
        have hne : st.cache_store.toFinset.Nonempty := ⟨h0, hh0F⟩
        rw [minMisses_miss_full cap k rest _ hknF hfull2 hne]
        have hinf := Finset.inf'_le
          (fun v => minMisses cap rest
            (insert k (st.cache_store.toFinset.erase v))) hh0F
        have hndt : t.Nodup := by
          rw [hsl] at hnd
          exact (List.nodup_cons.mp hnd).2
        have hh0t : h0 ∉ t := by
          rw [hsl] at hnd
          exact (List.nodup_cons.mp hnd).1
        have hsetE : st.cache_store.toFinset.erase h0 = t.toFinset := by
          ext z
          simp only [Finset.mem_erase, List.mem_toFinset, hsl, List.mem_cons]
          constructor
          · rintro ⟨h1, h2 | h2⟩
            · exact absurd h2 h1
            · exact h2
          · intro hz
            refine ⟨?_, Or.inr hz⟩
            intro hzh
            rw [hzh] at hz
            exact hh0t hz
        have hknt : k ∉ t := by
          intro hkt
          apply hnmem
          rw [hsl]
          exact List.mem_cons_of_mem _ hkt
        have hsetI : (t ++ [k]).toFinset = insert k t.toFinset := by
          ext z
          simp only [List.mem_toFinset, List.mem_append, List.mem_singleton,
            Finset.mem_insert]
          constructor
          · rintro (h1 | h1)
            · exact Or.inr h1
            · exact Or.inl h1
          · rintro (h1 | h1)
            · exact Or.inr h1
            · exact Or.inl h1
        have hih := ih { st with cache_store := t ++ [k] } hc
          (List.Nodup.append hndt (List.nodup_singleton _)
            (by
              intro z hz hz2
              simp only [List.mem_singleton] at hz2
              subst hz2
              exact hknt hz))
          (by
            show (t ++ [k]).length ≤ cap
            rw [List.length_append, List.length_singleton]
            rw [hsl] at hlen
            simp only [List.length_cons] at hlen
            omega)
        have hsetGoal : ({ st with cache_store := t ++ [k] } :
            LRU.State).cache_store.toFinset = insert k t.toFinset := hsetI
        rw [hsetGoal] at hih
        rw [hsetE] at hinf
        show 1 + _ ≤ 1 + outSum (fun hit => if hit then 0 else 1)
          (fun s2 k => LRU.access_or_update_cache s2 k)
          { st with cache_store := t ++ [k] } rest
        omega
      · -- below capacity: plain append
        have hstep : LRU.access_or_update_cache st k =
            (false, { st with cache_store := st.cache_store ++ [k] }) := by
          unfold LRU.access_or_update_cache
          rw [if_neg (by rw [hb]; exact Bool.false_ne_true)]
          simp only [if_neg hfull]
        rw [hstep]
        have hlt : st.cache_store.toFinset.card < cap := by
          rw [hcard, ← hc]
          omega
        rw [minMisses_miss_notfull cap k rest _ hknF hlt]
        have hsetI : (st.cache_store ++ [k]).toFinset =
            insert k st.cache_store.toFinset := by
          ext z
          simp only [List.mem_toFinset, List.mem_append, List.mem_singleton,
            Finset.mem_insert]
          constructor
          · rintro (h1 | h1)
            · exact Or.inr h1
            · exact Or.inl h1
          · rintro (h1 | h1)
            · exact Or.inr h1
            · exact Or.inl h1
        have hih := ih { st with cache_store := st.cache_store ++ [k] } hc
          (List.Nodup.append hnd (List.nodup_singleton _)
            (by
              intro z hz hz2
              simp only [List.mem_singleton] at hz2
              subst hz2
              exact hnmem hz))
          (by
            show (st.cache_store ++ [k]).length ≤ cap
            rw [List.length_append, List.length_singleton]
            rw [hc] at hfull
            omega)
        have hsetGoal : ({ st with cache_store := st.cache_store ++ [k] } :
            LRU.State).cache_store.toFinset = insert k st.cache_store.toFinset :=
          hsetI
        rw [hsetGoal] at hih
        show 1 + _ ≤ 1 + outSum (fun hit => if hit then 0 else 1)
          (fun s2 k => LRU.access_or_update_cache s2 k)
          { st with cache_store := st.cache_store ++ [k] } rest
        omega

/-- The request stream annotated with the next-use value the Belady driver
receives: at absolute position `pos`, the request for `k` carries the
absolute index of `k`'s next occurrence in the remaining suffix. -/
def annot (pos : ℕ) : List Int → List (Int × Option ℕ)
  | [] => []
  | k :: rest => (k, (firstIdx rest k).map ((pos + 1) + ·)) :: annot (pos + 1) rest

theorem zip_precomputeGo (keys : List Int) :
    ∀ (pos : ℕ), keys.zip ((OPT.precomputeGo pos keys).1) = annot pos keys := by
  induction keys with
  | nil => intro pos; rfl
  | cons k rest ih =>
    intro pos
    have hcons : (OPT.precomputeGo pos (k :: rest)).1 =
        ((OPT.precomputeGo (pos + 1) rest).2.lookup k) ::
          (OPT.precomputeGo (pos + 1) rest).1 := rfl
    rw [hcons, List.zip_cons_cons, precomputeGo_lookup, ih (pos + 1)]
    rfl

theorem zipmap_keys (s : List (Int × Op)) :
    ∀ (nus : List (Option ℕ)),
      (s.zip nus).map (fun r => (r.1.1, r.2)) = (s.map Prod.fst).zip nus := by
  induction s with
  | nil => intro nus; rfl
  | cons x xs ih =>
    intro nus
    cases nus with
    | nil => rfl
    | cons nu rest =>
      rw [List.zip_cons_cons, List.map_cons, List.map_cons, List.zip_cons_cons,
        ih rest]

theorem toFinset_append_singleton (l : List Int) (k : Int) :
    (l ++ [k]).toFinset = insert k l.toFinset := by
  ext z
  simp only [List.mem_toFinset, List.mem_append, List.mem_singleton,
    Finset.mem_insert]
  constructor
  · rintro (h | h)
    · exact Or.inr h
    · exact Or.inl h
  · rintro (h | h)
    · exact Or.inr h
    · exact Or.inl h

theorem toFinset_erase_nodup (l : List Int) (hnd : l.Nodup) (a : Int) :
    (l.erase a).toFinset = l.toFinset.erase a := by
  ext z
  simp only [List.mem_toFinset, Finset.mem_erase,
    List.Nodup.mem_erase_iff hnd]

theorem natIdx_le_length (l : List Int) (k : Int) : natIdx l k ≤ l.length := by
  unfold natIdx
  cases hf : firstIdx l k with
  | none => simp
  | some d =>
    have := (firstIdx_spec_some l k d hf).1
    have hd : d < l.length := List.get?_eq_some.1 this |>.1
    simpa using Nat.le_of_lt hd

theorem shiftIdx (pos : ℕ) (rest : List Int) (k r : Int) (h : ¬ k = r) :
    (firstIdx (k :: rest) r).map (fun d => pos + d) =
      (firstIdx rest r).map (fun d => (pos + 1) + d) := by
  rw [show firstIdx (k :: rest) r =
    (if k = r then some 0 else (firstIdx rest r).map (· + 1)) from rfl,
    if_neg h]
  cases firstIdx rest r with
  | none => rfl
  | some d =>
    simp only [Option.map_map, Option.map_some']
    show some (pos + (d + 1)) = some (pos + 1 + d)
    congr 1
    omega

/-- Run invariant of the embedded Belady engine at absolute position `pos`
with remaining key suffix `keys`: fixed capacity, duplicate-free cache within
capacity, and every resident's `page_next_use` entry holding the absolute
index of its next occurrence in `keys` (`none` = never again), with the pair
present in the heap. -/
def OPTRunInv (cap pos : ℕ) (keys : List Int) (st : OPT.State) : Prop :=
  st.capacity = cap ∧ st.cache.Nodup ∧ st.cache.length ≤ cap ∧
  ∀ r ∈ st.cache,
    OPT.alookup st.page_next_use r =
      some ((firstIdx keys r).map (fun d => pos + d)) ∧
    ((firstIdx keys r).map (fun d => pos + d), r) ∈ st.heap

theorem entLE_natIdx (pos : ℕ) (rest : List Int) (k v r : Int)
    (hkv : ¬ k = v) (hkr : ¬ k = r)
    (hle : OPT.entLE ((firstIdx (k :: rest) v).map (fun d => pos + d), v)
      ((firstIdx (k :: rest) r).map (fun d => pos + d), r) = true) :
    natIdx rest r ≤ natIdx rest v := by
  have hv := shiftIdx pos rest k v hkv
  have hr := shiftIdx pos rest k r hkr
  rw [show OPT.entLE ((firstIdx (k :: rest) v).map (fun d => pos + d), v)
      ((firstIdx (k :: rest) r).map (fun d => pos + d), r) =
      OPT.entLE ((firstIdx rest v).map (fun d => (pos + 1) + d), v)
        ((firstIdx rest r).map (fun d => (pos + 1) + d), r) from by
    rw [hv, hr]] at hle
  unfold natIdx
  cases hfv : firstIdx rest v with
  | none =>
    cases hfr : firstIdx rest r with
    | none => simp
    | some b =>
      simp only [Option.getD_some]
      have := natIdx_le_length rest r
      rw [natIdx, hfr] at this
      simpa using this
  | some a =>
    cases hfr : firstIdx rest r with
    | none =>
      exfalso
      rw [hfv, hfr] at hle
      simp [OPT.entLE, OPT.nuGt] at hle
    | some b =>
      rw [hfv, hfr] at hle
      simp only [Option.map_some', Option.getD_some]
      simp [OPT.entLE, OPT.nuGt] at hle
      rcases hle with h | h
      · omega
      · omega

theorem opt_le_min (cap : ℕ) (hcap : 0 < cap) :
    ∀ (keys : List Int) (pos : ℕ) (st : OPT.State),
      OPTRunInv cap pos keys st →
      outSum (fun hit => if hit then 0 else 1) optStepFn st (annot pos keys) ≤
        minMisses cap keys st.cache.toFinset := by
  intro keys
  induction keys with
  | nil =>
    intro pos st _
    simp [annot, outSum_nil, minMisses]
  | cons k rest ih =>
    intro pos st hinv
    obtain ⟨hc, hnd, hlen, hmap⟩ := hinv
    show outSum (fun hit => if hit then 0 else 1) optStepFn st
      ((k, (firstIdx rest k).map ((pos + 1) + ·)) :: annot (pos + 1) rest) ≤ _
    set nuk := (firstIdx rest k).map ((pos + 1) + ·) with hnuk
    rw [outSum_cons]
    cases hb : st.cache.contains k with
    | true =>
      have hmem : k ∈ st.cache := by
        simpa [List.contains, List.elem_eq_mem] using hb
      have hAL := access_page_hit st k nuk hb
      have hflag : (optStepFn st (k, nuk)).1 = true := by
        show (OPT.access_page st k nuk).1 = true
        rw [hAL]
      have hstate : (optStepFn st (k, nuk)).2 =
          { st with page_next_use := OPT.aset st.page_next_use k nuk,
                    heap := st.heap ++ [(nuk, k)] } := by
        show (OPT.access_page st k nuk).2.2 = _
        rw [hAL]
      rw [hflag, hstate, minMisses_hit cap k rest _ (List.mem_toFinset.2 hmem)]
      have hinv2 : OPTRunInv cap (pos + 1) rest
          { st with page_next_use := OPT.aset st.page_next_use k nuk,
                    heap := st.heap ++ [(nuk, k)] } := by
        refine ⟨hc, hnd, hlen, ?_⟩
        intro r hr
        obtain ⟨hl, hh⟩ := hmap r hr
        by_cases hrk : r = k
        · subst hrk
          constructor
          · show OPT.alookup (OPT.aset st.page_next_use r nuk) r = _
            rw [alookup_aset, if_pos rfl, hnuk]
          · show ((firstIdx rest r).map (fun d => pos + 1 + d), r) ∈
              st.heap ++ [(nuk, r)]
            rw [hnuk]
            exact List.mem_append.2 (Or.inr (List.mem_singleton.2 rfl))
        · have hkr : ¬ k = r := fun h => hrk h.symm
          constructor
          · show OPT.alookup (OPT.aset st.page_next_use k nuk) r = _
            rw [alookup_aset, if_neg hrk, hl, shiftIdx pos rest k r hkr]
          · show ((firstIdx rest r).map (fun d => pos + 1 + d), r) ∈
              st.heap ++ [(nuk, k)]
            rw [← shiftIdx pos rest k r hkr]
            exact List.mem_append.2 (Or.inl hh)
      have hih := ih (pos + 1)
        { st with page_next_use := OPT.aset st.page_next_use k nuk,
                  heap := st.heap ++ [(nuk, k)] } hinv2
      show (0 : ℕ) + _ ≤ _
      rw [Nat.zero_add]
      exact hih
    | false =>
      have hnmem : k ∉ st.cache := by
        simpa [List.contains, List.elem_eq_mem] using hb
      have hknF : k ∉ st.cache.toFinset := fun h => hnmem (List.mem_toFinset.1 h)
      have hcard : st.cache.toFinset.card = st.cache.length :=
        List.toFinset_card_of_nodup hnd
      by_cases hfull : st.capacity ≤ st.cache.length
      · -- full: the eviction loop runs and returns the farthest victim
        have hlenEq : st.cache.length = cap := by
          rw [hc] at hfull; omega
        have hpos0 : 0 < st.cache.length := by omega
        obtain ⟨k0, hk0⟩ := List.exists_mem_of_length_pos hpos0
        obtain ⟨hl0, hh0⟩ := hmap k0 hk0
        have hvalid0 : OPT.validEnt st.cache st.page_next_use
            ((firstIdx (k :: rest) k0).map (fun d => pos + d), k0) = true := by
          simp [OPT.validEnt, List.contains, List.elem_eq_mem, hk0, hl0]
        obtain ⟨e, dropped, heap2, heq, hvalid, hperm, hdropinv, hmin⟩ :=
          evict_loop_spec st.cache st.page_next_use st.heap.length st.heap
            (Nat.le_refl _) ⟨_, hh0, hvalid0⟩
        have hvparts : st.cache.contains e.2 = true ∧
            OPT.alookup st.page_next_use e.2 = some e.1 := by
          have hv2 := hvalid
          unfold OPT.validEnt at hv2
          rw [Bool.and_eq_true] at hv2
          exact ⟨hv2.1, by simpa using hv2.2⟩
        have hvcache : e.2 ∈ st.cache := by
          simpa [List.contains, List.elem_eq_mem] using hvparts.1
        obtain ⟨hle2, hhe2⟩ := hmap e.2 hvcache
        have hvval : e.1 = (firstIdx (k :: rest) e.2).map (fun d => pos + d) := by
          have hv3 := hvparts.2
          rw [hle2] at hv3
          exact (Option.some_inj.1 hv3).symm
        have hAL := access_page_miss_full st k nuk hb hfull heq
        have hflag : (optStepFn st (k, nuk)).1 = false := by
          show (OPT.access_page st k nuk).1 = false
          rw [hAL]
        have hstate : (optStepFn st (k, nuk)).2 =
            { capacity := st.capacity,
              cache := st.cache.erase e.2 ++ [k],
              heap := heap2 ++ [(nuk, k)],
              page_next_use := OPT.aset (OPT.adel st.page_next_use e.2) k nuk } := by
          show (OPT.access_page st k nuk).2.2 = _
          rw [hAL]
        rw [hflag, hstate]
        have hk0F : k0 ∈ st.cache.toFinset := List.mem_toFinset.2 hk0
        have hneF : st.cache.toFinset.Nonempty := ⟨k0, hk0F⟩
        have hnotlt : ¬ st.cache.toFinset.card < cap := by rw [hcard]; omega
        rw [minMisses_miss_full cap k rest _ hknF hnotlt hneF]
        have hmaxL : ∀ r ∈ st.cache, natIdx rest r ≤ natIdx rest e.2 := by
          intro r hr
          obtain ⟨hlr, hhr⟩ := hmap r hr
          have hvr : OPT.validEnt st.cache st.page_next_use
              ((firstIdx (k :: rest) r).map (fun d => pos + d), r) = true := by
            simp [OPT.validEnt, List.contains, List.elem_eq_mem, hr, hlr]
          have hent := hmin _ hhr hvr
          have hkr : ¬ k = r := fun h => hnmem (h ▸ hr)
          have hke2 : ¬ k = e.2 := fun h => hnmem (h ▸ hvcache)
          apply entLE_natIdx pos rest k e.2 r hke2 hkr
          rw [← hvval]
          exact hent
        have hmaxF : ∀ r ∈ st.cache.toFinset, natIdx rest r ≤ natIdx rest e.2 :=
          fun r hr => hmaxL r (List.mem_toFinset.1 hr)
        have hcapF : st.cache.toFinset.card ≤ cap := by rw [hcard]; omega
        have hve2F : e.2 ∈ st.cache.toFinset := List.mem_toFinset.2 hvcache
        have hgv := greedy_victim_min cap rest st.cache.toFinset k e.2 hknF
          hve2F hcapF hmaxF
        have hchain : minMisses cap rest
            (insert k (st.cache.toFinset.erase e.2)) ≤
            st.cache.toFinset.inf' hneF
              (fun v => minMisses cap rest
                (insert k (st.cache.toFinset.erase v))) :=
          Finset.le_inf' hneF _ hgv
        have hndE : (st.cache.erase e.2).Nodup := hnd.erase _
        have hknE : k ∉ st.cache.erase e.2 := fun h =>
          hnmem (List.mem_of_mem_erase h)
        have hinv2 : OPTRunInv cap (pos + 1) rest
            { capacity := st.capacity,
              cache := st.cache.erase e.2 ++ [k],
              heap := heap2 ++ [(nuk, k)],
              page_next_use := OPT.aset (OPT.adel st.page_next_use e.2) k nuk } := by
          refine ⟨hc, ?_, ?_, ?_⟩
          · exact List.Nodup.append hndE (List.nodup_singleton _)
              (by
                intro z hz hz2
                simp only [List.mem_singleton] at hz2
                subst hz2
                exact hknE hz)
          · show (st.cache.erase e.2 ++ [k]).length ≤ cap
            rw [List.length_append, List.length_singleton,
              List.length_erase_of_mem hvcache]
            omega
          · intro r hr
            rcases List.mem_append.1 hr with hr | hr
            · have hrc : r ∈ st.cache := List.mem_of_mem_erase hr
              have hre2 : r ≠ e.2 := ((List.Nodup.mem_erase_iff hnd).1 hr).1
              have hrk : r ≠ k := fun h => hnmem (h ▸ hrc)
              obtain ⟨hlr, hhr⟩ := hmap r hrc
              have hkr : ¬ k = r := fun h => hrk h.symm
              constructor
              · show OPT.alookup
                  (OPT.aset (OPT.adel st.page_next_use e.2) k nuk) r = _
                rw [alookup_aset, if_neg hrk, alookup_adel_ne _ _ _ hre2, hlr,
                  shiftIdx pos rest k r hkr]
              · show ((firstIdx rest r).map (fun d => pos + 1 + d), r) ∈
                  heap2 ++ [(nuk, k)]
                rw [← shiftIdx pos rest k r hkr]
                apply List.mem_append.2
                left
                have hprmem : ((firstIdx (k :: rest) r).map (fun d => pos + d), r)
                    ∈ e :: (dropped ++ heap2) := (hperm.mem_iff).1 hhr
                rcases List.mem_cons.1 hprmem with hpr | hpr
                · exfalso
                  have : r = e.2 := congrArg Prod.snd hpr
                  exact hre2 this
                · rcases List.mem_append.1 hpr with hpr | hpr
                  · exfalso
                    have hdrop := hdropinv _ hpr
                    have hvr : OPT.validEnt st.cache st.page_next_use
                        ((firstIdx (k :: rest) r).map (fun d => pos + d), r) =
                        true := by
                      simp [OPT.validEnt, List.contains, List.elem_eq_mem,
                        hrc, hlr]
                    rw [hdrop] at hvr
                    exact Bool.false_ne_true hvr
                  · exact hpr
            · rw [List.mem_singleton] at hr
              subst hr
              constructor
              · show OPT.alookup
                  (OPT.aset (OPT.adel st.page_next_use e.2) r nuk) r = _
                rw [alookup_aset, if_pos rfl, hnuk]
              · show ((firstIdx rest r).map (fun d => pos + 1 + d), r) ∈
                  heap2 ++ [(nuk, r)]
                rw [hnuk]
                exact List.mem_append.2 (Or.inr (List.mem_singleton.2 rfl))
        have hih := ih (pos + 1)
          { capacity := st.capacity,
            cache := st.cache.erase e.2 ++ [k],
            heap := heap2 ++ [(nuk, k)],
            page_next_use := OPT.aset (OPT.adel st.page_next_use e.2) k nuk }
          hinv2
        simp only [] at hih
        rw [toFinset_append_singleton, toFinset_erase_nodup st.cache hnd e.2]
          at hih
        show (1 : ℕ) + _ ≤ 1 + _
        exact Nat.add_le_add_left (le_trans hih hchain) 1
      · -- miss with room: plain insertion
        have hAL := access_page_miss_notfull st k nuk hb hfull
        have hflag : (optStepFn st (k, nuk)).1 = false := by
          show (OPT.access_page st k nuk).1 = false
          rw [hAL]
        have hstate : (optStepFn st (k, nuk)).2 =
            { st with cache := st.cache ++ [k],
                      page_next_use := OPT.aset st.page_next_use k nuk,
                      heap := st.heap ++ [(nuk, k)] } := by
          show (OPT.access_page st k nuk).2.2 = _
          rw [hAL]
        rw [hflag, hstate]
        have hlt : st.cache.toFinset.card < cap := by
          rw [hcard]
          omega
        rw [minMisses_miss_notfull cap k rest _ hknF hlt]
        have hinv2 : OPTRunInv cap (pos + 1) rest
            { st with cache := st.cache ++ [k],
                      page_next_use := OPT.aset st.page_next_use k nuk,
                      heap := st.heap ++ [(nuk, k)] } := by
          refine ⟨hc, ?_, ?_, ?_⟩
          · exact List.Nodup.append hnd (List.nodup_singleton _)
              (by
                intro z hz hz2
                simp only [List.mem_singleton] at hz2
                subst hz2
                exact hnmem hz)
          · show (st.cache ++ [k]).length ≤ cap
            rw [List.length_append, List.length_singleton]
            omega
          · intro r hr
            rcases List.mem_append.1 hr with hr | hr
            · have hrk : r ≠ k := fun h => hnmem (h ▸ hr)
              have hkr : ¬ k = r := fun h => hrk h.symm
              obtain ⟨hlr, hhr⟩ := hmap r hr
              constructor
              · show OPT.alookup (OPT.aset st.page_next_use k nuk) r = _
                rw [alookup_aset, if_neg hrk, hlr, shiftIdx pos rest k r hkr]
              · show ((firstIdx rest r).map (fun d => pos + 1 + d), r) ∈
                  st.heap ++ [(nuk, k)]
                rw [← shiftIdx pos rest k r hkr]
                exact List.mem_append.2 (Or.inl hhr)
            · rw [List.mem_singleton] at hr
              subst hr
              constructor
              · show OPT.alookup (OPT.aset st.page_next_use r nuk) r = _
                rw [alookup_aset, if_pos rfl, hnuk]
              · show ((firstIdx rest r).map (fun d => pos + 1 + d), r) ∈
                  st.heap ++ [(nuk, r)]
                rw [hnuk]
                exact List.mem_append.2 (Or.inr (List.mem_singleton.2 rfl))
        have hih := ih (pos + 1)
          { st with cache := st.cache ++ [k],
                    page_next_use := OPT.aset st.page_next_use k nuk,
                    heap := st.heap ++ [(nuk, k)] } hinv2
        simp only [] at hih
        rw [toFinset_append_singleton] at hih
        show (1 : ℕ) + _ ≤ 1 + _
        exact Nat.add_le_add_left hih 1

theorem annot_length : ∀ (pos : ℕ) (keys : List Int),
    (annot pos keys).length = keys.length := by
  intro pos keys
  induction keys generalizing pos with
  | nil => rfl
  | cons k rest ih =>
    show (annot pos (k :: rest)).length = rest.length + 1
    rw [show annot pos (k :: rest) =
      (k, (firstIdx rest k).map ((pos + 1) + ·)) :: annot (pos + 1) rest from rfl]
    rw [List.length_cons, ih (pos + 1)]

theorem outSum_one {κ σ : Type} (step : σ → κ → Bool × σ) :
    ∀ (keys : List κ) (st : σ),
      outSum (fun _ => 1) step st keys = keys.length := by
  intro keys
  induction keys with
  | nil => intro st; rfl
  | cons k rest ih =>
    intro st
    rw [outSum_cons, List.length_cons, ih ((step st k).2)]
    omega

/-- C1 (amended): on every request sequence and positive capacity, the
embedded Belady engine scores at least as many total hits as the embedded
LRU engine.  Proved through the offline optimum `minMisses`: the Belady
run's misses meet the optimum (its eviction loop always removes a
farthest-next-use resident, and farthest-in-future eviction is optimal by
the exchange argument), while the LRU run, a legal demand-paging strategy,
can only do worse. -/
theorem belady_beats_lru (cap : ℕ) (hcap : 0 < cap) (seq : List (Int × Op)) :
    LRU.totalHits cap seq ≤ OPT.totalHits cap seq := by
  have hLRU := lru_hits_keys cap seq
  have hone := outSum_one (fun st k => LRU.access_or_update_cache st k)
    (seq.map Prod.fst) (LRU.init cap)
  have hlruMin := min_le_lru_missSum cap hcap (seq.map Prod.fst) (LRU.init cap)
    rfl List.nodup_nil (by simp [LRU.init])
  have hlruMin2 : minMisses cap (seq.map Prod.fst) ∅ ≤
      outSum (fun hit => if hit then 0 else 1)
        (fun s2 k => LRU.access_or_update_cache s2 k) (LRU.init cap)
        (seq.map Prod.fst) := by
    simpa [LRU.init] using hlruMin
  have hOPT := opt_hits_keys cap seq
  have hzip : (seq.zip (OPT.precompute_next_use (seq.map Prod.fst))).map
      (fun r => (r.1.1, r.2)) = annot 0 (seq.map Prod.fst) := by
    rw [zipmap_keys]
    exact zip_precomputeGo (seq.map Prod.fst) 0
  rw [hzip] at hOPT
  have hsplit := outSum_split optStepFn (annot 0 (seq.map Prod.fst))
    (OPT.init cap)
  have hoptMin := opt_le_min cap hcap (seq.map Prod.fst) 0 (OPT.init cap)
    ⟨rfl, List.nodup_nil, by simp [OPT.init], by simp [OPT.init]⟩
  have hoptMin2 : outSum (fun hit => if hit then 0 else 1) optStepFn
      (OPT.init cap) (annot 0 (seq.map Prod.fst)) ≤
      minMisses cap (seq.map Prod.fst) ∅ := by
    simpa [OPT.init] using hoptMin
  have hlen := annot_length 0 (seq.map Prod.fst)
  rw [hLRU, hOPT]
  omega

/-- Witness for `belady_beats_lru` on a concrete trace at capacity 1. -/
theorem belady_beats_lru_witness :
    0 < 1 ∧
    LRU.totalHits 1 [((1 : Int), Op.read), (2, Op.write), (1, Op.read)] ≤
      OPT.totalHits 1 [((1 : Int), Op.read), (2, Op.write), (1, Op.read)] :=
  ⟨by decide, belady_beats_lru 1 (by decide) _⟩

/-- A fixed trace on which the LARC admission filter beats the Belady
engine: ten hot keys are warmed up, then eleven blocks each consisting of
one cold key followed by the ten hot keys.  LARC never admits the cold
keys into its primary cache; the embedded Belady engine is forced to
insert every missed key and so evicts a hot key for each cold one. -/
def bigTrace : List (Int × Op) :=
  ((List.range 10).flatMap
    (fun i => [(((i : Int) + 1), Op.read), (((i : Int) + 1), Op.read)])) ++
  ((List.range 11).flatMap (fun b =>
    (((100 : Int) + b), Op.read) ::
      (List.range 10).map (fun i => (((i : Int) + 1), Op.read))))

/-- C1 is false as stated: each of ARC, LARC and the two N-Hit engines
strictly beats the embedded Belady engine on some trace, because they can
decline to insert a missed key (ghost-hit bookkeeping, admission filter,
promotion thresholds) while `OptimalCache.access_page` always inserts and,
at capacity, always evicts a resident. -/
theorem belady_not_optimal_counterexample :
    OPT.totalHits 1 [((1 : Int), Op.read), (2, Op.read), (1, Op.read), (2, Op.read)] <
      ARC.totalHits 1 [((1 : Int), Op.read), (2, Op.read), (1, Op.read), (2, Op.read)] ∧
    OPT.totalHits 10 bigTrace < LARC.totalHits 10 bigTrace ∧
    OPT.totalHits 1 [((1 : Int), Op.read), (2, Op.read), (1, Op.read)] <
      NHit.totalHits 1 0 2 [((1 : Int), Op.read), (2, Op.read), (1, Op.read)] ∧
    OPT.totalHits 1 [((1 : Int), Op.read), (2, Op.read), (1, Op.read)] <
      NHitLRU.totalHits 1 0 2 2 [((1 : Int), Op.read), (2, Op.read), (1, Op.read)] := by
  refine ⟨by decide, ?_, by decide, by decide⟩
  set_option maxRecDepth 1000000 in decide
